import Mathlib

/-!
Permeability filter (`PFilter/PermeabilityFilter.h`).

A shallow embedding of the functions of the file: `getAbsoluteFlow`,
`getFlowConfidence`, `computeSpatialPermeability`, `filterXY`,
`computeTemporalPermeability` and `filterT`.

Pixel values are elements of a linearly ordered field `α` (the idealisation of
`float`); the embedding is executable at `α = ℚ`.  The OpenCV / libm primitives
`sqrt` and `pow` with a real exponent are parameters `sqrtF` and `powF`, and the
resampling primitive `remap` is a parameter too; the theorems that need the
values of `sqrt` and `pow` instantiate them with `Real.sqrt` and `Real.rpow`.

The arithmetic is exact: the rounding of `float` is not modelled.  For the two
permeability maps the definitions with the suffix `_float32` add the range of
`float`, an operation whose exact value is out of range giving `+inf`.
-/

namespace PFilter

/-- Dense matrix `cv::Mat_<T>`: `rows`, `cols`, the channel count of `T`, and the
element accessor `m(y, x)[c]` as `data y x c`. -/
structure Mat (α : Type) where
  rows : Nat
  cols : Nat
  channels : Nat
  data : Nat → Nat → Nat → α

namespace Mat

variable {α : Type}

/-- Read `m(y, x)[c]`. -/
def get (m : Mat α) (y x c : Nat) : α := m.data y x c

/-- Write `m(y, x)[c] = v`. -/
def set (m : Mat α) (y x c : Nat) (v : α) : Mat α :=
  { m with data := fun y1 x1 c1 => if y1 = y ∧ x1 = x ∧ c1 = c then v else m.data y1 x1 c1 }

/-- Matrix of zeros, `Mat_<T>::zeros(h, w)` for a `T` with `ch` channels. -/
def zeros [Zero α] (h w ch : Nat) : Mat α := ⟨h, w, ch, fun _ _ _ => 0⟩

/-- Transpose, `m.t()`. -/
def t (m : Mat α) : Mat α := ⟨m.cols, m.rows, m.channels, fun y x c => m.data x y c⟩

end Mat

/-- The buffers that `filterXY` indexes element by element. -/
inductive Buf where
  | J_XY | perm_horizontal | perm_vertical
  | lp | lp_normal | rp | rp_normal
  | dp | dp_normal | up | up_normal
  deriving DecidableEq, Repr

/-- One element access `buf(row, col)`; the indices are the C++ `int` expressions. -/
structure Access where
  buf : Buf
  row : Int
  col : Int
  deriving DecidableEq, Repr

/-- A C++ `for` loop whose control variable runs through `idx` in order. -/
def forLoop {ι σ : Type} (idx : List ι) (body : ι → σ → σ) (s : σ) : σ :=
  idx.foldl (fun s i => body i s) s

/-- Values of `x` in `for (int x = 1; x <= n-1; x++)`. -/
def upFromOne (n : Nat) : List Nat := (List.range (n - 1)).map (fun i => i + 1)

/-- Values of `x` in `for (int x = n-2; x >= 0; x--)`. -/
def downFrom (n : Nat) : List Nat := (List.range (n - 1)).reverse

section Permeability

variable {α : Type} [LinearOrderedField α]

/-- The call `warpAffine(I, I_shifted, (1,0,-1; 0,1,0), size)` of OpenCV with its default
flags: the destination pixel `(y, x)` is the source pixel `(y, x+1)`, and a pixel whose
source lies outside the image is the border constant `0`. -/
def warpAffine_shift (I : Mat α) : Mat α :=
  ⟨I.rows, I.cols, I.channels, fun y x c => if x + 1 < I.cols then I.data y (x + 1) c else 0⟩

/-- Function `computeSpatialPermeability` (lines 127-165), in exact arithmetic: neither the
rounding nor the overflow of the `float` operations of lines 151-162 is modelled; for the
overflow see `computeSpatialPermeability_float32`. -/
def computeSpatialPermeability (sqrtF : α → α) (powF : α → α → α)
    (src : Mat α) (delta_XY alpha_XY : α) : Mat α :=
  let I := src
  let h := I.rows
  let w := I.cols
  let num_channels := I.channels
  let I_shifted := warpAffine_shift I
  let diff_perm : Nat → Nat → Nat → α := fun y x c => I.get y x c - I_shifted.get y x c
  let dJdx : Nat → Nat → α := fun y x =>
    sqrtF (forLoop (List.range num_channels) (fun c acc => acc + (diff_perm y x c) ^ 2) 0)
  ⟨h, w, 1, fun y x _ => (1 + powF |dJdx y x / (sqrtF 3 * delta_XY)| alpha_XY)⁻¹⟩

end Permeability

section Filter

variable {α : Type} [LinearOrderedField α]

/-- Modelled from the spec: the parameter record `cpm_pf_params_t` of `globals.h`, which is
not among the sources; the four fields are the ones `filterXY` reads, with the types their
names give (`iterations` an integer count, the other three floats). -/
structure cpm_pf_params_t (α : Type) where
  iterations_input_int : Int
  lambda_XY_input_float : α
  delta_XY_input_float : α
  alpha_XY_input_float : α

/-- Conversion of a `float` to `int` (`int lambda_XY = ...lambda_XY_input_float`):
truncation towards zero. -/
def truncToInt [FloorRing α] (x : α) : Int := if 0 ≤ x then ⌊x⌋ else ⌈x⌉

/-- What survives from one row or column to the next: the field `J_XY`, and two records kept
for the safety claims, the divisors used so far and the element accesses made so far. -/
structure Run (α : Type) where
  J_XY : Mat α
  divisors : List α
  trace : List Access

/-- State inside the loop over the rows: `Run` and the four work rows. -/
structure HState (α : Type) extends Run α where
  lp : Mat α
  lp_normal : Mat α
  rp : Mat α
  rp_normal : Mat α

/-- State inside the loop over the columns: `Run` and the four work columns. -/
structure VState (α : Type) extends Run α where
  dp : Mat α
  dp_normal : Mat α
  up : Mat α
  up_normal : Mat α

/-- Body of the left pass for one `x` and one channel `c` (lines 283-284). -/
def leftStep (perm_horizontal : Mat α) (y x c : Nat) (s : HState α) : HState α :=
  let s : HState α := { s with
    lp := s.lp.set 0 x c
      (perm_horizontal.get y (x - 1) 0 * (s.lp.get 0 (x - 1) c + s.J_XY.get y (x - 1) c))
    trace := s.trace ++ [⟨Buf.perm_horizontal, y, (x : Int) - 1⟩, ⟨Buf.lp, 0, (x : Int) - 1⟩,
      ⟨Buf.J_XY, y, (x : Int) - 1⟩, ⟨Buf.lp, 0, x⟩] }
  { s with
    lp_normal := s.lp_normal.set 0 x c
      (perm_horizontal.get y (x - 1) 0 * (s.lp_normal.get 0 (x - 1) c + 1))
    trace := s.trace ++ [⟨Buf.perm_horizontal, y, (x : Int) - 1⟩,
      ⟨Buf.lp_normal, 0, (x : Int) - 1⟩, ⟨Buf.lp_normal, 0, x⟩] }

/-- The combining assignment to `J_XY(y, x)[c]` (lines 338 and 343). The quotient is the exact
one: the source forms the numerator in `float` and the denominator in `double` (the literal
`1.0`) and stores the quotient rounded to `float`; this rounding is not modelled. -/
def combineH (lambda_XY : Int) (y x c : Nat) (s : HState α) : HState α :=
  { s with
    J_XY := s.J_XY.set y x c
      ((s.lp.get 0 x c + ((1 - lambda_XY : Int) : α) * s.J_XY.get y x c + s.rp.get 0 x c)
        / (s.lp_normal.get 0 x c + 1 + s.rp_normal.get 0 x c))
    divisors := s.divisors ++ [s.lp_normal.get 0 x c + 1 + s.rp_normal.get 0 x c]
    trace := s.trace ++ [⟨Buf.lp, 0, x⟩, ⟨Buf.J_XY, y, x⟩, ⟨Buf.rp, 0, x⟩,
      ⟨Buf.lp_normal, 0, x⟩, ⟨Buf.rp_normal, 0, x⟩, ⟨Buf.J_XY, y, x⟩] }

/-- The two accumulating assignments of the right pass, to `rp(0, x)[c]` and to
`rp_normal(0, x)[c]` (lines 331-332). -/
def rightAccumulate (perm_horizontal : Mat α) (y x c : Nat) (s : HState α) : HState α :=
  let s : HState α := { s with
    rp := s.rp.set 0 x c
      (perm_horizontal.get y x 0 * (s.rp.get 0 (x + 1) c + s.J_XY.get y (x + 1) c))
    trace := s.trace ++ [⟨Buf.perm_horizontal, y, x⟩, ⟨Buf.rp, 0, (x : Int) + 1⟩,
      ⟨Buf.J_XY, y, (x : Int) + 1⟩, ⟨Buf.rp, 0, x⟩] }
  { s with
    rp_normal := s.rp_normal.set 0 x c
      (perm_horizontal.get y x 0 * (s.rp_normal.get 0 (x + 1) c + 1))
    trace := s.trace ++ [⟨Buf.perm_horizontal, y, x⟩, ⟨Buf.rp_normal, 0, (x : Int) + 1⟩,
      ⟨Buf.rp_normal, 0, x⟩] }

/-- Body of the right pass for one `x` and one channel `c` (lines 331-343): accumulate, then
for `x == w-2` combine column `x+1`, then combine column `x`. -/
def rightStep (perm_horizontal : Mat α) (lambda_XY : Int) (w y x c : Nat)
    (s : HState α) : HState α :=
  let s : HState α := rightAccumulate perm_horizontal y x c s
  let s : HState α := if x + 2 = w then combineH lambda_XY y (x + 1) c s else s
  combineH lambda_XY y x c s

/-- Body of `for (int y = 0; y < h; y++)` of the horizontal pass (lines 263-392). -/
def horizontalRow (perm_horizontal : Mat α) (lambda_XY : Int) (w num_chs y : Nat)
    (r : Run α) : Run α :=
  let s : HState α :=
    { toRun := r
      lp := Mat.zeros 1 w num_chs
      lp_normal := Mat.zeros 1 w num_chs
      rp := Mat.zeros 1 w num_chs
      rp_normal := Mat.zeros 1 w num_chs }
  let s := forLoop (upFromOne w)
    (fun x s => forLoop (List.range num_chs) (fun c s => leftStep perm_horizontal y x c s) s) s
  let s := forLoop (downFrom w)
    (fun x s => forLoop (List.range num_chs)
      (fun c s => rightStep perm_horizontal lambda_XY w y x c s) s) s
  s.toRun

/-- Body of the down pass for one `y` and one channel `c` (lines 425-426). -/
def downStep (perm_vertical : Mat α) (x y c : Nat) (s : VState α) : VState α :=
  let s : VState α := { s with
    dp := s.dp.set y 0 c
      (perm_vertical.get (y - 1) x 0 * (s.dp.get (y - 1) 0 c + s.J_XY.get (y - 1) x c))
    trace := s.trace ++ [⟨Buf.perm_vertical, (y : Int) - 1, x⟩, ⟨Buf.dp, (y : Int) - 1, 0⟩,
      ⟨Buf.J_XY, (y : Int) - 1, x⟩, ⟨Buf.dp, y, 0⟩] }
  { s with
    dp_normal := s.dp_normal.set y 0 c
      (perm_vertical.get (y - 1) x 0 * (s.dp_normal.get (y - 1) 0 c + 1))
    trace := s.trace ++ [⟨Buf.perm_vertical, (y : Int) - 1, x⟩,
      ⟨Buf.dp_normal, (y : Int) - 1, 0⟩, ⟨Buf.dp_normal, y, 0⟩] }

/-- The combining assignment to `J_XY(y, x)[c]` of the vertical pass (lines 467 and 470). The
quotient is the exact one, as in `combineH`. -/
def combineV (lambda_XY : Int) (x y c : Nat) (s : VState α) : VState α :=
  { s with
    J_XY := s.J_XY.set y x c
      ((s.dp.get y 0 c + ((1 - lambda_XY : Int) : α) * s.J_XY.get y x c + s.up.get y 0 c)
        / (s.dp_normal.get y 0 c + 1 + s.up_normal.get y 0 c))
    divisors := s.divisors ++ [s.dp_normal.get y 0 c + 1 + s.up_normal.get y 0 c]
    trace := s.trace ++ [⟨Buf.dp, y, 0⟩, ⟨Buf.J_XY, y, x⟩, ⟨Buf.up, y, 0⟩,
      ⟨Buf.dp_normal, y, 0⟩, ⟨Buf.up_normal, y, 0⟩, ⟨Buf.J_XY, y, x⟩] }

/-- The two accumulating assignments of the up pass, to `up(y, 0)[c]` and to
`up_normal(y, 0)[c]` (lines 461-462). -/
def upAccumulate (perm_vertical : Mat α) (x y c : Nat) (s : VState α) : VState α :=
  let s : VState α := { s with
    up := s.up.set y 0 c
      (perm_vertical.get y x 0 * (s.up.get (y + 1) 0 c + s.J_XY.get (y + 1) x c))
    trace := s.trace ++ [⟨Buf.perm_vertical, y, x⟩, ⟨Buf.up, (y : Int) + 1, 0⟩,
      ⟨Buf.J_XY, (y : Int) + 1, x⟩, ⟨Buf.up, y, 0⟩] }
  { s with
    up_normal := s.up_normal.set y 0 c
      (perm_vertical.get y x 0 * (s.up_normal.get (y + 1) 0 c + 1))
    trace := s.trace ++ [⟨Buf.perm_vertical, y, x⟩, ⟨Buf.up_normal, (y : Int) + 1, 0⟩,
      ⟨Buf.up_normal, y, 0⟩] }

/-- Body of the up pass for one `y` and one channel `c` (lines 461-470): accumulate, then
for `y == h-2` combine row `y+1`, then combine row `y`. -/
def upStep (perm_vertical : Mat α) (lambda_XY : Int) (h x y c : Nat)
    (s : VState α) : VState α :=
  let s : VState α := upAccumulate perm_vertical x y c s
  let s : VState α := if y + 2 = h then combineV lambda_XY x (y + 1) c s else s
  combineV lambda_XY x y c s

/-- Body of `for (int x = 0; x < w; x++)` of the vertical pass (lines 416-522). -/
def verticalCol (perm_vertical : Mat α) (lambda_XY : Int) (h num_chs x : Nat)
    (r : Run α) : Run α :=
  let s : VState α :=
    { toRun := r
      dp := Mat.zeros h 1 num_chs
      dp_normal := Mat.zeros h 1 num_chs
      up := Mat.zeros h 1 num_chs
      up_normal := Mat.zeros h 1 num_chs }
  let s := forLoop (upFromOne h)
    (fun y s => forLoop (List.range num_chs) (fun c s => downStep perm_vertical x y c s) s) s
  let s := forLoop (downFrom h)
    (fun y s => forLoop (List.range num_chs)
      (fun c s => upStep perm_vertical lambda_XY h x y c s) s) s
  s.toRun

/-- The horizontal pass of one iteration: the loop over the rows. -/
def horizontalPass (perm_horizontal : Mat α) (lambda_XY : Int) (h w num_chs : Nat)
    (r : Run α) : Run α :=
  forLoop (List.range h) (fun y r => horizontalRow perm_horizontal lambda_XY w num_chs y r) r

/-- The vertical pass of one iteration: the loop over the columns. -/
def verticalPass (perm_vertical : Mat α) (lambda_XY : Int) (h w num_chs : Nat)
    (r : Run α) : Run α :=
  forLoop (List.range w) (fun x r => verticalCol perm_vertical lambda_XY h num_chs x r) r

/-- Body of `for (int i = 0; i < iterations; ++i)` (lines 253-542). -/
def iteration (perm_horizontal perm_vertical : Mat α) (lambda_XY : Int) (h w num_chs : Nat)
    (r : Run α) : Run α :=
  verticalPass perm_vertical lambda_XY h w num_chs
    (horizontalPass perm_horizontal lambda_XY h w num_chs r)

/-- Function `filterXY` (lines 167-552), returning the field together with the record of
divisors and element accesses. Reading and writing a matrix is total here: for a field
smaller than the image the accesses outside the field, which the source makes without a
check, are recorded in `trace` and go through. -/
def filterXY_run [FloorRing α] (sqrtF : α → α) (powF : α → α → α)
    (src J : Mat α) (cpm_pf_params : cpm_pf_params_t α) : Run α :=
  let I := src
  let h := I.rows
  let w := I.cols
  let iterations := cpm_pf_params.iterations_input_int
  let lambda_XY : Int := truncToInt cpm_pf_params.lambda_XY_input_float
  let delta_XY := cpm_pf_params.delta_XY_input_float
  let alpha_XY := cpm_pf_params.alpha_XY_input_float
  let num_chs := J.channels
  let perm_horizontal := computeSpatialPermeability sqrtF powF I delta_XY alpha_XY
  let I_t := I.t
  let perm_vertical := (computeSpatialPermeability sqrtF powF I_t delta_XY alpha_XY).t
  forLoop (List.range iterations.toNat)
    (fun _ r => iteration perm_horizontal perm_vertical lambda_XY h w num_chs r)
    ⟨J, [], []⟩

/-- Function `filterXY`: the returned field `J_XY`. -/
def filterXY [FloorRing α] (sqrtF : α → α) (powF : α → α → α)
    (src J : Mat α) (cpm_pf_params : cpm_pf_params_t α) : Mat α :=
  (filterXY_run sqrtF powF src J cpm_pf_params).J_XY

end Filter

section Specification

variable {α : Type} [LinearOrderedField α]

/-- An element access lies inside an `h × w` grid. -/
def Access.inGrid (h w : Nat) (a : Access) : Prop :=
  0 ≤ a.row ∧ a.row < h ∧ 0 ≤ a.col ∧ a.col < w

/-- Every entry of the image equals the pixel value `k` (one value per channel). -/
def Mat.uniform (I : Mat α) (k : Nat → α) : Prop :=
  ∀ y, y < I.rows → ∀ x, x < I.cols → ∀ c, c < I.channels → I.get y x c = k c

/-- The specification's forward accumulation: `lp(0) = 0`,
`lp(x) = perm(x-1) * (lp(x-1) + f(x-1))`. -/
def spec_lp (perm f : Nat → α) : Nat → α
  | 0 => 0
  | x + 1 => perm x * (spec_lp perm f x + f x)

/-- The specification's forward normaliser: `lpN(0) = 0`,
`lpN(x) = perm(x-1) * (lpN(x-1) + 1)`. -/
def spec_lpN (perm : Nat → α) : Nat → α
  | 0 => 0
  | x + 1 => perm x * (spec_lpN perm x + 1)

/-- The specification's backward accumulation at column `x`, `d` columns before the last:
`rp(W-1) = 0`, `rp(x) = perm(x) * (rp(x+1) + f(x+1))`. -/
def spec_rp_aux (perm f : Nat → α) (x : Nat) : Nat → α
  | 0 => 0
  | d + 1 => perm x * (spec_rp_aux perm f (x + 1) d + f (x + 1))

/-- The specification's backward normaliser at column `x`, `d` columns before the last:
`rpN(W-1) = 0`, `rpN(x) = perm(x) * (rpN(x+1) + 1)`. -/
def spec_rpN_aux (perm : Nat → α) (x : Nat) : Nat → α
  | 0 => 0
  | d + 1 => perm x * (spec_rpN_aux perm (x + 1) d + 1)

/-- The value the specification gives to column `x` of a row of width `w` for `lambdaXY = 0`:
`(lp(x) + f(x) + rp(x)) / (lpN(x) + 1 + rpN(x))`, all four recurrences over the row `f` as
it stood at the start of the pass. -/
def spec_horizontal (perm f : Nat → α) (w x : Nat) : α :=
  (spec_lp perm f x + f x + spec_rp_aux perm f x (w - 1 - x))
    / (spec_lpN perm x + 1 + spec_rpN_aux perm x (w - 1 - x))

/-- The value the specification gives to the permeability at `(y, x)`, `x < W-1`:
`1 / (1 + (d / (sqrt(n) * deltaXY))^alphaXY)` with `d` the Euclidean norm over the `n`
channels of `I(y,x) - I(y,x+1)`. -/
def spec_spatialPermeability (sqrtF : α → α) (powF : α → α → α)
    (I : Mat α) (delta_XY alpha_XY : α) (y x : Nat) : α :=
  let d := sqrtF (((List.range I.channels).map
    (fun c => (I.get y x c - I.get y (x + 1) c) ^ 2)).sum)
  1 / (1 + powF (d / (sqrtF (I.channels : α) * delta_XY)) alpha_XY)

end Specification

section Inputs

/-- A row of width 3 with the values `0, 0, 1`, one channel. -/
def row001 : Mat ℚ := ⟨1, 3, 1, fun _ x _ => if x = 2 then 1 else 0⟩

/-- A permeability row of width 3, every entry `1`. -/
def permOnes : Mat ℚ := ⟨1, 3, 1, fun _ _ _ => 1⟩

/-- The single-channel 1 × 2 image with the pixels `0 1`. -/
def img01 {α : Type} [Zero α] [One α] : Mat α := ⟨1, 2, 1, fun _ x _ => if x = 0 then 0 else 1⟩

/-- The single-channel 1 × 1 image with the pixel `1`. -/
def img1 {α : Type} [One α] : Mat α := ⟨1, 1, 1, fun _ _ _ => 1⟩

/-- The single-channel 1 × 2 image with the pixels `1 1`. -/
def img11 {α : Type} [One α] : Mat α := ⟨1, 2, 1, fun _ _ _ => 1⟩

/-- A row of width 3 with the values `0, 5, 7`, one channel. -/
def row057 : Mat ℚ := ⟨1, 3, 1, fun _ x _ => if x = 0 then 0 else if x = 1 then 5 else 7⟩

/-- The single-channel 4 × 4 image whose columns 0 and 1 are `0` and whose columns 2 and 3
are `1`. -/
def edgeImage {α : Type} [Zero α] [One α] : Mat α :=
  ⟨4, 4, 1, fun _ x _ => if x < 2 then 0 else 1⟩

/-- The horizontal permeability of `edgeImage` for `deltaXY = 0.017`, `alphaXY = 2`, in
rational numbers: `867/1000867` across the edge and in the last column, `1` elsewhere. -/
def edgePermH : Mat ℚ := ⟨4, 4, 1, fun _ x _ => if x = 1 ∨ 3 ≤ x then 867 / 1000867 else 1⟩

/-- The vertical permeability of `edgeImage` for `deltaXY = 0.017`, `alphaXY = 2`, in rational
numbers: `867/1000867` in the last row under the columns of value 1, `1` elsewhere. -/
def edgePermV : Mat ℚ := ⟨4, 4, 1, fun y x _ => if 3 ≤ y ∧ 2 ≤ x then 867 / 1000867 else 1⟩

end Inputs

section Invariants

variable {α : Type} [LinearOrderedField α]

/-- No normaliser is negative and no recorded divisor is below 1 (horizontal pass). -/
def HState.safe (s : HState α) : Prop :=
  (∀ x c, 0 ≤ s.lp_normal.get 0 x c) ∧ (∀ x c, 0 ≤ s.rp_normal.get 0 x c) ∧
    ∀ d, d ∈ s.divisors → 1 ≤ d

/-- No normaliser is negative and no recorded divisor is below 1 (vertical pass). -/
def VState.safe (s : VState α) : Prop :=
  (∀ y c, 0 ≤ s.dp_normal.get y 0 c) ∧ (∀ y c, 0 ≤ s.up_normal.get y 0 c) ∧
    ∀ d, d ∈ s.divisors → 1 ≤ d

/-- No recorded divisor is below 1. -/
def Run.safe (r : Run α) : Prop := ∀ d, d ∈ r.divisors → 1 ≤ d

/-- No entry that the passes read is negative. -/
def Mat.nonneg (perm : Mat α) : Prop := ∀ y x, 0 ≤ perm.get y x 0

end Invariants

section Bounds

variable {α : Type} [LinearOrderedField α]

/-- Every value of channel `c` in the `h × w` grid lies between `lo c` and `hi c`. -/
def Mat.within (J : Mat α) (lo hi : Nat → α) (h w chs : Nat) : Prop :=
  ∀ y x c, y < h → x < w → c < chs → lo c ≤ J.get y x c ∧ J.get y x c ≤ hi c

/-- State of the horizontal pass in which the field lies between `lo` and `hi` and each
accumulator lies between `lo` and `hi` times its normaliser. -/
def HState.bounded (lo hi : Nat → α) (h w chs : Nat) (s : HState α) : Prop :=
  (∀ x c, 0 ≤ s.lp_normal.get 0 x c) ∧ (∀ x c, 0 ≤ s.rp_normal.get 0 x c) ∧
  (∀ x c, lo c * s.lp_normal.get 0 x c ≤ s.lp.get 0 x c ∧
    s.lp.get 0 x c ≤ hi c * s.lp_normal.get 0 x c) ∧
  (∀ x c, lo c * s.rp_normal.get 0 x c ≤ s.rp.get 0 x c ∧
    s.rp.get 0 x c ≤ hi c * s.rp_normal.get 0 x c) ∧
  s.J_XY.within lo hi h w chs

/-- State of the vertical pass in which the field lies between `lo` and `hi` and each
accumulator lies between `lo` and `hi` times its normaliser. -/
def VState.bounded (lo hi : Nat → α) (h w chs : Nat) (s : VState α) : Prop :=
  (∀ y c, 0 ≤ s.dp_normal.get y 0 c) ∧ (∀ y c, 0 ≤ s.up_normal.get y 0 c) ∧
  (∀ y c, lo c * s.dp_normal.get y 0 c ≤ s.dp.get y 0 c ∧
    s.dp.get y 0 c ≤ hi c * s.dp_normal.get y 0 c) ∧
  (∀ y c, lo c * s.up_normal.get y 0 c ≤ s.up.get y 0 c ∧
    s.up.get y 0 c ≤ hi c * s.up_normal.get y 0 c) ∧
  s.J_XY.within lo hi h w chs

end Bounds

section Blocked

variable {α : Type}

end Blocked

section Transfer

variable {α β : Type}

/-- The matrix `n` holds the images under `φ` of the entries of `m`. -/
def Mat.like (φ : α → β) (m : Mat α) (n : Mat β) : Prop :=
  ∀ y x c, n.get y x c = φ (m.get y x c)

/-- Two states of the horizontal pass, the second entrywise the image of the first. -/
def HState.like (φ : α → β) (s : HState α) (t : HState β) : Prop :=
  Mat.like φ s.J_XY t.J_XY ∧ Mat.like φ s.lp t.lp ∧ Mat.like φ s.lp_normal t.lp_normal ∧
    Mat.like φ s.rp t.rp ∧ Mat.like φ s.rp_normal t.rp_normal

/-- Two states of the vertical pass, the second entrywise the image of the first. -/
def VState.like (φ : α → β) (s : VState α) (t : VState β) : Prop :=
  Mat.like φ s.J_XY t.J_XY ∧ Mat.like φ s.dp t.dp ∧ Mat.like φ s.dp_normal t.dp_normal ∧
    Mat.like φ s.up t.up ∧ Mat.like φ s.up_normal t.up_normal

end Transfer

section Frame

variable {α : Type}

/-- The matrix `J` has the dimensions and channel count of `J0` and the entries of `J0`
outside the `h × w` grid with `chs` channels. -/
def Mat.sameOutside (J0 : Mat α) (h w chs : Nat) (J : Mat α) : Prop :=
  J.rows = J0.rows ∧ J.cols = J0.cols ∧ J.channels = J0.channels ∧
    ∀ y x c, (h ≤ y ∨ w ≤ x ∨ chs ≤ c) → J.get y x c = J0.get y x c

end Frame

section Geometry

variable {α : Type} [LinearOrderedField α]

/-- The loop nest `for (y = 0; y < h; y++) for (x = 0; x < w; x++)`. -/
def forYX {σ : Type} (h w : Nat) (body : Nat → Nat → σ → σ) (s : σ) : σ :=
  forLoop (List.range h) (fun y s => forLoop (List.range w) (fun x s => body y x s) s) s

/-- The loop nest `for y ... for x ... for (c = 0; c < chs; c++)`. -/
def forYXC {σ : Type} (h w chs : Nat) (body : Nat → Nat → Nat → σ → σ) (s : σ) : σ :=
  forYX h w (fun y x s => forLoop (List.range chs) (fun c s => body y x c s) s) s

/-- Constant `kPOSITION_INVALID = Vec2i(-1, -1)` (line 16). -/
def kPOSITION_INVALID : Int × Int := (-1, -1)

/-- Constant `kMOVEMENT_UNKNOWN = 1e10` (line 17). -/
def kMOVEMENT_UNKNOWN : α := 10000000000

/-- Constant `kFLOW_UNKNOWN = Vec2f(kMOVEMENT_UNKNOWN, kMOVEMENT_UNKNOWN)` (line 18). -/
def kFLOW_UNKNOWN : α × α := (kMOVEMENT_UNKNOWN, kMOVEMENT_UNKNOWN)

/-- OpenCV's `cvRound`: the nearest integer, a tie going to the even neighbour. -/
def cvRound [FloorRing α] (v : α) : Int :=
  if v - ⌊v⌋ < 1 / 2 then ⌊v⌋
  else if 1 / 2 < v - ⌊v⌋ then ⌊v⌋ + 1
  else if ⌊v⌋ % 2 = 0 then ⌊v⌋ else ⌊v⌋ + 1

/-- Function `getAbsoluteFlow` (lines 27-34); the result is `(row, column)`, and `flow` is
the `Vec2f` with `flow[0] = flow.1`, `flow[1] = flow.2`. -/
def getAbsoluteFlow [FloorRing α] (x y : Int) (flow : α × α) (h w : Int) : Int × Int :=
  let result : Int × Int := (cvRound ((y : α) + flow.2), cvRound ((x : α) + flow.1))
  if result.1 ≥ 0 ∧ result.1 < h ∧ result.2 ≥ 0 ∧ result.2 < w then result
  else kPOSITION_INVALID

/-- Matrix of ones, `Mat1f::ones(h, w)`. -/
def Mat.ones (h w : Nat) : Mat α := ⟨h, w, 1, fun _ _ _ => 1⟩

/-- State of the first loop nest of `getFlowConfidence`. -/
structure ConfState (α : Type) where
  distances : Mat α
  max_distance : α

/-- State of the second loop nest of `getFlowConfidence`: the map, and how many times
`"wrong!"` has been printed. -/
structure NormState (α : Type) where
  distances : Mat α
  wrong : Nat

/-- Body of the first loop nest of `getFlowConfidence` for one pixel (lines 55-83). -/
def distanceStep [FloorRing α] (sqrtF : α → α) (forward_flow backward_flow : Mat α)
    (h w y x : Nat) (s : ConfState α) : ConfState α :=
  let foward : α × α := (forward_flow.get y x 0, forward_flow.get y x 1)
  if foward.1 ≠ (kFLOW_UNKNOWN : α × α).1 ∧ foward.2 ≠ (kFLOW_UNKNOWN : α × α).2 then
    let next_position := getAbsoluteFlow (x : Int) (y : Int) foward (h : Int) (w : Int)
    if next_position ≠ kPOSITION_INVALID then
      let backward : α × α :=
        (backward_flow.get next_position.1.toNat next_position.2.toNat 0,
          backward_flow.get next_position.1.toNat next_position.2.toNat 1)
      if backward.1 ≠ (kFLOW_UNKNOWN : α × α).1 ∧ backward.2 ≠ (kFLOW_UNKNOWN : α × α).2 then
        let distance := sqrtF ((foward.1 + backward.1) ^ 2 + (foward.2 + backward.2) ^ 2)
        let max_distance := if distance > s.max_distance then distance else s.max_distance
        { distances := s.distances.set y x 0 distance, max_distance := max_distance }
      else s
    else s
  else s

/-- Body of the second loop nest of `getFlowConfidence` for one pixel (lines 99-112). -/
def normaliseStep (max_distance : α) (y x : Nat) (s : NormState α) : NormState α :=
  let distances : Mat α :=
    if s.distances.get y x 0 < 0 then s.distances.set y x 0 0
    else s.distances.set y x 0 ((max_distance - s.distances.get y x 0) / max_distance)
  if distances.get y x 0 > 1 ∨ distances.get y x 0 < 0 then
    { distances := distances, wrong := s.wrong + 1 }
  else
    { distances := distances, wrong := s.wrong }

/-- The distance map and the maximal distance after the first loop nest (lines 43-85). -/
def flowDistances [FloorRing α] (sqrtF : α → α) (forward_flow backward_flow : Mat α) :
    ConfState α :=
  let h := forward_flow.rows
  let w := forward_flow.cols
  forYX h w (fun y x s => distanceStep sqrtF forward_flow backward_flow h w y x s)
    { distances := ⟨h, w, 1, fun _ _ _ => -1⟩, max_distance := -1 }

/-- Function `getFlowConfidence` (lines 41-123), with the count of `"wrong!"` prints. -/
def getFlowConfidence_run [FloorRing α] (sqrtF : α → α) (forward_flow backward_flow : Mat α) :
    NormState α :=
  let h := forward_flow.rows
  let w := forward_flow.cols
  let s := flowDistances sqrtF forward_flow backward_flow
  if s.max_distance > 0 then
    forYX h w (fun y x n => normaliseStep s.max_distance y x n)
      { distances := s.distances, wrong := 0 }
  else
    { distances := Mat.ones forward_flow.rows forward_flow.cols, wrong := 0 }

/-- Function `getFlowConfidence`: the returned confidence map. -/
def getFlowConfidence [FloorRing α] (sqrtF : α → α) (forward_flow backward_flow : Mat α) :
    Mat α :=
  (getFlowConfidence_run sqrtF forward_flow backward_flow).distances

end Geometry

section FlowDistance

variable {α : Type} [LinearOrderedField α]

/-- The distance that the first loop nest of `getFlowConfidence` computes for pixel `(y, x)`,
when it computes one: the forward flow is known, its target lies in the field and the
backward flow at the target is known (the conditions and the formula of lines 56-67). -/
def pixelDistance [FloorRing α] (sqrtF : α → α) (forward_flow backward_flow : Mat α)
    (h w y x : Nat) : Option α :=
  let foward : α × α := (forward_flow.get y x 0, forward_flow.get y x 1)
  if foward.1 ≠ (kFLOW_UNKNOWN : α × α).1 ∧ foward.2 ≠ (kFLOW_UNKNOWN : α × α).2 then
    let next_position := getAbsoluteFlow (x : Int) (y : Int) foward (h : Int) (w : Int)
    if next_position ≠ kPOSITION_INVALID then
      let backward : α × α :=
        (backward_flow.get next_position.1.toNat next_position.2.toNat 0,
          backward_flow.get next_position.1.toNat next_position.2.toNat 1)
      if backward.1 ≠ (kFLOW_UNKNOWN : α × α).1 ∧ backward.2 ≠ (kFLOW_UNKNOWN : α × α).2 then
        some (sqrtF ((foward.1 + backward.1) ^ 2 + (foward.2 + backward.2) ^ 2))
      else none
    else none
  else none

end FlowDistance

section FlowInputs

variable {α : Type} [LinearOrderedField α]

/-- A flow field on the 1 × 2 grid: `(1, 0)` at pixel `(0,0)` and `(3, 0)` at `(0,1)`. -/
def flow13 : Mat α := ⟨1, 2, 2, fun _ x c => if c = 0 then (if x = 0 then 1 else 3) else 0⟩

/-- A flow field on the 1 × 2 grid: `(1, 0)` at pixel `(0,0)` and `(0, 0)` at `(0,1)`. -/
def flow10 : Mat α := ⟨1, 2, 2, fun _ x c => if c = 0 then (if x = 0 then 1 else 0) else 0⟩

/-- A flow field on the 1 × 2 grid: `(0, 0)` at pixel `(0,0)` and `(1, 0)` at `(0,1)`. -/
def flow01 : Mat α := ⟨1, 2, 2, fun _ x c => if c = 0 then (if x = 0 then 0 else 1) else 0⟩

/-- The flow field on the 1 × 1 grid whose only pixel is the unknown flow. -/
def flowUnknown : Mat α := ⟨1, 1, 2, fun _ _ _ => kMOVEMENT_UNKNOWN⟩

/-- The flow field on the 1 × 2 grid that is `(0, 0)` at both pixels. -/
def flowZero : Mat α := ⟨1, 2, 2, fun _ _ _ => 0⟩

end FlowInputs

section ConfidenceSpecification

variable {α : Type} [LinearOrderedField α]

/-- The distance of the specification at pixel `(y, x)`, for a pixel with known forward flow,
in-bounds target and known backward flow at the target:
`D = ||F(X,Y) - B(X + Fx(X,Y), Y + Fy(X,Y))||`. -/
def spec_pixelDistance [FloorRing α] (sqrtF : α → α) (forward_flow backward_flow : Mat α)
    (h w y x : Nat) : Option α :=
  let foward : α × α := (forward_flow.get y x 0, forward_flow.get y x 1)
  if foward.1 ≠ (kFLOW_UNKNOWN : α × α).1 ∧ foward.2 ≠ (kFLOW_UNKNOWN : α × α).2 then
    let next_position := getAbsoluteFlow (x : Int) (y : Int) foward (h : Int) (w : Int)
    if next_position ≠ kPOSITION_INVALID then
      let backward : α × α :=
        (backward_flow.get next_position.1.toNat next_position.2.toNat 0,
          backward_flow.get next_position.1.toNat next_position.2.toNat 1)
      if backward.1 ≠ (kFLOW_UNKNOWN : α × α).1 ∧ backward.2 ≠ (kFLOW_UNKNOWN : α × α).2 then
        some (sqrtF ((foward.1 - backward.1) ^ 2 + (foward.2 - backward.2) ^ 2))
      else none
    else none
  else none

/-- The maximum of the specification's distances over all the pixels that have one. -/
def spec_maxDistance [FloorRing α] (sqrtF : α → α) (forward_flow backward_flow : Mat α) : α :=
  forYX forward_flow.rows forward_flow.cols
    (fun y x m =>
      match spec_pixelDistance sqrtF forward_flow backward_flow forward_flow.rows
        forward_flow.cols y x with
      | some d => max m d
      | none => m) 0

/-- The confidence of the specification at a pixel that has a distance:
`C = 1 - D / max(D)`. -/
def spec_flowConfidence [FloorRing α] (sqrtF : α → α) (forward_flow backward_flow : Mat α)
    (y x : Nat) : Option α :=
  (spec_pixelDistance sqrtF forward_flow backward_flow forward_flow.rows forward_flow.cols
    y x).map (fun d => 1 - d / spec_maxDistance sqrtF forward_flow backward_flow)

end ConfidenceSpecification

section Temporal

variable {α : Type} [LinearOrderedField α]

/-- One plane of `split(m, planes)`: channel `c` of `m` as a single-channel matrix. -/
def Mat.channel (m : Mat α) (c : Nat) : Mat α :=
  ⟨m.rows, m.cols, 1, fun y x _ => m.data y x c⟩

/-- Elementwise difference `a - b`. -/
def Mat.sub (a b : Mat α) : Mat α :=
  ⟨a.rows, a.cols, a.channels, fun y x c => a.data y x c - b.data y x c⟩

/-- Elementwise product `a.mul(b)`. -/
def Mat.mul (a b : Mat α) : Mat α :=
  ⟨a.rows, a.cols, a.channels, fun y x c => a.data y x c * b.data y x c⟩

/-- Body of the loop nest that builds `prev_map` (lines 583-584 and 716-717). -/
def backwardMapStep (flow_prev_XYT : Mat α) (y x : Nat) (prev_map : Mat α) : Mat α :=
  let prev_map := prev_map.set y x 0 ((x : α) - flow_prev_XYT.get y x 0)
  prev_map.set y x 1 ((y : α) - flow_prev_XYT.get y x 1)

/-- The backward warp map `prev_map` (lines 580-586 and 713-719). -/
def backwardMap (flow_prev_XYT : Mat α) (h w : Nat) : Mat α :=
  forYX h w (fun y x prev_map => backwardMapStep flow_prev_XYT y x prev_map) (Mat.zeros h w 2)

/-- The photometric permeability `perm_photo` from the image and the warped previous image
(lines 600-613), in exact arithmetic; for the overflow of the `float` operations see
`photometricPermeability_float32`. -/
def photometricPermeability (sqrtF : α → α) (powF : α → α → α)
    (I I_prev_warped : Mat α) (delta_photo alpha_photo : α) : Mat α :=
  let h := I.rows
  let w := I.cols
  let num_channels := I.channels
  let diff_I := I.sub I_prev_warped
  let sum_diff_I : Nat → Nat → α := fun y x =>
    sqrtF (forLoop (List.range num_channels) (fun c acc => acc + (diff_I.get y x c) ^ 2) 0)
  ⟨h, w, 1, fun y x _ =>
    (1 + powF |sum_diff_I y x / (sqrtF 3 * delta_photo)| alpha_photo)⁻¹⟩

/-- The gradient permeability `perm_gradient` from the flow and the warped previous flow
(lines 627-640), in exact arithmetic (for the overflow see `gradientPermeability_float32`);
`num_channels_flow` is `flow_XY.channels()`, which is 2 for a `Mat2f`. -/
def gradientPermeability (sqrtF : α → α) (powF : α → α → α)
    (flow_XY flow_prev_XYT_warped : Mat α) (h w : Nat) (delta_grad alpha_grad : α) : Mat α :=
  let num_channels_flow := flow_XY.channels
  let diff_flow := flow_XY.sub flow_prev_XYT_warped
  let sum_diff_flow : Nat → Nat → α := fun y x =>
    sqrtF (forLoop (List.range num_channels_flow)
      (fun c acc => acc + (diff_flow.get y x c) ^ 2) 0)
  ⟨h, w, 1, fun y x _ =>
    (1 + powF |sum_diff_flow y x / (sqrtF 2 * delta_grad)| alpha_grad)⁻¹⟩

/-- Function `computeTemporalPermeability` (lines 554-659); `remap src map1 map2` is OpenCV's
`remap` with `INTER_CUBIC`, the resampling primitive. -/
def computeTemporalPermeability (sqrtF : α → α) (powF : α → α → α)
    (remap : Mat α → Mat α → Mat α → Mat α)
    (I I_prev flow_XY flow_prev_XYT : Mat α)
    (delta_photo delta_grad alpha_photo alpha_grad : α) : Mat α :=
  let h := I.rows
  let w := I.cols
  let prev_map := backwardMap flow_prev_XYT h w
  let prev_maps0 := prev_map.channel 0
  let prev_maps1 := prev_map.channel 1
  let I_prev_warped := remap I_prev prev_maps0 prev_maps1
  let perm_photo := photometricPermeability sqrtF powF I I_prev_warped delta_photo alpha_photo
  let flow_prev_XYT_warped := remap flow_prev_XYT prev_maps0 prev_maps1
  let perm_gradient :=
    gradientPermeability sqrtF powF flow_XY flow_prev_XYT_warped h w delta_grad alpha_grad
  perm_photo.mul perm_gradient

/-- State of the loop `for (i = 0; i < iterations; ++i)` of `filterT`: the vector `result`
and the field `J_XYT`, which shares its data with `J_XY`. -/
structure TState (α : Type) where
  result : List (Mat α)
  J_XYT : Mat α

/-- Body of the last loop nest of `filterT` for one pixel and channel (lines 779-780). -/
def temporalCombineStep (perm_temporal temp_l_t_normal_prev_warped l_t : Mat α) (lambda_T : α)
    (y x c : Nat) (s : Mat α × Mat α) : Mat α × Mat α :=
  let l_t_normal := s.1.set y x c
    (perm_temporal.get y x 0 * temp_l_t_normal_prev_warped.get y x c)
  let J_XYT := s.2.set y x c
    ((l_t.get y x c + (1 - lambda_T) * s.2.get y x c) / (l_t_normal.get y x c + 1))
  (l_t_normal, J_XYT)

/-- Body of the loop `for (i = 0; i < iterations; ++i)` of `filterT` (lines 705-815). -/
def temporalIteration (remap : Mat α → Mat α → Mat α → Mat α)
    (perm_temporal J_prev_XY flow_prev_XYT l_t_prev l_t_normal_prev : Mat α) (lambda_T : α)
    (h w num_channels_flow : Nat) (s : TState α) : TState α :=
  let prev_map := backwardMap flow_prev_XYT h w
  let flow_XYT_prev_maps0 := prev_map.channel 0
  let flow_XYT_prev_maps1 := prev_map.channel 1
  let l_t : Mat α := Mat.zeros h w num_channels_flow
  let l_t_normal : Mat α := Mat.zeros h w num_channels_flow
  let temp_l_t_prev : Mat α := forYXC h w num_channels_flow
    (fun y x c m => m.set y x c (l_t_prev.get y x c + J_prev_XY.get y x c))
    (Mat.zeros h w num_channels_flow)
  let temp_l_t_prev_warped := remap temp_l_t_prev flow_XYT_prev_maps0 flow_XYT_prev_maps1
  let l_t : Mat α := forYXC h w num_channels_flow
    (fun y x c m => m.set y x c (perm_temporal.get y x 0 * temp_l_t_prev_warped.get y x c)) l_t
  let temp_l_t_normal_prev : Mat α := forYXC h w num_channels_flow
    (fun y x c m => m.set y x c (l_t_normal_prev.get y x c + 1))
    (Mat.zeros h w num_channels_flow)
  let temp_l_t_normal_prev_warped :=
    remap temp_l_t_normal_prev flow_XYT_prev_maps0 flow_XYT_prev_maps1
  let p : Mat α × Mat α := forYXC h w num_channels_flow
    (fun y x c p =>
      temporalCombineStep perm_temporal temp_l_t_normal_prev_warped l_t lambda_T y x c p)
    (l_t_normal, s.J_XYT)
  { result := s.result ++ [l_t, p.1], J_XYT := p.2 }

/-- Function `filterT` (lines 661-830): the returned vector of fields. -/
def filterT (sqrtF : α → α) (powF : α → α → α) (remap : Mat α → Mat α → Mat α → Mat α)
    (src src_prev J_XY J_prev_XY flow_XY flow_prev_XYT l_t_prev l_t_normal_prev : Mat α) :
    List (Mat α) :=
  let I := src
  let I_prev := src_prev
  let h := I.rows
  let w := I.cols
  let num_channels_flow := J_XY.channels
  let lambda_T : α := 0
  let delta_photo : α := 3 / 10
  let delta_grad : α := 1
  let alpha_photo : α := 2
  let alpha_grad : α := 2
  let iterations : Nat := 1
  let perm_temporal := computeTemporalPermeability sqrtF powF remap I I_prev flow_XY
    flow_prev_XYT delta_photo delta_grad alpha_photo alpha_grad
  let s := forLoop (List.range iterations)
    (fun _ s => temporalIteration remap perm_temporal J_prev_XY flow_prev_XYT l_t_prev
      l_t_normal_prev lambda_T h w num_channels_flow s)
    { result := [], J_XYT := J_XY }
  s.result ++ [s.J_XYT]

/-- A resampling primitive for the examples: the nearest source pixel (no interpolation). -/
def remapNearest [FloorRing α] (src map1 map2 : Mat α) : Mat α :=
  ⟨map1.rows, map1.cols, src.channels, fun y x c =>
    src.get (cvRound (map2.get y x 0)).toNat (cvRound (map1.get y x 0)).toNat c⟩

/-- The specification's backward map, first coordinate: `x - prevFlow.dx` on the grid. -/
def spec_mapX (prevFlow : Mat α) (h w : Nat) : Mat α :=
  ⟨h, w, 1, fun y x _ => if y < h ∧ x < w then (x : α) - prevFlow.get y x 0 else 0⟩

/-- The specification's backward map, second coordinate: `y - prevFlow.dy` on the grid. -/
def spec_mapY (prevFlow : Mat α) (h w : Nat) : Mat α :=
  ⟨h, w, 1, fun y x _ => if y < h ∧ x < w then (y : α) - prevFlow.get y x 1 else 0⟩

/-- The specification's `prevAccumulator + prevField` as an `h × w` field. -/
def spec_sum (a b : Mat α) (h w chs : Nat) : Mat α :=
  ⟨h, w, chs, fun y x c => if y < h ∧ x < w ∧ c < chs then a.get y x c + b.get y x c else 0⟩

/-- The specification's `prevAccumulatorNormal + 1` as an `h × w` field. -/
def spec_plusOne (a : Mat α) (h w chs : Nat) : Mat α :=
  ⟨h, w, chs, fun y x c => if y < h ∧ x < w ∧ c < chs then a.get y x c + 1 else 0⟩

end Temporal

section Congruence

variable {α : Type}

/-- Two states of the horizontal pass with the same field and the same four work rows; the
records of divisors and accesses may differ. -/
def HState.sameData (s t : HState α) : Prop :=
  s.J_XY = t.J_XY ∧ s.lp = t.lp ∧ s.lp_normal = t.lp_normal ∧ s.rp = t.rp ∧
    s.rp_normal = t.rp_normal

/-- Two states of the vertical pass with the same field and the same four work columns; the
records of divisors and accesses may differ. -/
def VState.sameData (s t : VState α) : Prop :=
  s.J_XY = t.J_XY ∧ s.dp = t.dp ∧ s.dp_normal = t.dp_normal ∧ s.up = t.up ∧
    s.up_normal = t.up_normal

end Congruence

section Passes

variable {α : Type} [LinearOrderedField α]

/-- The loop `for (int i = 0; i < iterations; ++i)` of `filterXY` (lines 253-542) as a
function of the two permeability maps it reads, of `lambda_XY`, of the grid and of the
field. -/
def filterXY_passes (perm_horizontal perm_vertical : Mat α) (lambda_XY : Int)
    (iterations : Int) (h w : Nat) (J : Mat α) : Run α :=
  forLoop (List.range iterations.toNat)
    (fun _ r => iteration perm_horizontal perm_vertical lambda_XY h w J.channels r)
    ⟨J, [], []⟩

/-- The shift of `warpAffine_shift` with the constant `b` for a pixel whose source lies
outside the image (`borderValue`; OpenCV's default, which the code uses, is `0`). -/
def warpAffine_shift_border (b : α) (I : Mat α) : Mat α :=
  ⟨I.rows, I.cols, I.channels, fun y x c => if x + 1 < I.cols then I.data y (x + 1) c else b⟩

/-- The computation of `computeSpatialPermeability` over the shift with border
constant `b`. -/
def computeSpatialPermeability_border (b : α) (sqrtF : α → α) (powF : α → α → α)
    (src : Mat α) (delta_XY alpha_XY : α) : Mat α :=
  let I := src
  let h := I.rows
  let w := I.cols
  let num_channels := I.channels
  let I_shifted := warpAffine_shift_border b I
  let diff_perm : Nat → Nat → Nat → α := fun y x c => I.get y x c - I_shifted.get y x c
  let dJdx : Nat → Nat → α := fun y x =>
    sqrtF (forLoop (List.range num_channels) (fun c acc => acc + (diff_perm y x c) ^ 2) 0)
  ⟨h, w, 1, fun y x _ => (1 + powF |dJdx y x / (sqrtF 3 * delta_XY)| alpha_XY)⁻¹⟩

/-- The computation of `filterXY` with both permeability maps taken over the shift with
border constant `b`. -/
def filterXY_border [FloorRing α] (b : α) (sqrtF : α → α) (powF : α → α → α)
    (src J : Mat α) (cpm_pf_params : cpm_pf_params_t α) : Mat α :=
  (filterXY_passes
    (computeSpatialPermeability_border b sqrtF powF src
      cpm_pf_params.delta_XY_input_float cpm_pf_params.alpha_XY_input_float)
    (computeSpatialPermeability_border b sqrtF powF src.t
      cpm_pf_params.delta_XY_input_float cpm_pf_params.alpha_XY_input_float).t
    (truncToInt cpm_pf_params.lambda_XY_input_float)
    cpm_pf_params.iterations_input_int src.rows src.cols J).J_XY

end Passes

section PassInputs

/-- A 1 × 3 permeability row that is `1` before the last column and `5` in it. -/
def permLast5 : Mat ℚ := ⟨1, 3, 1, fun _ x _ => if x = 2 then 5 else 1⟩

end PassInputs


section AccessBounds

variable {α : Type}

/-- Rows and columns of the buffers of `filterXY` on an `h × w` grid: the field and the two
permeability maps have their own dimensions, the work rows are `zeros(1, w)` (lines 264-267)
and the work columns `zeros(h, 1)` (lines 417-420). -/
def bufferDims (J perm_horizontal perm_vertical : Mat α) (h w : Nat) : Buf → Nat × Nat
  | Buf.J_XY => (J.rows, J.cols)
  | Buf.perm_horizontal => (perm_horizontal.rows, perm_horizontal.cols)
  | Buf.perm_vertical => (perm_vertical.rows, perm_vertical.cols)
  | Buf.lp => (1, w)
  | Buf.lp_normal => (1, w)
  | Buf.rp => (1, w)
  | Buf.rp_normal => (1, w)
  | Buf.dp => (h, 1)
  | Buf.dp_normal => (h, 1)
  | Buf.up => (h, 1)
  | Buf.up_normal => (h, 1)

/-- An element access lies inside the buffer it goes to. -/
def Access.inBuffer (J perm_horizontal perm_vertical : Mat α) (h w : Nat) (a : Access) : Prop :=
  a.inGrid (bufferDims J perm_horizontal perm_vertical h w a.buf).1
    (bufferDims J perm_horizontal perm_vertical h w a.buf).2

/-- An element access lies inside the `h × w` grid and inside the buffer it goes to. -/
def Access.ok (J perm_horizontal perm_vertical : Mat α) (h w : Nat) (a : Access) : Prop :=
  a.inGrid h w ∧ a.inBuffer J perm_horizontal perm_vertical h w

end AccessBounds


section Frames

variable {α : Type} [LinearOrderedField α]

end Frames


section LastColumnSpecification

variable {α : Type} [LinearOrderedField α]

/-- The value the specification gives to the last column of a row of width `w`:
`(lp(W-1) + (1 - lambdaXY) * f(W-1)) / (lpN(W-1) + 1)`, with the `lambdaXY` that the caller
supplied. -/
def spec_lastColumn (perm f : Nat → α) (lambdaXY : α) (w : Nat) : α :=
  (spec_lp perm f (w - 1) + (1 - lambdaXY) * f (w - 1)) / (spec_lpN perm (w - 1) + 1)

end LastColumnSpecification


section Float32Range

variable {α : Type} [LinearOrderedField α]

/-- A `float` as far as its range goes: a finite value, held as the exact number (rounding
is not modelled), or `+inf`. The quantities below are sums of squares and what is computed
from them, so `-inf` does not occur; NaN does not occur for finite pixels and positive
`delta`, `alpha`. -/
inductive F32 (α : Type) where
  | finite (v : α)
  | inf

/-- The least exact value that round-to-nearest takes to `+inf` in `float`:
`2^128 - 2^103`, half a unit in the last place above `FLT_MAX = 2^128 - 2^104`. -/
def FLT_OVERFLOW : α := 2 ^ 128 - 2 ^ 103

/-- The `float` result of an operation whose exact value is `v`: `+inf` on overflow. -/
def F32.ofExact (v : α) : F32 α :=
  if (FLT_OVERFLOW : α) ≤ v then F32.inf else F32.finite v

/-- Sum `a + b` of two `float`s. -/
def F32.add : F32 α → F32 α → F32 α
  | F32.finite a, F32.finite b => F32.ofExact (a + b)
  | _, _ => F32.inf

/-- Square `pow(d, 2)` of a difference `d` of two finite `float`s; a difference that itself
overflows to `±inf` has the square `+inf`, as has every `d` with `d^2` out of range. -/
def F32.sq (d : α) : F32 α := F32.ofExact (d ^ 2)

/-- Square root `sqrt(a)`; `sqrt(+inf) = +inf`. -/
def F32.sqrt (sqrtF : α → α) : F32 α → F32 α
  | F32.finite a => F32.ofExact (sqrtF a)
  | F32.inf => F32.inf

/-- The scaling `abs(a / s)` by a finite positive `s`; `abs(+inf / s) = +inf`. -/
def F32.absDiv (s : α) : F32 α → F32 α
  | F32.finite a => F32.ofExact |a / s|
  | F32.inf => F32.inf

/-- Power `pow(a, e)`; `pow(+inf, e)` is `+inf` for `e > 0`, `1` for `e = 0` and `0` for
`e < 0`. -/
def F32.pow (powF : α → α → α) (e : α) : F32 α → F32 α
  | F32.finite a => F32.ofExact (powF a e)
  | F32.inf => if 0 < e then F32.inf else if e = 0 then F32.finite 1 else F32.finite 0

/-- Sum `1 + a`. -/
def F32.onePlus : F32 α → F32 α
  | F32.finite a => F32.ofExact (1 + a)
  | F32.inf => F32.inf

/-- The final `pow(a, -1)` of the permeability, the reciprocal; `pow(+inf, -1) = 0`. -/
def F32.recip : F32 α → α
  | F32.finite a => a⁻¹
  | F32.inf => 0

/-- Function `computeSpatialPermeability` (lines 127-165) on `float` matrices with the range
of `float`: every operation of lines 151-162 overflows to `+inf` above `FLT_MAX`. Below the
overflow it computes the values of `computeSpatialPermeability`. -/
def computeSpatialPermeability_float32 (sqrtF : α → α) (powF : α → α → α)
    (src : Mat α) (delta_XY alpha_XY : α) : Mat α :=
  let I := src
  let h := I.rows
  let w := I.cols
  let num_channels := I.channels
  let I_shifted := warpAffine_shift I
  let diff_perm : Nat → Nat → Nat → α := fun y x c => I.get y x c - I_shifted.get y x c
  let dJdx : Nat → Nat → F32 α := fun y x =>
    F32.sqrt sqrtF (forLoop (List.range num_channels)
      (fun c acc => F32.add acc (F32.sq (diff_perm y x c))) (F32.finite 0))
  ⟨h, w, 1, fun y x _ =>
    F32.recip (F32.onePlus (F32.pow powF alpha_XY (F32.absDiv (sqrtF 3 * delta_XY) (dJdx y x))))⟩

/-- The 1 × 2 single-channel image with the pixels `0` and `10^20`. -/
def imgHuge : Mat α := ⟨1, 2, 1, fun _ x _ => if x = 0 then 0 else 10 ^ 20⟩

end Float32Range

section Float32Temporal

variable {α : Type} [LinearOrderedField α]

/-- The photometric permeability `perm_photo` (lines 600-613) in the range of `float`. -/
def photometricPermeability_float32 (sqrtF : α → α) (powF : α → α → α)
    (I I_prev_warped : Mat α) (delta_photo alpha_photo : α) : Mat α :=
  let h := I.rows
  let w := I.cols
  let num_channels := I.channels
  let diff_I := I.sub I_prev_warped
  let sum_diff_I : Nat → Nat → F32 α := fun y x =>
    F32.sqrt sqrtF (forLoop (List.range num_channels)
      (fun c acc => F32.add acc (F32.sq (diff_I.get y x c))) (F32.finite 0))
  ⟨h, w, 1, fun y x _ =>
    F32.recip (F32.onePlus (F32.pow powF alpha_photo
      (F32.absDiv (sqrtF 3 * delta_photo) (sum_diff_I y x))))⟩

/-- The gradient permeability `perm_gradient` (lines 627-640) in the range of `float`. -/
def gradientPermeability_float32 (sqrtF : α → α) (powF : α → α → α)
    (flow_XY flow_prev_XYT_warped : Mat α) (h w : Nat) (delta_grad alpha_grad : α) : Mat α :=
  let num_channels_flow := flow_XY.channels
  let diff_flow := flow_XY.sub flow_prev_XYT_warped
  let sum_diff_flow : Nat → Nat → F32 α := fun y x =>
    F32.sqrt sqrtF (forLoop (List.range num_channels_flow)
      (fun c acc => F32.add acc (F32.sq (diff_flow.get y x c))) (F32.finite 0))
  ⟨h, w, 1, fun y x _ =>
    F32.recip (F32.onePlus (F32.pow powF alpha_grad
      (F32.absDiv (sqrtF 2 * delta_grad) (sum_diff_flow y x))))⟩

/-- Function `computeTemporalPermeability` (lines 554-659) in the range of `float`: the
product of the two permeabilities above, both in `[0, 1]`, does not overflow. -/
def computeTemporalPermeability_float32 (sqrtF : α → α) (powF : α → α → α)
    (remap : Mat α → Mat α → Mat α → Mat α)
    (I I_prev flow_XY flow_prev_XYT : Mat α)
    (delta_photo delta_grad alpha_photo alpha_grad : α) : Mat α :=
  let h := I.rows
  let w := I.cols
  let prev_map := backwardMap flow_prev_XYT h w
  let prev_maps0 := prev_map.channel 0
  let prev_maps1 := prev_map.channel 1
  let I_prev_warped := remap I_prev prev_maps0 prev_maps1
  let perm_photo :=
    photometricPermeability_float32 sqrtF powF I I_prev_warped delta_photo alpha_photo
  let flow_prev_XYT_warped := remap flow_prev_XYT prev_maps0 prev_maps1
  let perm_gradient := gradientPermeability_float32 sqrtF powF flow_XY flow_prev_XYT_warped
    h w delta_grad alpha_grad
  perm_photo.mul perm_gradient

/-- The 1 × 2 single-channel image of zeros. -/
def img00 : Mat α := ⟨1, 2, 1, fun _ _ _ => 0⟩

end Float32Temporal


/-! ## Loops and matrices -/

section Basics

variable {α : Type}

@[simp] theorem Mat.get_set (m : Mat α) (y x c : Nat) (v : α) (y1 x1 c1 : Nat) :
    (m.set y x c v).get y1 x1 c1 = if y1 = y ∧ x1 = x ∧ c1 = c then v else m.get y1 x1 c1 :=
  rfl

@[simp] theorem Mat.get_zeros [Zero α] (h w ch y x c : Nat) :
    (Mat.zeros h w ch : Mat α).get y x c = 0 := rfl

@[simp] theorem Mat.get_t (m : Mat α) (y x c : Nat) : m.t.get y x c = m.get x y c := rfl

@[simp] theorem forLoop_nil {ι σ : Type} (body : ι → σ → σ) (s : σ) :
    forLoop [] body s = s := rfl

@[simp] theorem forLoop_cons {ι σ : Type} (i : ι) (idx : List ι) (body : ι → σ → σ) (s : σ) :
    forLoop (i :: idx) body s = forLoop idx body (body i s) := rfl

theorem forLoop_append {ι σ : Type} (l1 l2 : List ι) (body : ι → σ → σ) (s : σ) :
    forLoop (l1 ++ l2) body s = forLoop l2 body (forLoop l1 body s) := by
  simp [forLoop, List.foldl_append]

/-- A property that holds before a loop and is kept by every round holds after it. -/
theorem forLoop_inv {ι σ : Type} (P : σ → Prop) (idx : List ι) (body : ι → σ → σ)
    (hstep : ∀ i, i ∈ idx → ∀ s, P s → P (body i s)) (s : σ) (h0 : P s) :
    P (forLoop idx body s) := by
  induction idx generalizing s with
  | nil => simpa using h0
  | cons i idx ih =>
    rw [forLoop_cons]
    exact ih (fun j hj => hstep j (List.mem_cons_of_mem _ hj)) _
      (hstep i (List.mem_cons_self _ _) s h0)

/-- A relation between the states of two loops over the same indices that holds before them
and is kept by every pair of rounds holds after them. -/
theorem forLoop_rel {ι σ τ : Type} (R : σ → τ → Prop) (idx : List ι)
    (body1 : ι → σ → σ) (body2 : ι → τ → τ)
    (hstep : ∀ i, i ∈ idx → ∀ s t, R s t → R (body1 i s) (body2 i t))
    (s : σ) (t : τ) (h0 : R s t) :
    R (forLoop idx body1 s) (forLoop idx body2 t) := by
  induction idx generalizing s t with
  | nil => simpa using h0
  | cons i idx ih =>
    rw [forLoop_cons, forLoop_cons]
    exact ih (fun j hj => hstep j (List.mem_cons_of_mem _ hj)) _ _
      (hstep i (List.mem_cons_self _ _) s t h0)

theorem mem_upFromOne {n x : Nat} : x ∈ upFromOne n ↔ 1 ≤ x ∧ x + 1 ≤ n := by
  simp only [upFromOne, List.mem_map, List.mem_range]
  constructor
  · rintro ⟨i, hi, rfl⟩; omega
  · rintro ⟨h1, h2⟩; exact ⟨x - 1, by omega, by omega⟩

theorem mem_downFrom {n x : Nat} : x ∈ downFrom n ↔ x + 2 ≤ n := by
  simp only [downFrom, List.mem_reverse, List.mem_range]
  omega

end Basics

/-! ## Zero iterations and the 1 × 1 grid -/

section Degenerate

variable {α : Type} [LinearOrderedField α]

/-- On a grid of width 1 the body of the loop over the rows changes nothing. -/
theorem horizontalRow_width_one (perm : Mat α) (lam : Int) (chs y : Nat) (r : Run α) :
    horizontalRow perm lam 1 chs y r = r := by
  simp [horizontalRow, upFromOne, downFrom]

/-- On a grid of height 1 the body of the loop over the columns changes nothing. -/
theorem verticalCol_height_one (perm : Mat α) (lam : Int) (chs x : Nat) (r : Run α) :
    verticalCol perm lam 1 chs x r = r := by
  simp [verticalCol, upFromOne, downFrom]

/-- On the 1 × 1 grid an iteration changes nothing: neither the field nor the records. -/
theorem iteration_one_by_one (ph pv : Mat α) (lam : Int) (chs : Nat) (r : Run α) :
    iteration ph pv lam 1 1 chs r = r := by
  simp [iteration, horizontalPass, verticalPass, horizontalRow_width_one,
    verticalCol_height_one, List.range_succ]

/-- C3: with `iterations = 0`, `filterXY` returns the field it was given, for every image,
every field and every `lambdaXY`, `deltaXY`, `alphaXY`. -/
theorem C3_zero_iterations [FloorRing α] (sqrtF : α → α) (powF : α → α → α)
    (src J : Mat α) (lambda_XY delta_XY alpha_XY : α) :
    filterXY sqrtF powF src J ⟨0, lambda_XY, delta_XY, alpha_XY⟩ = J := by
  simp [filterXY, filterXY_run]

/-- C10: for a 1 × 1 image, every field, every iteration count and every `lambdaXY`,
`deltaXY`, `alphaXY`, `filterXY` returns the field it was given, and every element access it
makes (there is none) lies in the 1 × 1 grid. -/
theorem C10_one_by_one [FloorRing α] (sqrtF : α → α) (powF : α → α → α)
    (ch : Nat) (pixel : Nat → Nat → Nat → α) (J : Mat α) (p : cpm_pf_params_t α) :
    filterXY sqrtF powF ⟨1, 1, ch, pixel⟩ J p = J ∧
      ∀ a, a ∈ (filterXY_run sqrtF powF ⟨1, 1, ch, pixel⟩ J p).trace → a.inGrid 1 1 := by
  have h : filterXY_run sqrtF powF ⟨1, 1, ch, pixel⟩ J p = ⟨J, [], []⟩ := by
    unfold filterXY_run
    exact forLoop_inv (fun r : Run α => r = (⟨J, [], []⟩ : Run α)) _ _
      (fun _ _ s hs => by simp only [iteration_one_by_one]; exact hs) _ rfl
  constructor
  · simp [filterXY, h]
  · intro a ha
    simp [h] at ha

end Degenerate

/-! ## The spatial permeability -/

section PermeabilityFacts

variable {α : Type} [LinearOrderedField α]

/-- The entry of the permeability map at `(y, x)`, as the code computes it. -/
theorem computeSpatialPermeability_get (sqrtF : α → α) (powF : α → α → α) (I : Mat α)
    (delta_XY alpha_XY : α) (y x c : Nat) :
    (computeSpatialPermeability sqrtF powF I delta_XY alpha_XY).get y x c =
      (1 + powF |sqrtF (forLoop (List.range I.channels)
        (fun c acc => acc + (I.get y x c - (if x + 1 < I.cols then I.get y (x + 1) c else 0)) ^ 2)
          0) / (sqrtF 3 * delta_XY)| alpha_XY)⁻¹ := rfl

/-- When `pow` of a non-negative base is non-negative, every entry lies in `(0, 1]`. -/
theorem computeSpatialPermeability_range (sqrtF : α → α) (powF : α → α → α)
    (hpow : ∀ b e, 0 ≤ b → 0 ≤ powF b e) (I : Mat α) (delta_XY alpha_XY : α) (y x c : Nat) :
    0 < (computeSpatialPermeability sqrtF powF I delta_XY alpha_XY).get y x c ∧
      (computeSpatialPermeability sqrtF powF I delta_XY alpha_XY).get y x c ≤ 1 := by
  rw [computeSpatialPermeability_get]
  have h := hpow |sqrtF (forLoop (List.range I.channels)
        (fun c acc => acc + (I.get y x c - (if x + 1 < I.cols then I.get y (x + 1) c else 0)) ^ 2)
          0) / (sqrtF 3 * delta_XY)| alpha_XY (abs_nonneg _)
  constructor
  · exact inv_pos.mpr (by linarith)
  · exact inv_le_one_of_one_le₀ (by linarith)

/-- The sum of squares accumulated over the channels. -/
theorem forLoop_sum_sq (d : Nat → α) (n : Nat) :
    forLoop (List.range n) (fun c acc => acc + (d c) ^ 2) 0
      = ((List.range n).map (fun c => (d c) ^ 2)).sum := by
  induction n with
  | zero => simp
  | succ n ih => simp [List.range_succ, forLoop_append, ih]

/-- For a three-channel image and a pixel with a right neighbour the code computes the value
of the specification: the normaliser `sqrt(3) * deltaXY` is `sqrt(numChannels) * deltaXY`. -/
theorem computeSpatialPermeability_three_channels (I : Mat ℝ) (delta_XY alpha_XY : ℝ)
    (hch : I.channels = 3) (hd : 0 < delta_XY) (y x : Nat) (hx : x + 1 < I.cols) :
    (computeSpatialPermeability Real.sqrt Real.rpow I delta_XY alpha_XY).get y x 0 =
      spec_spatialPermeability Real.sqrt Real.rpow I delta_XY alpha_XY y x := by
  rw [computeSpatialPermeability_get, spec_spatialPermeability]
  simp only [hx, if_true, forLoop_sum_sq, hch, Nat.cast_ofNat, one_div]
  rw [abs_of_nonneg]
  exact div_nonneg (Real.sqrt_nonneg _) (mul_nonneg (Real.sqrt_nonneg _) hd.le)

/-- C4 (the code at the failing input): for the single-channel 1 × 2 image `0 1` with
`deltaXY = 1`, `alphaXY = 2` the code returns `3/4` at pixel `(0,0)`, because it normalises
by `sqrt(3)`; the specification's formula with `sqrt(numChannels) = sqrt(1)` gives `1/2`. -/
theorem C4_single_channel_normaliser :
    (img01 : Mat ℝ).channels = 1 ∧
    (computeSpatialPermeability Real.sqrt Real.rpow (img01 : Mat ℝ) 1 2).get 0 0 0 = 3 / 4 ∧
      spec_spatialPermeability Real.sqrt Real.rpow (img01 : Mat ℝ) 1 2 0 0 = 1 / 2 := by
  refine ⟨rfl, ?_, ?_⟩
  · rw [computeSpatialPermeability_get]
    simp [img01, Mat.get, List.range_succ, forLoop_append, abs_of_nonneg, div_pow]
    norm_num
  · simp [spec_spatialPermeability, img01, Mat.get, List.range_succ]
    norm_num

/-- C6 (counterexample): the uniform 1 × 1 single-channel image of value 1, with
`deltaXY = 1` and `alphaXY = 2`, has permeability `3/4`, not 1, at its only pixel, which is
in the last column. -/
theorem C6_counterexample :
    (img1 : Mat ℝ).uniform (fun _ => 1) ∧ (0 : ℝ) < 1 ∧ (0 : ℝ) < 2 ∧
      (computeSpatialPermeability Real.sqrt Real.rpow (img1 : Mat ℝ) 1 2).get 0 0 0 ≠ 1 := by
  refine ⟨fun _ _ _ _ _ _ => rfl, by norm_num, by norm_num, ?_⟩
  rw [computeSpatialPermeability_get]
  simp [img1, Mat.get, List.range_succ, forLoop_append, abs_of_nonneg, div_pow]

/-- C6 (amended): for a uniform image and `deltaXY > 0`, `alphaXY > 0`, the permeability is 1
at every pixel that is not in the last column. -/
theorem C6_uniform_image (I : Mat ℝ) (k : Nat → ℝ) (delta_XY alpha_XY : ℝ)
    (hI : I.uniform k) (_hd : 0 < delta_XY) (ha : 0 < alpha_XY)
    (y x : Nat) (hy : y < I.rows) (hx : x + 1 < I.cols) :
    (computeSpatialPermeability Real.sqrt Real.rpow I delta_XY alpha_XY).get y x 0 = 1 := by
  rw [computeSpatialPermeability_get]
  have hsum : forLoop (List.range I.channels)
      (fun c acc => acc + (I.get y x c - (if x + 1 < I.cols then I.get y (x + 1) c else 0)) ^ 2)
        (0 : ℝ) = 0 := by
    refine forLoop_inv (fun acc : ℝ => acc = 0) _ _ ?_ _ rfl
    intro c hc acc hacc
    have hc1 : c < I.channels := List.mem_range.mp hc
    simp only [hx, if_true, hI y hy x (by omega) c hc1, hI y hy (x + 1) hx c hc1, hacc]
    norm_num
  rw [hsum]
  simp [Real.zero_rpow ha.ne.symm]

/-- Witness of the amended C6 on the uniform 1 × 2 image of value 1. -/
theorem C6_uniform_image_witness :
    (img11 : Mat ℝ).uniform (fun _ => 1) ∧ (0 : ℝ) < 1 ∧ (0 : ℝ) < 2 ∧
      0 < (img11 : Mat ℝ).rows ∧ 0 + 1 < (img11 : Mat ℝ).cols ∧
      (computeSpatialPermeability Real.sqrt Real.rpow (img11 : Mat ℝ) 1 2).get 0 0 0 = 1 :=
  ⟨fun _ _ _ _ _ _ => rfl, by norm_num, by norm_num, by decide, by decide,
    C6_uniform_image img11 (fun _ => 1) 1 2 (fun _ _ _ _ _ _ => rfl) (by norm_num)
      (by norm_num) 0 0 (by decide) (by decide)⟩

end PermeabilityFacts

/-! ## Divisors -/

section Divisors

variable {α : Type} [LinearOrderedField α]

theorem leftStep_safe (perm : Mat α) (hp : perm.nonneg) (y x c : Nat) (s : HState α)
    (hs : s.safe) : (leftStep perm y x c s).safe := by
  obtain ⟨h1, h2, h3⟩ := hs
  refine ⟨fun x1 c1 => ?_, h2, h3⟩
  simp only [leftStep, Mat.get_set]
  split_ifs
  · exact mul_nonneg (hp _ _) (by linarith [h1 (x - 1) c])
  · exact h1 x1 c1

theorem rightAccumulate_safe (perm : Mat α) (hp : perm.nonneg) (y x c : Nat) (s : HState α)
    (hs : s.safe) : (rightAccumulate perm y x c s).safe := by
  obtain ⟨h1, h2, h3⟩ := hs
  refine ⟨h1, fun x1 c1 => ?_, h3⟩
  simp only [rightAccumulate, Mat.get_set]
  split_ifs
  · exact mul_nonneg (hp _ _) (by linarith [h2 (x + 1) c])
  · exact h2 x1 c1

theorem combineH_safe (lam : Int) (y x c : Nat) (s : HState α)
    (hs : s.safe) : (combineH lam y x c s).safe := by
  obtain ⟨h1, h2, h3⟩ := hs
  refine ⟨h1, h2, fun d hd => ?_⟩
  simp only [combineH, List.mem_append, List.mem_singleton] at hd
  rcases hd with hd | rfl
  · exact h3 d hd
  · linarith [h1 x c, h2 x c]

theorem rightStep_safe (perm : Mat α) (hp : perm.nonneg) (lam : Int) (w y x c : Nat)
    (s : HState α) (hs : s.safe) : (rightStep perm lam w y x c s).safe := by
  unfold rightStep
  apply combineH_safe
  split_ifs
  · exact combineH_safe _ _ _ _ _ (rightAccumulate_safe perm hp y x c s hs)
  · exact rightAccumulate_safe perm hp y x c s hs

theorem horizontalRow_safe (perm : Mat α) (hp : perm.nonneg) (lam : Int) (w chs y : Nat)
    (r : Run α) (hr : r.safe) : (horizontalRow perm lam w chs y r).safe := by
  unfold horizontalRow
  have key : HState.safe (forLoop (downFrom w)
      (fun x s => forLoop (List.range chs) (fun c s => rightStep perm lam w y x c s) s)
      (forLoop (upFromOne w)
        (fun x s => forLoop (List.range chs) (fun c s => leftStep perm y x c s) s)
        { toRun := r, lp := Mat.zeros 1 w chs, lp_normal := Mat.zeros 1 w chs,
          rp := Mat.zeros 1 w chs, rp_normal := Mat.zeros 1 w chs })) := by
    apply forLoop_inv HState.safe
    · intro x _ s hs
      exact forLoop_inv HState.safe _ _ (fun c _ s hs => rightStep_safe perm hp lam w y x c s hs)
        s hs
    · apply forLoop_inv HState.safe
      · intro x _ s hs
        exact forLoop_inv HState.safe _ _ (fun c _ s hs => leftStep_safe perm hp y x c s hs) s hs
      · exact ⟨fun _ _ => le_refl _, fun _ _ => le_refl _, hr⟩
  exact key.2.2

theorem downStep_safe (perm : Mat α) (hp : perm.nonneg) (x y c : Nat) (s : VState α)
    (hs : s.safe) : (downStep perm x y c s).safe := by
  obtain ⟨h1, h2, h3⟩ := hs
  refine ⟨fun y1 c1 => ?_, h2, h3⟩
  simp only [downStep, Mat.get_set]
  split_ifs
  · exact mul_nonneg (hp _ _) (by linarith [h1 (y - 1) c])
  · exact h1 y1 c1

theorem upAccumulate_safe (perm : Mat α) (hp : perm.nonneg) (x y c : Nat) (s : VState α)
    (hs : s.safe) : (upAccumulate perm x y c s).safe := by
  obtain ⟨h1, h2, h3⟩ := hs
  refine ⟨h1, fun y1 c1 => ?_, h3⟩
  simp only [upAccumulate, Mat.get_set]
  split_ifs
  · exact mul_nonneg (hp _ _) (by linarith [h2 (y + 1) c])
  · exact h2 y1 c1

theorem combineV_safe (lam : Int) (x y c : Nat) (s : VState α)
    (hs : s.safe) : (combineV lam x y c s).safe := by
  obtain ⟨h1, h2, h3⟩ := hs
  refine ⟨h1, h2, fun d hd => ?_⟩
  simp only [combineV, List.mem_append, List.mem_singleton] at hd
  rcases hd with hd | rfl
  · exact h3 d hd
  · linarith [h1 y c, h2 y c]

theorem upStep_safe (perm : Mat α) (hp : perm.nonneg) (lam : Int) (h x y c : Nat)
    (s : VState α) (hs : s.safe) : (upStep perm lam h x y c s).safe := by
  unfold upStep
  apply combineV_safe
  split_ifs
  · exact combineV_safe _ _ _ _ _ (upAccumulate_safe perm hp x y c s hs)
  · exact upAccumulate_safe perm hp x y c s hs

theorem verticalCol_safe (perm : Mat α) (hp : perm.nonneg) (lam : Int) (h chs x : Nat)
    (r : Run α) (hr : r.safe) : (verticalCol perm lam h chs x r).safe := by
  unfold verticalCol
  have key : VState.safe (forLoop (downFrom h)
      (fun y s => forLoop (List.range chs) (fun c s => upStep perm lam h x y c s) s)
      (forLoop (upFromOne h)
        (fun y s => forLoop (List.range chs) (fun c s => downStep perm x y c s) s)
        { toRun := r, dp := Mat.zeros h 1 chs, dp_normal := Mat.zeros h 1 chs,
          up := Mat.zeros h 1 chs, up_normal := Mat.zeros h 1 chs })) := by
    apply forLoop_inv VState.safe
    · intro y _ s hs
      exact forLoop_inv VState.safe _ _ (fun c _ s hs => upStep_safe perm hp lam h x y c s hs)
        s hs
    · apply forLoop_inv VState.safe
      · intro y _ s hs
        exact forLoop_inv VState.safe _ _ (fun c _ s hs => downStep_safe perm hp x y c s hs) s hs
      · exact ⟨fun _ _ => le_refl _, fun _ _ => le_refl _, hr⟩
  exact key.2.2

/-- With permeabilities that are not negative, an iteration keeps every divisor at 1 or
above. -/
theorem iteration_safe (ph pv : Mat α) (hph : ph.nonneg) (hpv : pv.nonneg) (lam : Int)
    (h w chs : Nat) (r : Run α) (hr : r.safe) : (iteration ph pv lam h w chs r).safe := by
  unfold iteration verticalPass horizontalPass
  apply forLoop_inv Run.safe _ _ (fun x _ r hr => verticalCol_safe pv hpv lam h chs x r hr)
  exact forLoop_inv Run.safe _ _ (fun y _ r hr => horizontalRow_safe ph hph lam w chs y r hr)
    r hr

/-- Both permeability maps that `filterXY` computes have entries in `(0, 1]`, so none is
negative. -/
theorem filterXY_perm_nonneg (sqrtF : α → α) (powF : α → α → α)
    (hpow : ∀ b e, 0 ≤ b → 0 ≤ powF b e) (I : Mat α) (delta_XY alpha_XY : α) :
    (computeSpatialPermeability sqrtF powF I delta_XY alpha_XY).nonneg ∧
      (computeSpatialPermeability sqrtF powF I.t delta_XY alpha_XY).t.nonneg :=
  ⟨fun y x => (computeSpatialPermeability_range sqrtF powF hpow I _ _ y x 0).1.le,
   fun y x => (computeSpatialPermeability_range sqrtF powF hpow I.t _ _ x y 0).1.le⟩

/-- C7: for every image and field of equal dimensions, every `deltaXY > 0`, `alphaXY > 0`,
every `lambdaXY` and every iteration count, every divisor `filterXY` uses, in the horizontal
combine (`lp_normal + 1 + rp_normal`) and in the vertical combine
(`dp_normal + 1 + up_normal`), is at least 1. -/
theorem C7_divisors_at_least_one (I J : Mat ℝ) (p : cpm_pf_params_t ℝ)
    (_hrows : J.rows = I.rows) (_hcols : J.cols = I.cols)
    (_hd : 0 < p.delta_XY_input_float) (_ha : 0 < p.alpha_XY_input_float) :
    ∀ d, d ∈ (filterXY_run Real.sqrt Real.rpow I J p).divisors → 1 ≤ d := by
  have hperm := filterXY_perm_nonneg Real.sqrt Real.rpow
    (fun _ e hb => Real.rpow_nonneg hb e) I p.delta_XY_input_float p.alpha_XY_input_float
  unfold filterXY_run
  exact forLoop_inv Run.safe _ _
    (fun _ _ r hr => iteration_safe _ _ hperm.1 hperm.2 _ _ _ _ r hr) _
    (fun d hd => by simp at hd)

/-- Witness of C7: the 1 × 2 image `0 1` filtered as its own field, three iterations. -/
theorem C7_divisors_at_least_one_witness :
    (img01 : Mat ℝ).rows = (img01 : Mat ℝ).rows ∧ (img01 : Mat ℝ).cols = (img01 : Mat ℝ).cols ∧
    (0 : ℝ) < 1 ∧ (0 : ℝ) < 2 ∧
    ∀ d, d ∈ (filterXY_run Real.sqrt Real.rpow img01 img01 ⟨3, 0, 1, 2⟩).divisors → 1 ≤ d :=
  ⟨rfl, rfl, by norm_num, by norm_num,
    C7_divisors_at_least_one img01 img01 ⟨3, 0, 1, 2⟩ rfl rfl (by norm_num) (by norm_num)⟩

end Divisors

/-! ## Range of the filtered values (`lambdaXY = 0`) -/

section BoundsFacts

variable {α : Type} [LinearOrderedField α]

/-- The step of an accumulator keeps it between `lo` and `hi` times its normaliser. -/
theorem accumulate_bounds {lo hi p a n v : α} (hp : 0 ≤ p) (ha : lo * n ≤ a ∧ a ≤ hi * n)
    (hv : lo ≤ v ∧ v ≤ hi) :
    lo * (p * (n + 1)) ≤ p * (a + v) ∧ p * (a + v) ≤ hi * (p * (n + 1)) := by
  constructor
  · have h : p * (lo * (n + 1)) ≤ p * (a + v) :=
      mul_le_mul_of_nonneg_left (by linarith [ha.1, hv.1]) hp
    linarith
  · have h : p * (a + v) ≤ p * (hi * (n + 1)) :=
      mul_le_mul_of_nonneg_left (by linarith [ha.2, hv.2]) hp
    linarith

/-- The combined value lies between `lo` and `hi`. -/
theorem combine_bounds {lo hi a b v n m : α} (hn : 0 ≤ n) (hm : 0 ≤ m)
    (ha : lo * n ≤ a ∧ a ≤ hi * n) (hb : lo * m ≤ b ∧ b ≤ hi * m) (hv : lo ≤ v ∧ v ≤ hi) :
    lo ≤ (a + ((1 - 0 : Int) : α) * v + b) / (n + 1 + m) ∧
      (a + ((1 - 0 : Int) : α) * v + b) / (n + 1 + m) ≤ hi := by
  have hden : 0 < n + 1 + m := by linarith
  constructor
  · rw [le_div_iff₀ hden]; push_cast; linarith [ha.1, hb.1, hv.1]
  · rw [div_le_iff₀ hden]; push_cast; linarith [ha.2, hb.2, hv.2]

theorem leftStep_bounded (perm : Mat α) (hp : perm.nonneg) (lo hi : Nat → α)
    (h w chs y x c : Nat) (hy : y < h) (hx1 : 1 ≤ x) (hx : x + 1 ≤ w) (hc : c < chs)
    (s : HState α) (hs : s.bounded lo hi h w chs) :
    (leftStep perm y x c s).bounded lo hi h w chs := by
  obtain ⟨h1, h2, h3, h4, h5⟩ := hs
  refine ⟨fun x1 c1 => ?_, h2, fun x1 c1 => ?_, h4, h5⟩
  · simp only [leftStep, Mat.get_set]
    split_ifs
    · exact mul_nonneg (hp _ _) (by linarith [h1 (x - 1) c])
    · exact h1 x1 c1
  · simp only [leftStep, Mat.get_set]
    split_ifs with hi1
    · obtain ⟨-, -, rfl⟩ := hi1
      exact accumulate_bounds (hp _ _) (h3 (x - 1) c1) (h5 y (x - 1) c1 hy (by omega) hc)
    · exact h3 x1 c1

theorem rightAccumulate_bounded (perm : Mat α) (hp : perm.nonneg) (lo hi : Nat → α)
    (h w chs y x c : Nat) (hy : y < h) (hx : x + 2 ≤ w) (hc : c < chs)
    (s : HState α) (hs : s.bounded lo hi h w chs) :
    (rightAccumulate perm y x c s).bounded lo hi h w chs := by
  obtain ⟨h1, h2, h3, h4, h5⟩ := hs
  refine ⟨h1, fun x1 c1 => ?_, h3, fun x1 c1 => ?_, h5⟩
  · simp only [rightAccumulate, Mat.get_set]
    split_ifs
    · exact mul_nonneg (hp _ _) (by linarith [h2 (x + 1) c])
    · exact h2 x1 c1
  · simp only [rightAccumulate, Mat.get_set]
    split_ifs with hi1
    · obtain ⟨-, -, rfl⟩ := hi1
      exact accumulate_bounds (hp _ _) (h4 (x + 1) c1) (h5 y (x + 1) c1 hy (by omega) hc)
    · exact h4 x1 c1

theorem combineH_bounded (lo hi : Nat → α)
    (h w chs y x c : Nat) (hy : y < h) (hx : x < w) (hc : c < chs)
    (s : HState α) (hs : s.bounded lo hi h w chs) :
    (combineH 0 y x c s).bounded lo hi h w chs := by
  obtain ⟨h1, h2, h3, h4, h5⟩ := hs
  refine ⟨h1, h2, h3, h4, fun y1 x1 c1 hy1 hx1 hc1 => ?_⟩
  simp only [combineH, Mat.get_set]
  split_ifs with hi1
  · obtain ⟨rfl, rfl, rfl⟩ := hi1
    exact combine_bounds (h1 x1 c1) (h2 x1 c1) (h3 x1 c1) (h4 x1 c1) (h5 y1 x1 c1 hy hx hc)
  · exact h5 y1 x1 c1 hy1 hx1 hc1

theorem rightStep_bounded (perm : Mat α) (hp : perm.nonneg) (lo hi : Nat → α)
    (h w chs y x c : Nat) (hy : y < h) (hx : x + 2 ≤ w) (hc : c < chs)
    (s : HState α) (hs : s.bounded lo hi h w chs) :
    (rightStep perm 0 w y x c s).bounded lo hi h w chs := by
  unfold rightStep
  apply combineH_bounded lo hi h w chs y x c hy (by omega) hc
  have h1 := rightAccumulate_bounded perm hp lo hi h w chs y x c hy hx hc s hs
  split_ifs
  · exact combineH_bounded lo hi h w chs y (x + 1) c hy (by omega) hc _ h1
  · exact h1

theorem horizontalRow_within (perm : Mat α) (hp : perm.nonneg) (lo hi : Nat → α)
    (h w chs y : Nat) (hy : y < h) (r : Run α) (hr : r.J_XY.within lo hi h w chs) :
    (horizontalRow perm 0 w chs y r).J_XY.within lo hi h w chs := by
  unfold horizontalRow
  have key : HState.bounded lo hi h w chs (forLoop (downFrom w)
      (fun x s => forLoop (List.range chs) (fun c s => rightStep perm 0 w y x c s) s)
      (forLoop (upFromOne w)
        (fun x s => forLoop (List.range chs) (fun c s => leftStep perm y x c s) s)
        { toRun := r, lp := Mat.zeros 1 w chs, lp_normal := Mat.zeros 1 w chs,
          rp := Mat.zeros 1 w chs, rp_normal := Mat.zeros 1 w chs })) := by
    apply forLoop_inv (HState.bounded lo hi h w chs)
    · intro x hx s hs
      exact forLoop_inv (HState.bounded lo hi h w chs) _ _
        (fun c hc s hs => rightStep_bounded perm hp lo hi h w chs y x c hy
          (mem_downFrom.mp hx) (List.mem_range.mp hc) s hs) s hs
    · apply forLoop_inv (HState.bounded lo hi h w chs)
      · intro x hx s hs
        exact forLoop_inv (HState.bounded lo hi h w chs) _ _
          (fun c hc s hs => leftStep_bounded perm hp lo hi h w chs y x c hy
            (mem_upFromOne.mp hx).1 (mem_upFromOne.mp hx).2 (List.mem_range.mp hc) s hs) s hs
      · exact ⟨fun _ _ => le_refl _, fun _ _ => le_refl _, fun _ _ => by simp,
          fun _ _ => by simp, hr⟩
  exact key.2.2.2.2

theorem downStep_bounded (perm : Mat α) (hp : perm.nonneg) (lo hi : Nat → α)
    (h w chs x y c : Nat) (hx : x < w) (hy1 : 1 ≤ y) (hy : y + 1 ≤ h) (hc : c < chs)
    (s : VState α) (hs : s.bounded lo hi h w chs) :
    (downStep perm x y c s).bounded lo hi h w chs := by
  obtain ⟨h1, h2, h3, h4, h5⟩ := hs
  refine ⟨fun y1 c1 => ?_, h2, fun y1 c1 => ?_, h4, h5⟩
  · simp only [downStep, Mat.get_set]
    split_ifs
    · exact mul_nonneg (hp _ _) (by linarith [h1 (y - 1) c])
    · exact h1 y1 c1
  · simp only [downStep, Mat.get_set]
    split_ifs with hi1
    · obtain ⟨-, -, rfl⟩ := hi1
      exact accumulate_bounds (hp _ _) (h3 (y - 1) c1) (h5 (y - 1) x c1 (by omega) hx hc)
    · exact h3 y1 c1

theorem upAccumulate_bounded (perm : Mat α) (hp : perm.nonneg) (lo hi : Nat → α)
    (h w chs x y c : Nat) (hx : x < w) (hy : y + 2 ≤ h) (hc : c < chs)
    (s : VState α) (hs : s.bounded lo hi h w chs) :
    (upAccumulate perm x y c s).bounded lo hi h w chs := by
  obtain ⟨h1, h2, h3, h4, h5⟩ := hs
  refine ⟨h1, fun y1 c1 => ?_, h3, fun y1 c1 => ?_, h5⟩
  · simp only [upAccumulate, Mat.get_set]
    split_ifs
    · exact mul_nonneg (hp _ _) (by linarith [h2 (y + 1) c])
    · exact h2 y1 c1
  · simp only [upAccumulate, Mat.get_set]
    split_ifs with hi1
    · obtain ⟨-, -, rfl⟩ := hi1
      exact accumulate_bounds (hp _ _) (h4 (y + 1) c1) (h5 (y + 1) x c1 (by omega) hx hc)
    · exact h4 y1 c1

theorem combineV_bounded (lo hi : Nat → α)
    (h w chs x y c : Nat) (hx : x < w) (hy : y < h) (hc : c < chs)
    (s : VState α) (hs : s.bounded lo hi h w chs) :
    (combineV 0 x y c s).bounded lo hi h w chs := by
  obtain ⟨h1, h2, h3, h4, h5⟩ := hs
  refine ⟨h1, h2, h3, h4, fun y1 x1 c1 hy1 hx1 hc1 => ?_⟩
  simp only [combineV, Mat.get_set]
  split_ifs with hi1
  · obtain ⟨rfl, rfl, rfl⟩ := hi1
    exact combine_bounds (h1 y1 c1) (h2 y1 c1) (h3 y1 c1) (h4 y1 c1) (h5 y1 x1 c1 hy hx hc)
  · exact h5 y1 x1 c1 hy1 hx1 hc1

theorem upStep_bounded (perm : Mat α) (hp : perm.nonneg) (lo hi : Nat → α)
    (h w chs x y c : Nat) (hx : x < w) (hy : y + 2 ≤ h) (hc : c < chs)
    (s : VState α) (hs : s.bounded lo hi h w chs) :
    (upStep perm 0 h x y c s).bounded lo hi h w chs := by
  unfold upStep
  apply combineV_bounded lo hi h w chs x y c hx (by omega) hc
  have h1 := upAccumulate_bounded perm hp lo hi h w chs x y c hx hy hc s hs
  split_ifs
  · exact combineV_bounded lo hi h w chs x (y + 1) c hx (by omega) hc _ h1
  · exact h1

theorem verticalCol_within (perm : Mat α) (hp : perm.nonneg) (lo hi : Nat → α)
    (h w chs x : Nat) (hx : x < w) (r : Run α) (hr : r.J_XY.within lo hi h w chs) :
    (verticalCol perm 0 h chs x r).J_XY.within lo hi h w chs := by
  unfold verticalCol
  have key : VState.bounded lo hi h w chs (forLoop (downFrom h)
      (fun y s => forLoop (List.range chs) (fun c s => upStep perm 0 h x y c s) s)
      (forLoop (upFromOne h)
        (fun y s => forLoop (List.range chs) (fun c s => downStep perm x y c s) s)
        { toRun := r, dp := Mat.zeros h 1 chs, dp_normal := Mat.zeros h 1 chs,
          up := Mat.zeros h 1 chs, up_normal := Mat.zeros h 1 chs })) := by
    apply forLoop_inv (VState.bounded lo hi h w chs)
    · intro y hy s hs
      exact forLoop_inv (VState.bounded lo hi h w chs) _ _
        (fun c hc s hs => upStep_bounded perm hp lo hi h w chs x y c hx
          (mem_downFrom.mp hy) (List.mem_range.mp hc) s hs) s hs
    · apply forLoop_inv (VState.bounded lo hi h w chs)
      · intro y hy s hs
        exact forLoop_inv (VState.bounded lo hi h w chs) _ _
          (fun c hc s hs => downStep_bounded perm hp lo hi h w chs x y c hx
            (mem_upFromOne.mp hy).1 (mem_upFromOne.mp hy).2 (List.mem_range.mp hc) s hs) s hs
      · exact ⟨fun _ _ => le_refl _, fun _ _ => le_refl _, fun _ _ => by simp,
          fun _ _ => by simp, hr⟩
  exact key.2.2.2.2

/-- With `lambdaXY = 0` and permeabilities that are not negative, an iteration keeps every
channel of the field between the bounds it had. -/
theorem iteration_within (ph pv : Mat α) (hph : ph.nonneg) (hpv : pv.nonneg)
    (lo hi : Nat → α) (h w chs : Nat) (r : Run α) (hr : r.J_XY.within lo hi h w chs) :
    (iteration ph pv 0 h w chs r).J_XY.within lo hi h w chs := by
  unfold iteration verticalPass horizontalPass
  apply forLoop_inv (fun r : Run α => r.J_XY.within lo hi h w chs) _ _
    (fun x hx r hr => verticalCol_within pv hpv lo hi h w chs x (List.mem_range.mp hx) r hr)
  exact forLoop_inv (fun r : Run α => r.J_XY.within lo hi h w chs) _ _
    (fun y hy r hr => horizontalRow_within ph hph lo hi h w chs y (List.mem_range.mp hy) r hr)
    r hr

/-- With `lambdaXY = 0` (after the conversion to `int`), `filterXY` keeps every channel of the
field between the bounds it had, on the grid of the image. -/
theorem filterXY_within [FloorRing α] (sqrtF : α → α) (powF : α → α → α)
    (hpow : ∀ b e, 0 ≤ b → 0 ≤ powF b e) (I J : Mat α) (p : cpm_pf_params_t α)
    (hlam : truncToInt p.lambda_XY_input_float = 0) (lo hi : Nat → α)
    (hJ : J.within lo hi I.rows I.cols J.channels) :
    (filterXY sqrtF powF I J p).within lo hi I.rows I.cols J.channels := by
  have hperm := filterXY_perm_nonneg sqrtF powF hpow I p.delta_XY_input_float
    p.alpha_XY_input_float
  unfold filterXY filterXY_run
  simp only [hlam]
  exact forLoop_inv (fun r : Run α => r.J_XY.within lo hi I.rows I.cols J.channels) _ _
    (fun _ _ r hr => iteration_within _ _ hperm.1 hperm.2 lo hi _ _ _ r hr) _ hJ

theorem truncToInt_zero [FloorRing α] : truncToInt (0 : α) = 0 := by
  simp [truncToInt]

/-- In exact arithmetic: for every image, every `deltaXY > 0` and `alphaXY > 0`,
`lambdaXY = 0`, every iteration count `n` and every constant `k`, `filterXY` applied to a
field of the image's dimensions whose every entry equals `k` returns a field whose every
entry equals `k`. The rounding of the `float` quotient in the source, which can move an entry
by a unit in the last place, is outside this model. -/
theorem uniform_field_exact (I J : Mat ℝ) (n : Nat) (delta_XY alpha_XY k : ℝ)
    (hrows : J.rows = I.rows) (hcols : J.cols = I.cols)
    (_hd : 0 < delta_XY) (_ha : 0 < alpha_XY)
    (hJ : ∀ y x c, y < J.rows → x < J.cols → c < J.channels → J.get y x c = k) :
    ∀ y x c, y < J.rows → x < J.cols → c < J.channels →
      (filterXY Real.sqrt Real.rpow I J ⟨n, 0, delta_XY, alpha_XY⟩).get y x c = k := by
  intro y x c hy hx hc
  have h := filterXY_within Real.sqrt Real.rpow (fun _ e hb => Real.rpow_nonneg hb e) I J
    ⟨n, 0, delta_XY, alpha_XY⟩ truncToInt_zero (fun _ => k) (fun _ => k)
    (fun y x c hy hx hc => by
      rw [hJ y x c (hrows ▸ hy) (hcols ▸ hx) hc]; exact ⟨le_refl _, le_refl _⟩)
    y x c (hrows ▸ hy) (hcols ▸ hx) hc
  exact le_antisymm h.2 h.1

end BoundsFacts

/-! ## A blocked boundary -/

section BlockedFacts

variable {α : Type} [LinearOrderedField α]

end BlockedFacts

/-! ## Change of the number field

The passes use only field operations, so they commute with a homomorphism of fields; this
carries an evaluation over `ℚ` to `ℝ`. -/

section TransferFacts

theorem Mat.like_set {α β : Type} (φ : α → β) (m : Mat α) (n : Mat β) (h : Mat.like φ m n)
    (y x c : Nat) (v : α) (v1 : β) (hv : v1 = φ v) :
    Mat.like φ (m.set y x c v) (n.set y x c v1) := by
  intro y1 x1 c1
  simp only [Mat.get_set]
  split_ifs
  · exact hv
  · exact h y1 x1 c1

variable {α β : Type} [LinearOrderedField α] [LinearOrderedField β]

theorem leftStep_like (φ : α →+* β) (p : Mat α) (q : Mat β) (hp : Mat.like φ p q)
    (y x c : Nat) (s : HState α) (t : HState β) (h : HState.like φ s t) :
    HState.like φ (leftStep p y x c s) (leftStep q y x c t) := by
  obtain ⟨h1, h2, h3, h4, h5⟩ := h
  refine ⟨h1, Mat.like_set φ _ _ h2 _ _ _ _ _ ?_, Mat.like_set φ _ _ h3 _ _ _ _ _ ?_, h4, h5⟩
  · rw [hp, h2, h1, map_mul, map_add]
  · show q.get y (x - 1) 0 * (t.lp_normal.get 0 (x - 1) c + 1) = _
    rw [hp, h3, map_mul, map_add, map_one]

theorem rightAccumulate_like (φ : α →+* β) (p : Mat α) (q : Mat β) (hp : Mat.like φ p q)
    (y x c : Nat) (s : HState α) (t : HState β) (h : HState.like φ s t) :
    HState.like φ (rightAccumulate p y x c s) (rightAccumulate q y x c t) := by
  obtain ⟨h1, h2, h3, h4, h5⟩ := h
  refine ⟨h1, h2, h3, Mat.like_set φ _ _ h4 _ _ _ _ _ ?_, Mat.like_set φ _ _ h5 _ _ _ _ _ ?_⟩
  · rw [hp, h4, h1, map_mul, map_add]
  · show q.get y x 0 * (t.rp_normal.get 0 (x + 1) c + 1) = _
    rw [hp, h5, map_mul, map_add, map_one]

theorem combineH_like (φ : α →+* β) (lam : Int)
    (y x c : Nat) (s : HState α) (t : HState β) (h : HState.like φ s t) :
    HState.like φ (combineH lam y x c s) (combineH lam y x c t) := by
  obtain ⟨h1, h2, h3, h4, h5⟩ := h
  refine ⟨Mat.like_set φ _ _ h1 _ _ _ _ _ ?_, h2, h3, h4, h5⟩
  rw [h1, h2, h3, h4, h5, map_div₀, map_add, map_add, map_add, map_add, map_mul, map_one,
    map_intCast]

theorem rightStep_like (φ : α →+* β) (p : Mat α) (q : Mat β) (hp : Mat.like φ p q)
    (lam : Int) (w y x c : Nat) (s : HState α) (t : HState β) (h : HState.like φ s t) :
    HState.like φ (rightStep p lam w y x c s) (rightStep q lam w y x c t) := by
  unfold rightStep
  apply combineH_like
  have h1 := rightAccumulate_like φ p q hp y x c s t h
  split_ifs
  · exact combineH_like φ lam y (x + 1) c _ _ h1
  · exact h1

theorem horizontalRow_like (φ : α →+* β) (p : Mat α) (q : Mat β) (hp : Mat.like φ p q)
    (lam : Int) (w chs y : Nat) (r1 : Run α) (r2 : Run β)
    (h : Mat.like φ r1.J_XY r2.J_XY) :
    Mat.like φ (horizontalRow p lam w chs y r1).J_XY (horizontalRow q lam w chs y r2).J_XY := by
  unfold horizontalRow
  have key : HState.like φ
      (forLoop (downFrom w)
        (fun x s => forLoop (List.range chs) (fun c s => rightStep p lam w y x c s) s)
        (forLoop (upFromOne w)
          (fun x s => forLoop (List.range chs) (fun c s => leftStep p y x c s) s)
          { toRun := r1, lp := Mat.zeros 1 w chs, lp_normal := Mat.zeros 1 w chs,
            rp := Mat.zeros 1 w chs, rp_normal := Mat.zeros 1 w chs }))
      (forLoop (downFrom w)
        (fun x s => forLoop (List.range chs) (fun c s => rightStep q lam w y x c s) s)
        (forLoop (upFromOne w)
          (fun x s => forLoop (List.range chs) (fun c s => leftStep q y x c s) s)
          { toRun := r2, lp := Mat.zeros 1 w chs, lp_normal := Mat.zeros 1 w chs,
            rp := Mat.zeros 1 w chs, rp_normal := Mat.zeros 1 w chs })) := by
    apply forLoop_rel (HState.like φ)
    · intro x _ s t hst
      exact forLoop_rel (HState.like φ) _ _ _
        (fun c _ s t hst => rightStep_like φ p q hp lam w y x c s t hst) s t hst
    · apply forLoop_rel (HState.like φ)
      · intro x _ s t hst
        exact forLoop_rel (HState.like φ) _ _ _
          (fun c _ s t hst => leftStep_like φ p q hp y x c s t hst) s t hst
      · have hz : Mat.like φ (Mat.zeros 1 w chs : Mat α) (Mat.zeros 1 w chs : Mat β) :=
          fun _ _ _ => by simp
        exact ⟨h, hz, hz, hz, hz⟩
  exact key.1

theorem downStep_like (φ : α →+* β) (p : Mat α) (q : Mat β) (hp : Mat.like φ p q)
    (x y c : Nat) (s : VState α) (t : VState β) (h : VState.like φ s t) :
    VState.like φ (downStep p x y c s) (downStep q x y c t) := by
  obtain ⟨h1, h2, h3, h4, h5⟩ := h
  refine ⟨h1, Mat.like_set φ _ _ h2 _ _ _ _ _ ?_, Mat.like_set φ _ _ h3 _ _ _ _ _ ?_, h4, h5⟩
  · rw [hp, h2, h1, map_mul, map_add]
  · show q.get (y - 1) x 0 * (t.dp_normal.get (y - 1) 0 c + 1) = _
    rw [hp, h3, map_mul, map_add, map_one]

theorem upAccumulate_like (φ : α →+* β) (p : Mat α) (q : Mat β) (hp : Mat.like φ p q)
    (x y c : Nat) (s : VState α) (t : VState β) (h : VState.like φ s t) :
    VState.like φ (upAccumulate p x y c s) (upAccumulate q x y c t) := by
  obtain ⟨h1, h2, h3, h4, h5⟩ := h
  refine ⟨h1, h2, h3, Mat.like_set φ _ _ h4 _ _ _ _ _ ?_, Mat.like_set φ _ _ h5 _ _ _ _ _ ?_⟩
  · rw [hp, h4, h1, map_mul, map_add]
  · show q.get y x 0 * (t.up_normal.get (y + 1) 0 c + 1) = _
    rw [hp, h5, map_mul, map_add, map_one]

theorem combineV_like (φ : α →+* β) (lam : Int)
    (x y c : Nat) (s : VState α) (t : VState β) (h : VState.like φ s t) :
    VState.like φ (combineV lam x y c s) (combineV lam x y c t) := by
  obtain ⟨h1, h2, h3, h4, h5⟩ := h
  refine ⟨Mat.like_set φ _ _ h1 _ _ _ _ _ ?_, h2, h3, h4, h5⟩
  rw [h1, h2, h3, h4, h5, map_div₀, map_add, map_add, map_add, map_add, map_mul, map_one,
    map_intCast]

theorem upStep_like (φ : α →+* β) (p : Mat α) (q : Mat β) (hp : Mat.like φ p q)
    (lam : Int) (h x y c : Nat) (s : VState α) (t : VState β) (hst : VState.like φ s t) :
    VState.like φ (upStep p lam h x y c s) (upStep q lam h x y c t) := by
  unfold upStep
  apply combineV_like
  have h1 := upAccumulate_like φ p q hp x y c s t hst
  split_ifs
  · exact combineV_like φ lam x (y + 1) c _ _ h1
  · exact h1

theorem verticalCol_like (φ : α →+* β) (p : Mat α) (q : Mat β) (hp : Mat.like φ p q)
    (lam : Int) (h chs x : Nat) (r1 : Run α) (r2 : Run β)
    (hr : Mat.like φ r1.J_XY r2.J_XY) :
    Mat.like φ (verticalCol p lam h chs x r1).J_XY (verticalCol q lam h chs x r2).J_XY := by
  unfold verticalCol
  have key : VState.like φ
      (forLoop (downFrom h)
        (fun y s => forLoop (List.range chs) (fun c s => upStep p lam h x y c s) s)
        (forLoop (upFromOne h)
          (fun y s => forLoop (List.range chs) (fun c s => downStep p x y c s) s)
          { toRun := r1, dp := Mat.zeros h 1 chs, dp_normal := Mat.zeros h 1 chs,
            up := Mat.zeros h 1 chs, up_normal := Mat.zeros h 1 chs }))
      (forLoop (downFrom h)
        (fun y s => forLoop (List.range chs) (fun c s => upStep q lam h x y c s) s)
        (forLoop (upFromOne h)
          (fun y s => forLoop (List.range chs) (fun c s => downStep q x y c s) s)
          { toRun := r2, dp := Mat.zeros h 1 chs, dp_normal := Mat.zeros h 1 chs,
            up := Mat.zeros h 1 chs, up_normal := Mat.zeros h 1 chs })) := by
    apply forLoop_rel (VState.like φ)
    · intro y _ s t hst
      exact forLoop_rel (VState.like φ) _ _ _
        (fun c _ s t hst => upStep_like φ p q hp lam h x y c s t hst) s t hst
    · apply forLoop_rel (VState.like φ)
      · intro y _ s t hst
        exact forLoop_rel (VState.like φ) _ _ _
          (fun c _ s t hst => downStep_like φ p q hp x y c s t hst) s t hst
      · have hz : Mat.like φ (Mat.zeros h 1 chs : Mat α) (Mat.zeros h 1 chs : Mat β) :=
          fun _ _ _ => by simp
        exact ⟨hr, hz, hz, hz, hz⟩
  exact key.1

/-- An iteration commutes with a homomorphism of fields applied to the permeability maps
and to the field. -/
theorem iteration_like (φ : α →+* β) (ph pv : Mat α) (qh qv : Mat β)
    (hh : Mat.like φ ph qh) (hv : Mat.like φ pv qv) (lam : Int) (h w chs : Nat)
    (r1 : Run α) (r2 : Run β) (hr : Mat.like φ r1.J_XY r2.J_XY) :
    Mat.like φ (iteration ph pv lam h w chs r1).J_XY (iteration qh qv lam h w chs r2).J_XY := by
  unfold iteration verticalPass horizontalPass
  apply forLoop_rel (fun (r1 : Run α) (r2 : Run β) => Mat.like φ r1.J_XY r2.J_XY) _ _ _
    (fun x _ r1 r2 hr => verticalCol_like φ pv qv hv lam h chs x r1 r2 hr)
  exact forLoop_rel (fun (r1 : Run α) (r2 : Run β) => Mat.like φ r1.J_XY r2.J_XY) _ _ _
    (fun y _ r1 r2 hr => horizontalRow_like φ ph qh hh lam w chs y r1 r2 hr) r1 r2 hr

end TransferFacts

/-! ## The 4 × 4 edge scenario -/

section EdgeScenario

/-- The permeability where the difference to the neighbour vanishes. -/
theorem perm_value_flat (delta_XY : ℝ) :
    (1 + Real.rpow |Real.sqrt 0 / (Real.sqrt 3 * delta_XY)| 2)⁻¹ = 1 := by
  simp

/-- The permeability across a difference of 1 for `deltaXY = 0.017`, `alphaXY = 2`. -/
theorem perm_value_edge :
    (1 + Real.rpow |Real.sqrt 1 / (Real.sqrt 3 * 0.017)| 2)⁻¹ = ((867 / 1000867 : ℚ) : ℝ) := by
  have h3 : Real.sqrt 3 ^ 2 = 3 := Real.sq_sqrt (by norm_num)
  simp only [Real.rpow_eq_pow, Real.rpow_two, sq_abs, Real.sqrt_one, div_pow, mul_pow, h3]
  norm_num

theorem edgeImage_like : Mat.like (Rat.castHom ℝ) (edgeImage : Mat ℚ) (edgeImage : Mat ℝ) := by
  intro y x c
  simp only [edgeImage, Mat.get]
  split_ifs <;> simp

theorem edgePermH_like : Mat.like (Rat.castHom ℝ) edgePermH
    (computeSpatialPermeability Real.sqrt Real.rpow (edgeImage : Mat ℝ) 0.017 2) := by
  intro y x c
  rw [computeSpatialPermeability_get]
  have hch : (edgeImage : Mat ℝ).channels = 1 := rfl
  have hcols : (edgeImage : Mat ℝ).cols = 4 := rfl
  have e00 : ((0 : ℝ) - 0) ^ 2 = 0 := by norm_num
  have e01 : ((0 : ℝ) - 1) ^ 2 = 1 := by norm_num
  have e11 : ((1 : ℝ) - 1) ^ 2 = 0 := by norm_num
  have e10 : ((1 : ℝ) - 0) ^ 2 = 1 := by norm_num
  simp only [hch, hcols, List.range_succ, List.range_zero, List.nil_append, forLoop_cons,
    forLoop_nil, zero_add, edgeImage, Mat.get, edgePermH, Rat.coe_castHom]
  split_ifs <;>
    first
    | (exfalso; omega)
    | (rw [e00, perm_value_flat, Rat.cast_one])
    | (rw [e11, perm_value_flat, Rat.cast_one])
    | (rw [e01, perm_value_edge])
    | (rw [e10, perm_value_edge])

theorem edgePermV_like : Mat.like (Rat.castHom ℝ) edgePermV
    (computeSpatialPermeability Real.sqrt Real.rpow (edgeImage : Mat ℝ).t 0.017 2).t := by
  intro y x c
  rw [Mat.get_t, computeSpatialPermeability_get]
  have hch : (edgeImage : Mat ℝ).t.channels = 1 := rfl
  have hcols : (edgeImage : Mat ℝ).t.cols = 4 := rfl
  have e00 : ((0 : ℝ) - 0) ^ 2 = 0 := by norm_num
  have e11 : ((1 : ℝ) - 1) ^ 2 = 0 := by norm_num
  have e10 : ((1 : ℝ) - 0) ^ 2 = 1 := by norm_num
  simp only [hch, hcols, List.range_succ, List.range_zero, List.nil_append, forLoop_cons,
    forLoop_nil, zero_add, edgeImage, Mat.get, Mat.t, edgePermV, Rat.coe_castHom]
  split_ifs <;>
    first
    | (exfalso; omega)
    | (rw [e00, perm_value_flat, Rat.cast_one])
    | (rw [e11, perm_value_flat, Rat.cast_one])
    | (rw [e10, perm_value_edge])

/-- The scenario evaluated in rational numbers. -/
theorem edge_scenario_rational : ∀ y : Fin 4,
    (iteration edgePermH edgePermV 0 4 4 1 ⟨edgeImage, [], []⟩).J_XY.get y 0 0 < 1 / 100 ∧
    (iteration edgePermH edgePermV 0 4 4 1 ⟨edgeImage, [], []⟩).J_XY.get y 1 0 < 1 / 100 ∧
    99 / 100 < (iteration edgePermH edgePermV 0 4 4 1 ⟨edgeImage, [], []⟩).J_XY.get y 2 0 ∧
    99 / 100 < (iteration edgePermH edgePermV 0 4 4 1 ⟨edgeImage, [], []⟩).J_XY.get y 3 0 := by
  decide!

/-- C9: for the 4 × 4 single-channel image whose columns 0 and 1 are 0 and whose columns 2
and 3 are 1, with `deltaXY = 0.017`, `alphaXY = 2`, `iterations = 1`, `lambdaXY = 0`,
filtering the image as its own field returns values below 0.01 at every pixel of columns 0
and 1 and above 0.99 at every pixel of columns 2 and 3. -/
theorem C9_edge_preserved : ∀ y : Fin 4,
    (filterXY Real.sqrt Real.rpow edgeImage edgeImage ⟨1, 0, 0.017, 2⟩).get y 0 0 < 0.01 ∧
    (filterXY Real.sqrt Real.rpow edgeImage edgeImage ⟨1, 0, 0.017, 2⟩).get y 1 0 < 0.01 ∧
    0.99 < (filterXY Real.sqrt Real.rpow edgeImage edgeImage ⟨1, 0, 0.017, 2⟩).get y 2 0 ∧
    0.99 < (filterXY Real.sqrt Real.rpow edgeImage edgeImage ⟨1, 0, 0.017, 2⟩).get y 3 0 := by
  intro y
  have heq : filterXY Real.sqrt Real.rpow (edgeImage : Mat ℝ) edgeImage ⟨1, 0, 0.017, 2⟩ =
      (iteration (computeSpatialPermeability Real.sqrt Real.rpow (edgeImage : Mat ℝ) 0.017 2)
        (computeSpatialPermeability Real.sqrt Real.rpow (edgeImage : Mat ℝ).t 0.017 2).t
        0 4 4 1 ⟨edgeImage, [], []⟩).J_XY := by
    simp [filterXY, filterXY_run, truncToInt, List.range_succ]
    rfl
  have key := iteration_like (Rat.castHom ℝ) edgePermH edgePermV _ _ edgePermH_like
    edgePermV_like 0 4 4 1 ⟨edgeImage, [], []⟩ ⟨edgeImage, [], []⟩ edgeImage_like
  obtain ⟨h0, h1, h2, h3⟩ := edge_scenario_rational y
  rw [heq, key, key, key, key]
  simp only [Rat.coe_castHom]
  refine ⟨?_, ?_, ?_, ?_⟩
  · have : ((_ : ℚ) : ℝ) < ((1 / 100 : ℚ) : ℝ) := Rat.cast_lt.mpr h0
    norm_num at this ⊢; linarith
  · have : ((_ : ℚ) : ℝ) < ((1 / 100 : ℚ) : ℝ) := Rat.cast_lt.mpr h1
    norm_num at this ⊢; linarith
  · have : ((99 / 100 : ℚ) : ℝ) < ((_ : ℚ) : ℝ) := Rat.cast_lt.mpr h2
    norm_num at this ⊢; linarith
  · have : ((99 / 100 : ℚ) : ℝ) < ((_ : ℚ) : ℝ) := Rat.cast_lt.mpr h3
    norm_num at this ⊢; linarith

end EdgeScenario

/-! ## The right pass reads columns it has already overwritten -/

section RightPass

/-- C1 (the code at the failing input): for the row `0 0 1` of width 3 with every
permeability 1 and `lambdaXY = 0`, the horizontal pass writes `4/9` at column 0, where the
recurrences of the specification over the row as it stood at the start give `1/3`: `rp(0)`
is computed from column 1 after column 1 has been overwritten with its filtered value. -/
theorem C1_right_pass_reads_overwritten_column :
    (horizontalRow permOnes 0 3 1 0 ⟨row001, [], []⟩).J_XY.get 0 0 0 = 4 / 9 ∧
      spec_horizontal (fun x => permOnes.get 0 x 0) (fun x => row001.get 0 x 0) 3 0 = 1 / 3 := by
  decide!

end RightPass

/-! ## Between the minimum and the maximum of the input -/

section Extremes

/-- On a grid that is not empty every channel has a smallest and a largest entry. -/
theorem Mat.exists_extremes {α : Type} [LinearOrder α] (J : Mat α) (h w c : Nat)
    (hh : 0 < h) (hw : 0 < w) :
    ∃ y1 x1 y2 x2, (y1 < h ∧ x1 < w) ∧ (y2 < h ∧ x2 < w) ∧
      ∀ y x, y < h → x < w → J.get y1 x1 c ≤ J.get y x c ∧ J.get y x c ≤ J.get y2 x2 c := by
  have hne : (Finset.range h ×ˢ Finset.range w).Nonempty :=
    ⟨(0, 0), by simp [hh, hw]⟩
  obtain ⟨p, hp, hmin⟩ := Finset.exists_min_image (Finset.range h ×ˢ Finset.range w)
    (fun q : Nat × Nat => J.get q.1 q.2 c) hne
  obtain ⟨q, hq, hmax⟩ := Finset.exists_max_image (Finset.range h ×ˢ Finset.range w)
    (fun q : Nat × Nat => J.get q.1 q.2 c) hne
  simp only [Finset.mem_product, Finset.mem_range] at hp hq
  refine ⟨p.1, p.2, q.1, q.2, hp, hq, fun y x hy hx => ⟨?_, ?_⟩⟩
  · exact hmin (y, x) (by simp [hy, hx])
  · exact hmax (y, x) (by simp [hy, hx])

/-- In exact arithmetic: for every image, every `deltaXY > 0` and `alphaXY > 0`,
`lambdaXY = 0`, every iteration count `n` and every field of the image's dimensions, every
output value of `filterXY` in channel `c` lies between two input values of channel `c`, the
smallest and the largest. The rounding of the `float` quotient in the source, which can take
an entry a unit in the last place past these bounds, is outside this model. -/
theorem between_min_and_max_exact (I J : Mat ℝ) (n : Nat) (delta_XY alpha_XY : ℝ)
    (hrows : J.rows = I.rows) (hcols : J.cols = I.cols)
    (_hd : 0 < delta_XY) (_ha : 0 < alpha_XY)
    (y x c : Nat) (hy : y < J.rows) (hx : x < J.cols) (hc : c < J.channels) :
    ∃ y1 x1 y2 x2, (y1 < J.rows ∧ x1 < J.cols) ∧ (y2 < J.rows ∧ x2 < J.cols) ∧
      (∀ y3 x3, y3 < J.rows → x3 < J.cols →
        J.get y1 x1 c ≤ J.get y3 x3 c ∧ J.get y3 x3 c ≤ J.get y2 x2 c) ∧
      J.get y1 x1 c ≤ (filterXY Real.sqrt Real.rpow I J ⟨n, 0, delta_XY, alpha_XY⟩).get y x c ∧
      (filterXY Real.sqrt Real.rpow I J ⟨n, 0, delta_XY, alpha_XY⟩).get y x c ≤
        J.get y2 x2 c := by
  have hh : 0 < J.rows := by omega
  have hw : 0 < J.cols := by omega
  choose y1 x1 y2 x2 h1 h2 h3 using fun c => Mat.exists_extremes J J.rows J.cols c hh hw
  have hb := filterXY_within Real.sqrt Real.rpow (fun _ e hb => Real.rpow_nonneg hb e) I J
    ⟨n, 0, delta_XY, alpha_XY⟩ truncToInt_zero (fun c => J.get (y1 c) (x1 c) c)
    (fun c => J.get (y2 c) (x2 c) c)
    (fun y x c hy hx _ => h3 c y x (hrows ▸ hy) (hcols ▸ hx))
    y x c (hrows ▸ hy) (hcols ▸ hx) hc
  exact ⟨y1 c, x1 c, y2 c, x2 c, h1 c, h2 c, h3 c, hb.1, hb.2⟩

end Extremes

/-! ## No check of the dimensions -/

section NoDimensionCheck

theorem Mat.sameOutside_set {α : Type} (J0 J : Mat α) (h w chs y x c : Nat) (v : α)
    (hy : y < h) (hx : x < w) (hc : c < chs) (hJ : J0.sameOutside h w chs J) :
    J0.sameOutside h w chs (J.set y x c v) := by
  obtain ⟨h1, h2, h3, h4⟩ := hJ
  refine ⟨h1, h2, h3, fun y1 x1 c1 hout => ?_⟩
  rw [Mat.get_set, if_neg (by omega)]
  exact h4 y1 x1 c1 hout

variable {α : Type} [LinearOrderedField α]

theorem rightStep_sameOutside (J0 perm : Mat α) (lam : Int) (h w chs y x c : Nat)
    (hy : y < h) (hx : x + 2 ≤ w) (hc : c < chs) (s : HState α)
    (hs : J0.sameOutside h w chs s.J_XY) :
    J0.sameOutside h w chs (rightStep perm lam w y x c s).J_XY := by
  unfold rightStep
  apply Mat.sameOutside_set J0 _ h w chs y x c _ hy (by omega) hc
  split_ifs
  · exact Mat.sameOutside_set J0 _ h w chs y (x + 1) c _ hy (by omega) hc hs
  · exact hs

theorem horizontalRow_sameOutside (J0 perm : Mat α) (lam : Int) (h w chs y : Nat)
    (hy : y < h) (r : Run α) (hr : J0.sameOutside h w chs r.J_XY) :
    J0.sameOutside h w chs (horizontalRow perm lam w chs y r).J_XY := by
  unfold horizontalRow
  apply forLoop_inv (fun s : HState α => J0.sameOutside h w chs s.J_XY)
  · intro x hx s hs
    exact forLoop_inv (fun s : HState α => J0.sameOutside h w chs s.J_XY) _ _
      (fun c hc s hs => rightStep_sameOutside J0 perm lam h w chs y x c hy
        (mem_downFrom.mp hx) (List.mem_range.mp hc) s hs) s hs
  · apply forLoop_inv (fun s : HState α => J0.sameOutside h w chs s.J_XY)
    · intro x _ s hs
      exact forLoop_inv (fun s : HState α => J0.sameOutside h w chs s.J_XY) _
        (fun c s => leftStep perm y x c s) (fun c _ s hs => hs) s hs
    · exact hr

theorem upStep_sameOutside (J0 perm : Mat α) (lam : Int) (h w chs x y c : Nat)
    (hx : x < w) (hy : y + 2 ≤ h) (hc : c < chs) (s : VState α)
    (hs : J0.sameOutside h w chs s.J_XY) :
    J0.sameOutside h w chs (upStep perm lam h x y c s).J_XY := by
  unfold upStep
  apply Mat.sameOutside_set J0 _ h w chs y x c _ (by omega) hx hc
  split_ifs
  · exact Mat.sameOutside_set J0 _ h w chs (y + 1) x c _ (by omega) hx hc hs
  · exact hs

theorem verticalCol_sameOutside (J0 perm : Mat α) (lam : Int) (h w chs x : Nat)
    (hx : x < w) (r : Run α) (hr : J0.sameOutside h w chs r.J_XY) :
    J0.sameOutside h w chs (verticalCol perm lam h chs x r).J_XY := by
  unfold verticalCol
  apply forLoop_inv (fun s : VState α => J0.sameOutside h w chs s.J_XY)
  · intro y hy s hs
    exact forLoop_inv (fun s : VState α => J0.sameOutside h w chs s.J_XY) _ _
      (fun c hc s hs => upStep_sameOutside J0 perm lam h w chs x y c hx
        (mem_downFrom.mp hy) (List.mem_range.mp hc) s hs) s hs
  · apply forLoop_inv (fun s : VState α => J0.sameOutside h w chs s.J_XY)
    · intro y _ s hs
      exact forLoop_inv (fun s : VState α => J0.sameOutside h w chs s.J_XY) _
        (fun c s => downStep perm x y c s) (fun c _ s hs => hs) s hs
    · exact hr

/-- An iteration writes only inside the `h × w` grid it is run on. -/
theorem iteration_sameOutside (J0 ph pv : Mat α) (lam : Int) (h w chs : Nat) (r : Run α)
    (hr : J0.sameOutside h w chs r.J_XY) :
    J0.sameOutside h w chs (iteration ph pv lam h w chs r).J_XY := by
  unfold iteration verticalPass horizontalPass
  apply forLoop_inv (fun r : Run α => J0.sameOutside h w chs r.J_XY) _ _
    (fun x hx r hr => verticalCol_sameOutside J0 pv lam h w chs x (List.mem_range.mp hx) r hr)
  exact forLoop_inv (fun r : Run α => J0.sameOutside h w chs r.J_XY) _ _
    (fun y hy r hr => horizontalRow_sameOutside J0 ph lam h w chs y (List.mem_range.mp hy) r hr)
    r hr

/-- C11 (counterexample): a 1 × 1 image and a 1 × 2 field, so the widths disagree;
`filterXY` does not fail, with `iterations = 0` and with `iterations = 3` it returns the
field. -/
theorem C11_counterexample :
    (img11 : Mat ℝ).cols ≠ (img1 : Mat ℝ).cols ∧
      filterXY Real.sqrt Real.rpow (img1 : Mat ℝ) img11 ⟨0, 0, 1, 2⟩ = img11 ∧
      filterXY Real.sqrt Real.rpow (img1 : Mat ℝ) img11 ⟨3, 0, 1, 2⟩ = img11 := by
  refine ⟨by decide, ?_, ?_⟩
  · simp [filterXY, filterXY_run]
  · have h : filterXY_run Real.sqrt Real.rpow (img1 : Mat ℝ) img11 ⟨3, 0, 1, 2⟩ =
        ⟨img11, [], []⟩ := by
      unfold filterXY_run
      exact forLoop_inv (fun r : Run ℝ => r = (⟨img11, [], []⟩ : Run ℝ)) _ _
        (fun _ _ s hs => by
          rw [hs]
          exact iteration_one_by_one _ _ _ _ _) _ rfl
    simp [filterXY, h]

end NoDimensionCheck

/-! ## Loops that update one position per round -/

section Pointwise

variable {σ K V : Type}

/-- A loop over `0 .. n-1` whose round `i` changes the view `get` of the state only at the
positions selected by `sel i`, there to `G` of the old value, when no position is selected
twice: afterwards every selected position holds `G` of its first value and every other
position its first value. -/
theorem forLoop_range_update (n : Nat) (body : Nat → σ → σ) (get : σ → K → V)
    (sel : Nat → K → Prop) (G : K → V → V)
    (hdisj : ∀ i j k, sel i k → sel j k → i = j)
    (hhit : ∀ i s k, i < n → sel i k → get (body i s) k = G k (get s k))
    (hmiss : ∀ i s k, i < n → ¬ sel i k → get (body i s) k = get s k) (s : σ) (k : K) :
    ((∃ i, i < n ∧ sel i k) → get (forLoop (List.range n) body s) k = G k (get s k)) ∧
      ((¬ ∃ i, i < n ∧ sel i k) → get (forLoop (List.range n) body s) k = get s k) := by
  induction n with
  | zero =>
    refine ⟨fun ⟨i, hi, _⟩ => absurd hi (Nat.not_lt_zero i), fun _ => ?_⟩
    simp
  | succ n ih =>
    have ih1 := ih (fun i s k hi => hhit i s k (Nat.lt_succ_of_lt hi))
      (fun i s k hi => hmiss i s k (Nat.lt_succ_of_lt hi))
    rw [List.range_succ, forLoop_append, forLoop_cons, forLoop_nil]
    by_cases hn : sel n k
    · have hno : ¬ ∃ i, i < n ∧ sel i k := by
        rintro ⟨i, hi, hs⟩
        have := hdisj i n k hs hn
        omega
      refine ⟨fun _ => ?_, fun hne => absurd ⟨n, Nat.lt_succ_self n, hn⟩ hne⟩
      rw [hhit n _ k (Nat.lt_succ_self n) hn, ih1.2 hno]
    · rw [hmiss n _ k (Nat.lt_succ_self n) hn]
      refine ⟨fun ⟨i, hi, hs⟩ => ih1.1 ⟨i, ?_, hs⟩, fun hne => ih1.2 ?_⟩
      · rcases Nat.lt_succ_iff_lt_or_eq.mp hi with h | h
        · exact h
        · exact absurd (h ▸ hs) hn
      · rintro ⟨i, hi, hs⟩
        exact hne ⟨i, Nat.lt_succ_of_lt hi, hs⟩

/-- The loop nest over the pixels, when the round of pixel `(y, x)` changes the view only at
position `(y, x)`, to `G` of the old value. -/
theorem forYX_update (h w : Nat) (body : Nat → Nat → σ → σ) (get : σ → Nat × Nat → V)
    (G : Nat × Nat → V → V)
    (hhit : ∀ y x s, get (body y x s) (y, x) = G (y, x) (get s (y, x)))
    (hmiss : ∀ y x s k, k ≠ (y, x) → get (body y x s) k = get s k) (s : σ) (y x : Nat) :
    (y < h ∧ x < w → get (forYX h w body s) (y, x) = G (y, x) (get s (y, x))) ∧
      (¬ (y < h ∧ x < w) → get (forYX h w body s) (y, x) = get s (y, x)) := by
  have inner : ∀ (y1 : Nat) (s : σ) (k : Nat × Nat),
      ((∃ i, i < w ∧ k = (y1, i)) →
        get (forLoop (List.range w) (fun x s => body y1 x s) s) k = G k (get s k)) ∧
      ((¬ ∃ i, i < w ∧ k = (y1, i)) →
        get (forLoop (List.range w) (fun x s => body y1 x s) s) k = get s k) := by
    intro y1 s k
    refine forLoop_range_update w (fun x s => body y1 x s) get (fun i k => k = (y1, i)) G
      ?_ ?_ ?_ s k
    · intro i j k hi hj
      have := hi.symm.trans hj
      simpa using this
    · intro i s k _ hk
      subst hk
      exact hhit y1 i s
    · intro i s k _ hk
      exact hmiss y1 i s k hk
  have outer := forLoop_range_update h
    (fun y s => forLoop (List.range w) (fun x s => body y x s) s) get
    (fun j k => ∃ i, i < w ∧ k = (j, i)) G
    (by
      rintro i j k ⟨a, _, ha⟩ ⟨b, _, hb⟩
      have := ha.symm.trans hb
      simp only [Prod.mk.injEq] at this
      exact this.1)
    (fun j s k _ hk => (inner j s k).1 hk)
    (fun j s k _ hk => (inner j s k).2 hk) s (y, x)
  constructor
  · rintro ⟨hy, hx⟩
    exact outer.1 ⟨y, hy, x, hx, rfl⟩
  · intro hno
    refine outer.2 ?_
    rintro ⟨j, hj, i, hi, hk⟩
    simp only [Prod.mk.injEq] at hk
    exact hno ⟨hk.1 ▸ hj, hk.2 ▸ hi⟩

/-- The loop nest over the pixels and the channels, when the round of `(y, x, c)` changes
the view only at position `(y, x, c)`, to `G` of the old value. -/
theorem forYXC_update (h w chs : Nat) (body : Nat → Nat → Nat → σ → σ)
    (get : σ → Nat × Nat × Nat → V) (G : Nat × Nat × Nat → V → V)
    (hhit : ∀ y x c s, get (body y x c s) (y, x, c) = G (y, x, c) (get s (y, x, c)))
    (hmiss : ∀ y x c s k, k ≠ (y, x, c) → get (body y x c s) k = get s k)
    (s : σ) (y x c : Nat) :
    (y < h ∧ x < w ∧ c < chs →
      get (forYXC h w chs body s) (y, x, c) = G (y, x, c) (get s (y, x, c))) ∧
    (¬ (y < h ∧ x < w ∧ c < chs) →
      get (forYXC h w chs body s) (y, x, c) = get s (y, x, c)) := by
  have inner : ∀ (y1 x1 : Nat) (s : σ) (k : Nat × Nat × Nat),
      ((∃ i, i < chs ∧ k = (y1, x1, i)) →
        get (forLoop (List.range chs) (fun c s => body y1 x1 c s) s) k = G k (get s k)) ∧
      ((¬ ∃ i, i < chs ∧ k = (y1, x1, i)) →
        get (forLoop (List.range chs) (fun c s => body y1 x1 c s) s) k = get s k) := by
    intro y1 x1 s k
    refine forLoop_range_update chs (fun c s => body y1 x1 c s) get
      (fun i k => k = (y1, x1, i)) G ?_ ?_ ?_ s k
    · intro i j k hi hj
      have := hi.symm.trans hj
      simpa using this
    · intro i s k _ hk
      subst hk
      exact hhit y1 x1 i s
    · intro i s k _ hk
      exact hmiss y1 x1 i s k hk
  have middle : ∀ (y1 : Nat) (s : σ) (k : Nat × Nat × Nat),
      ((∃ j, j < w ∧ ∃ i, i < chs ∧ k = (y1, j, i)) →
        get (forLoop (List.range w)
          (fun x s => forLoop (List.range chs) (fun c s => body y1 x c s) s) s) k
            = G k (get s k)) ∧
      ((¬ ∃ j, j < w ∧ ∃ i, i < chs ∧ k = (y1, j, i)) →
        get (forLoop (List.range w)
          (fun x s => forLoop (List.range chs) (fun c s => body y1 x c s) s) s) k
            = get s k) := by
    intro y1 s k
    refine forLoop_range_update w
      (fun x s => forLoop (List.range chs) (fun c s => body y1 x c s) s) get
      (fun j k => ∃ i, i < chs ∧ k = (y1, j, i)) G ?_ ?_ ?_ s k
    · rintro i j k ⟨a, _, ha⟩ ⟨b, _, hb⟩
      have := ha.symm.trans hb
      simp only [Prod.mk.injEq] at this
      exact this.2.1
    · intro j s k _ hk
      exact (inner y1 j s k).1 hk
    · intro j s k _ hk
      exact (inner y1 j s k).2 hk
  have outer := forLoop_range_update h
    (fun y s => forLoop (List.range w)
      (fun x s => forLoop (List.range chs) (fun c s => body y x c s) s) s) get
    (fun l k => ∃ j, j < w ∧ ∃ i, i < chs ∧ k = (l, j, i)) G
    (by
      rintro i j k ⟨a, _, a1, _, ha⟩ ⟨b, _, b1, _, hb⟩
      have := ha.symm.trans hb
      simp only [Prod.mk.injEq] at this
      exact this.1)
    (fun l s k _ hk => (middle l s k).1 hk)
    (fun l s k _ hk => (middle l s k).2 hk) s (y, x, c)
  constructor
  · rintro ⟨hy, hx, hc⟩
    exact outer.1 ⟨y, hy, x, hx, c, hc, rfl⟩
  · intro hno
    refine outer.2 ?_
    rintro ⟨l, hl, j, hj, i, hi, hk⟩
    simp only [Prod.mk.injEq] at hk
    exact hno ⟨hk.1 ▸ hl, hk.2.1 ▸ hj, hk.2.2 ▸ hi⟩

end Pointwise

/-! ## `getAbsoluteFlow` -/

section GeometryFacts

variable {α : Type} [LinearOrderedField α] [FloorRing α]

/-- The definition of `getAbsoluteFlow`, unfolded. -/
theorem getAbsoluteFlow_eq (x y : Int) (flow : α × α) (h w : Int) :
    getAbsoluteFlow x y flow h w =
      if (0 ≤ cvRound ((y : α) + flow.2) ∧ cvRound ((y : α) + flow.2) < h ∧
        0 ≤ cvRound ((x : α) + flow.1) ∧ cvRound ((x : α) + flow.1) < w)
      then (cvRound ((y : α) + flow.2), cvRound ((x : α) + flow.1))
      else kPOSITION_INVALID := rfl

/-- C19: for every `x`, `y`, `flow`, `h` and `w`, `getAbsoluteFlow` returns either
`kPOSITION_INVALID = (-1, -1)` or a position `(row, col)` with `0 <= row < h` and
`0 <= col < w`; it returns the position `(cvRound(y + flow[1]), cvRound(x + flow[0]))` when
that position satisfies those bounds and `kPOSITION_INVALID` otherwise, and the result
differs from `kPOSITION_INVALID` exactly when the bounds hold. -/
theorem C19_getAbsoluteFlow (x y : Int) (flow : α × α) (h w : Int) :
    (getAbsoluteFlow x y flow h w = kPOSITION_INVALID ∨
      (0 ≤ (getAbsoluteFlow x y flow h w).1 ∧ (getAbsoluteFlow x y flow h w).1 < h ∧
        0 ≤ (getAbsoluteFlow x y flow h w).2 ∧ (getAbsoluteFlow x y flow h w).2 < w)) ∧
    ((0 ≤ cvRound ((y : α) + flow.2) ∧ cvRound ((y : α) + flow.2) < h ∧
        0 ≤ cvRound ((x : α) + flow.1) ∧ cvRound ((x : α) + flow.1) < w) →
      getAbsoluteFlow x y flow h w = (cvRound ((y : α) + flow.2), cvRound ((x : α) + flow.1))) ∧
    (¬ (0 ≤ cvRound ((y : α) + flow.2) ∧ cvRound ((y : α) + flow.2) < h ∧
        0 ≤ cvRound ((x : α) + flow.1) ∧ cvRound ((x : α) + flow.1) < w) →
      getAbsoluteFlow x y flow h w = kPOSITION_INVALID) ∧
    (getAbsoluteFlow x y flow h w ≠ kPOSITION_INVALID ↔
      (0 ≤ cvRound ((y : α) + flow.2) ∧ cvRound ((y : α) + flow.2) < h ∧
        0 ≤ cvRound ((x : α) + flow.1) ∧ cvRound ((x : α) + flow.1) < w)) := by
  by_cases hb : (0 ≤ cvRound ((y : α) + flow.2) ∧ cvRound ((y : α) + flow.2) < h ∧
        0 ≤ cvRound ((x : α) + flow.1) ∧ cvRound ((x : α) + flow.1) < w)
  · rw [getAbsoluteFlow_eq, if_pos hb]
    refine ⟨Or.inr hb, fun _ => rfl, fun hn => absurd hb hn, fun _ => hb, fun _ => ?_⟩
    intro heq
    have h1 : cvRound ((y : α) + flow.2) = -1 := congrArg Prod.fst heq
    omega
  · rw [getAbsoluteFlow_eq, if_neg hb]
    exact ⟨Or.inl rfl, fun hn => absurd hn hb, fun _ => rfl,
      fun hne => absurd rfl hne, fun hn => absurd hn hb⟩

/-- A result of `getAbsoluteFlow` that is not `kPOSITION_INVALID` is a valid index. -/
theorem getAbsoluteFlow_valid (x y : Int) (flow : α × α) (h w : Int)
    (hv : getAbsoluteFlow x y flow h w ≠ kPOSITION_INVALID) :
    0 ≤ (getAbsoluteFlow x y flow h w).1 ∧ (getAbsoluteFlow x y flow h w).1 < h ∧
      0 ≤ (getAbsoluteFlow x y flow h w).2 ∧ (getAbsoluteFlow x y flow h w).2 < w := by
  rw [getAbsoluteFlow_eq] at hv ⊢
  split_ifs at hv ⊢ with hb
  · exact hb
  · exact absurd rfl hv

end GeometryFacts

/-! ## `getFlowConfidence` -/

section ConfidenceFacts

/-- A property that holds before a loop nest over the pixels and is kept by every round holds
after it. -/
theorem forYX_inv {σ : Type} (P : σ → Prop) (h w : Nat) (body : Nat → Nat → σ → σ)
    (hstep : ∀ y x, y < h → x < w → ∀ s, P s → P (body y x s)) (s : σ) (h0 : P s) :
    P (forYX h w body s) := by
  unfold forYX
  exact forLoop_inv P _ _ (fun y hy s hs => forLoop_inv P _ _
    (fun x hx s hs => hstep y x (List.mem_range.mp hy) (List.mem_range.mp hx) s hs) s hs) s h0

section Normalise

variable {α : Type} [LinearOrderedField α]

/-- The map after the round of one pixel of the second loop nest. -/
theorem normaliseStep_distances (M : α) (y x : Nat) (s : NormState α) :
    (normaliseStep M y x s).distances =
      if s.distances.get y x 0 < 0 then s.distances.set y x 0 0
      else s.distances.set y x 0 ((M - s.distances.get y x 0) / M) := by
  unfold normaliseStep
  dsimp only
  split_ifs <;> rfl

/-- The second loop nest replaces every entry of the map inside the field by its normalised
value. -/
theorem normalise_get (M : α) (h w : Nat) (D : Mat α) (y x : Nat) (hy : y < h) (hx : x < w) :
    (forYX h w (fun y x n => normaliseStep M y x n)
      { distances := D, wrong := 0 }).distances.get y x 0 =
      if D.get y x 0 < 0 then 0 else (M - D.get y x 0) / M := by
  have key := (forYX_update h w (fun y x n => normaliseStep M y x n)
    (fun (s : NormState α) (k : Nat × Nat) => s.distances.get k.1 k.2 0)
    (fun _ v => if v < 0 then 0 else (M - v) / M)
    (fun y x s => by
      simp only [normaliseStep_distances]
      split_ifs <;> simp)
    (fun y x s k hk => by
      have hk1 : ¬ (k.1 = y ∧ k.2 = x ∧ 0 = 0) := fun hh => hk (Prod.ext hh.1 hh.2.1)
      simp only [normaliseStep_distances]
      split_ifs <;> rw [Mat.get_set, if_neg hk1])
    { distances := D, wrong := 0 } y x).1 ⟨hy, hx⟩
  exact key

end Normalise

variable {α : Type} [LinearOrderedField α] [FloorRing α]

/-- The round of one pixel, in terms of the distance of the pixel. -/
theorem distanceStep_eq (sqrtF : α → α) (F B : Mat α) (h w y x : Nat) (s : ConfState α) :
    distanceStep sqrtF F B h w y x s =
      match pixelDistance sqrtF F B h w y x with
      | some d => { distances := s.distances.set y x 0 d,
                    max_distance := if d > s.max_distance then d else s.max_distance }
      | none => s := by
  unfold distanceStep pixelDistance
  dsimp only
  by_cases h1 : F.get y x 0 ≠ (kFLOW_UNKNOWN : α × α).1 ∧ F.get y x 1 ≠ (kFLOW_UNKNOWN : α × α).2
  · rw [if_pos h1, if_pos h1]
    by_cases h2 : getAbsoluteFlow (x : Int) (y : Int) (F.get y x 0, F.get y x 1) (h : Int)
        (w : Int) ≠ kPOSITION_INVALID
    · rw [if_pos h2, if_pos h2]
      by_cases h3 : B.get
            (getAbsoluteFlow (x : Int) (y : Int) (F.get y x 0, F.get y x 1) (h : Int)
              (w : Int)).1.toNat
            (getAbsoluteFlow (x : Int) (y : Int) (F.get y x 0, F.get y x 1) (h : Int)
              (w : Int)).2.toNat 0 ≠ (kFLOW_UNKNOWN : α × α).1 ∧
          B.get
            (getAbsoluteFlow (x : Int) (y : Int) (F.get y x 0, F.get y x 1) (h : Int)
              (w : Int)).1.toNat
            (getAbsoluteFlow (x : Int) (y : Int) (F.get y x 0, F.get y x 1) (h : Int)
              (w : Int)).2.toNat 1 ≠ (kFLOW_UNKNOWN : α × α).2
      · rw [if_pos h3, if_pos h3]
      · rw [if_neg h3, if_neg h3]
    · rw [if_neg h2, if_neg h2]
  · rw [if_neg h1, if_neg h1]

/-- After the first loop nest the distance map holds, at every pixel, the distance of the
pixel, or `-1` where none is computed. -/
theorem flowDistances_get (sqrtF : α → α) (F B : Mat α) (y x : Nat)
    (hy : y < F.rows) (hx : x < F.cols) :
    (flowDistances sqrtF F B).distances.get y x 0 =
      (pixelDistance sqrtF F B F.rows F.cols y x).getD (-1) := by
  have key := (forYX_update F.rows F.cols
    (fun y x s => distanceStep sqrtF F B F.rows F.cols y x s)
    (fun (s : ConfState α) (k : Nat × Nat) => s.distances.get k.1 k.2 0)
    (fun k v => (pixelDistance sqrtF F B F.rows F.cols k.1 k.2).getD v)
    (fun y x s => by
      simp only [distanceStep_eq]
      cases pixelDistance sqrtF F B F.rows F.cols y x <;> simp)
    (fun y x s k hk => by
      simp only [distanceStep_eq]
      cases pixelDistance sqrtF F B F.rows F.cols y x with
      | none => rfl
      | some d =>
        have hk1 : ¬ (k.1 = y ∧ k.2 = x ∧ 0 = 0) := fun hh => hk (Prod.ext hh.1 hh.2.1)
        show (s.distances.set y x 0 d).get k.1 k.2 0 = _
        rw [Mat.get_set, if_neg hk1])
    { distances := ⟨F.rows, F.cols, 1, fun _ _ _ => -1⟩, max_distance := -1 } y x).1 ⟨hy, hx⟩
  exact key

/-- After the first loop nest no entry of the distance map exceeds the maximal distance. -/
theorem flowDistances_le_max (sqrtF : α → α) (F B : Mat α) (y x : Nat) :
    (flowDistances sqrtF F B).distances.get y x 0 ≤ (flowDistances sqrtF F B).max_distance := by
  unfold flowDistances
  refine forYX_inv (fun s : ConfState α => ∀ y x, s.distances.get y x 0 ≤ s.max_distance)
    _ _ _ ?_ _ (fun _ _ => le_refl _) y x
  intro y1 x1 _ _ s hs y2 x2
  simp only [distanceStep_eq]
  cases pixelDistance sqrtF F B F.rows F.cols y1 x1 with
  | none => exact hs y2 x2
  | some d =>
    dsimp only
    simp only [Mat.get_set]
    split_ifs with h1 h2 h2
    · exact le_refl _
    · exact not_lt.mp h2
    · exact le_of_lt (lt_of_le_of_lt (hs y2 x2) h2)
    · exact hs y2 x2

/-- The maximal distance is `-1`, or it is the distance of a pixel of the field. -/
theorem flowDistances_max_attained (sqrtF : α → α) (F B : Mat α) :
    (flowDistances sqrtF F B).max_distance = -1 ∨
      ∃ y x, y < F.rows ∧ x < F.cols ∧
        pixelDistance sqrtF F B F.rows F.cols y x = some (flowDistances sqrtF F B).max_distance := by
  unfold flowDistances
  refine forYX_inv (fun s : ConfState α => s.max_distance = -1 ∨
      ∃ y x, y < F.rows ∧ x < F.cols ∧
        pixelDistance sqrtF F B F.rows F.cols y x = some s.max_distance)
    _ _ _ ?_ _ (Or.inl rfl)
  intro y1 x1 hy1 hx1 s hs
  simp only [distanceStep_eq]
  cases hd : pixelDistance sqrtF F B F.rows F.cols y1 x1 with
  | none => exact hs
  | some d =>
    dsimp only
    split_ifs
    · exact Or.inr ⟨y1, x1, hy1, hx1, hd⟩
    · exact hs

/-- A distance is a value of `sqrt`, so it is not negative when `sqrt` is not. -/
theorem pixelDistance_nonneg (sqrtF : α → α) (hsqrt : ∀ v, 0 ≤ sqrtF v) (F B : Mat α)
    (h w y x : Nat) (d : α) (hd : pixelDistance sqrtF F B h w y x = some d) : 0 ≤ d := by
  unfold pixelDistance at hd
  dsimp only at hd
  split_ifs at hd
  cases hd
  exact hsqrt _

/-- With a positive maximal distance `M`, the confidence at a pixel of the field is
`(M - d) / M` where the pixel has the distance `d`, and `0` where it has none. -/
theorem getFlowConfidence_pos (sqrtF : α → α) (hsqrt : ∀ v, 0 ≤ sqrtF v) (F B : Mat α)
    (hM : 0 < (flowDistances sqrtF F B).max_distance)
    (y x : Nat) (hy : y < F.rows) (hx : x < F.cols) :
    (getFlowConfidence sqrtF F B).get y x 0 =
      match pixelDistance sqrtF F B F.rows F.cols y x with
      | some d => ((flowDistances sqrtF F B).max_distance - d)
          / (flowDistances sqrtF F B).max_distance
      | none => 0 := by
  have hM1 : (flowDistances sqrtF F B).max_distance > 0 := hM
  unfold getFlowConfidence getFlowConfidence_run
  simp only [hM1, if_true]
  rw [normalise_get _ _ _ _ y x hy hx, flowDistances_get sqrtF F B y x hy hx]
  cases hd : pixelDistance sqrtF F B F.rows F.cols y x with
  | none => simp
  | some d =>
    have hd0 : 0 ≤ d := pixelDistance_nonneg sqrtF hsqrt F B _ _ y x d hd
    simp [not_lt.mpr hd0]

/-- With a maximal distance that is not positive, the confidence map is the map of ones. -/
theorem getFlowConfidence_nonpos (sqrtF : α → α) (F B : Mat α)
    (hM : ¬ 0 < (flowDistances sqrtF F B).max_distance) :
    getFlowConfidence sqrtF F B = Mat.ones F.rows F.cols := by
  have hM1 : ¬ (flowDistances sqrtF F B).max_distance > 0 := hM
  unfold getFlowConfidence getFlowConfidence_run
  simp only [hM1, if_false]

end ConfidenceFacts

/-! ## Rounding of whole numbers -/

section Rounding

variable {α : Type} [LinearOrderedField α] [FloorRing α]

theorem cvRound_intCast (n : Int) : cvRound (n : α) = n := by
  unfold cvRound
  simp

@[simp] theorem cvRound_zero : cvRound (0 : α) = 0 := by
  simpa using (cvRound_intCast 0 : cvRound ((0 : Int) : α) = 0)

@[simp] theorem cvRound_one : cvRound (1 : α) = 1 := by
  simpa using (cvRound_intCast 1 : cvRound ((1 : Int) : α) = 1)

@[simp] theorem cvRound_ofNat (n : Nat) [n.AtLeastTwo] :
    cvRound (no_index (OfNat.ofNat n) : α) = OfNat.ofNat n := by
  simpa using (cvRound_intCast (n : Int) : cvRound (((n : Int)) : α) = (n : Int))

end Rounding

/-! ## The claims about `getFlowConfidence` -/

section ConfidenceClaims

/-- When a pixel of the field has the distance `D0` and no pixel has a larger one, the
maximal distance is `D0`. -/
theorem flowDistances_max_eq {α : Type} [LinearOrderedField α] [FloorRing α]
    (sqrtF : α → α) (hsqrt : ∀ v, 0 ≤ sqrtF v) (F B : Mat α) (y0 x0 : Nat)
    (hy0 : y0 < F.rows) (hx0 : x0 < F.cols) (D0 : α)
    (h0 : pixelDistance sqrtF F B F.rows F.cols y0 x0 = some D0)
    (hle : ∀ y x d, y < F.rows → x < F.cols →
      pixelDistance sqrtF F B F.rows F.cols y x = some d → d ≤ D0) :
    (flowDistances sqrtF F B).max_distance = D0 := by
  have h1 : D0 ≤ (flowDistances sqrtF F B).max_distance := by
    have := flowDistances_le_max sqrtF F B y0 x0
    rwa [flowDistances_get sqrtF F B y0 x0 hy0 hx0, h0] at this
  have h2 : 0 ≤ D0 := pixelDistance_nonneg sqrtF hsqrt F B _ _ y0 x0 D0 h0
  rcases flowDistances_max_attained sqrtF F B with hm | ⟨y, x, hy, hx, hm⟩
  · rw [hm] at h1
    linarith
  · exact le_antisymm (hle y x _ hy hx hm) h1

theorem pixelDistance_flow13_0 :
    pixelDistance Real.sqrt (flow13 : Mat ℝ) flow13 1 2 0 0 = some 4 := by
  simp [pixelDistance, getAbsoluteFlow_eq, flow13, Mat.get, kFLOW_UNKNOWN, kMOVEMENT_UNKNOWN,
    kPOSITION_INVALID]
  rw [Real.sqrt_sq (by norm_num)]
  norm_num

theorem pixelDistance_flow13_1 :
    pixelDistance Real.sqrt (flow13 : Mat ℝ) flow13 1 2 0 1 = none := by
  norm_num [pixelDistance, getAbsoluteFlow_eq, flow13, Mat.get, kFLOW_UNKNOWN, kMOVEMENT_UNKNOWN,
    kPOSITION_INVALID]

/-- C15 (counterexample): the flow field `(1,0) (3,0)` on the 1 × 2 grid has no unknown
flow, and `getFlowConfidence` called with it as forward and as backward flow returns 0, not
1, at pixel `(0,0)`: the distance there is `4` whether the flows are added, as in the code, or
subtracted, and it is the maximal distance. -/
theorem C15_counterexample :
    (∀ y x c, (flow13 : Mat ℝ).get y x c ≠ kMOVEMENT_UNKNOWN) ∧
      (getFlowConfidence Real.sqrt (flow13 : Mat ℝ) flow13).get 0 0 0 = 0 := by
  constructor
  · intro y x c
    simp only [flow13, Mat.get, kMOVEMENT_UNKNOWN]
    split_ifs <;> norm_num
  · have hM : (flowDistances Real.sqrt (flow13 : Mat ℝ) flow13).max_distance = 4 := by
      refine flowDistances_max_eq Real.sqrt Real.sqrt_nonneg flow13 flow13 0 0 (by decide)
        (by decide) 4 pixelDistance_flow13_0 ?_
      intro y x d hy hx hd
      have hy0 : y = 0 := by
        have : y < 1 := hy
        omega
      have hx2 : x < 2 := hx
      subst hy0
      rcases Nat.lt_or_ge x 1 with h | h
      · have hx0 : x = 0 := by omega
        subst hx0
        have := pixelDistance_flow13_0.symm.trans hd
        simp only [Option.some.injEq] at this
        exact this.ge
      · have hx1 : x = 1 := by omega
        subst hx1
        have := pixelDistance_flow13_1.symm.trans hd
        simp at this
    have h := getFlowConfidence_pos Real.sqrt Real.sqrt_nonneg (flow13 : Mat ℝ) flow13
      (by rw [hM]; norm_num) 0 0 (by decide) (by decide)
    rw [h, hM]
    have h4 : pixelDistance Real.sqrt (flow13 : Mat ℝ) flow13 (flow13 : Mat ℝ).rows
        (flow13 : Mat ℝ).cols 0 0 = some 4 := pixelDistance_flow13_0
    rw [h4]
    norm_num

/-- A pixel that has a distance has it from a backward flow read inside the field. -/
theorem pixelDistance_some {α : Type} [LinearOrderedField α] [FloorRing α]
    (sqrtF : α → α) (F B : Mat α) (h w y x : Nat) (d : α)
    (hd : pixelDistance sqrtF F B h w y x = some d) :
    ∃ ty tx, ty < h ∧ tx < w ∧
      d = sqrtF ((F.get y x 0 + B.get ty tx 0) ^ 2 + (F.get y x 1 + B.get ty tx 1) ^ 2) := by
  unfold pixelDistance at hd
  dsimp only at hd
  split_ifs at hd with h1 h2 h3
  have hv := getAbsoluteFlow_valid (x : Int) (y : Int) (F.get y x 0, F.get y x 1) (h : Int)
    (w : Int) h2
  refine ⟨_, _, ?_, ?_, (Option.some.inj hd).symm⟩
  · omega
  · omega

/-- C15 (amended): for every flow field `F` that is `(0, 0)` at every pixel,
`getFlowConfidence(F, F)` returns a confidence map equal to 1 at every pixel. -/
theorem C15_zero_flow (F : Mat ℝ)
    (hF : ∀ y x, y < F.rows → x < F.cols → F.get y x 0 = 0 ∧ F.get y x 1 = 0) :
    ∀ y x, y < F.rows → x < F.cols → (getFlowConfidence Real.sqrt F F).get y x 0 = 1 := by
  intro y x _ _
  have hM : ¬ 0 < (flowDistances Real.sqrt F F).max_distance := by
    rcases flowDistances_max_attained Real.sqrt F F with hm | ⟨y1, x1, hy1, hx1, hm⟩
    · rw [hm]; norm_num
    · obtain ⟨ty, tx, hty, htx, hd⟩ := pixelDistance_some Real.sqrt F F _ _ y1 x1 _ hm
      rw [(hF y1 x1 hy1 hx1).1, (hF y1 x1 hy1 hx1).2, (hF ty tx hty htx).1,
        (hF ty tx hty htx).2] at hd
      rw [hd]
      norm_num
  rw [getFlowConfidence_nonpos Real.sqrt F F hM]
  rfl

/-- Witness of the amended C15: the zero flow field on the 1 × 2 grid. -/
theorem C15_zero_flow_witness :
    (∀ y x, y < (flowZero : Mat ℝ).rows → x < (flowZero : Mat ℝ).cols →
      (flowZero : Mat ℝ).get y x 0 = 0 ∧ (flowZero : Mat ℝ).get y x 1 = 0) ∧
    ∀ y x, y < (flowZero : Mat ℝ).rows → x < (flowZero : Mat ℝ).cols →
      (getFlowConfidence Real.sqrt (flowZero : Mat ℝ) flowZero).get y x 0 = 1 :=
  ⟨fun _ _ _ _ => ⟨rfl, rfl⟩, C15_zero_flow flowZero (fun _ _ _ _ => ⟨rfl, rfl⟩)⟩

/-- A pixel whose forward flow is the unknown flow has no distance: the unknown value never
enters the maximal distance. -/
theorem pixelDistance_unknown_forward {α : Type} [LinearOrderedField α] [FloorRing α]
    (sqrtF : α → α) (F B : Mat α) (h w y x : Nat)
    (hu : F.get y x 0 = kMOVEMENT_UNKNOWN ∧ F.get y x 1 = kMOVEMENT_UNKNOWN) :
    pixelDistance sqrtF F B h w y x = none := by
  unfold pixelDistance
  dsimp only
  rw [if_neg]
  intro hne
  exact hne.1 hu.1

/-- When the maximal distance is positive, a pixel whose forward flow is the unknown flow
gets the confidence 0. -/
theorem getFlowConfidence_unknown_forward (F B : Mat ℝ)
    (hM : 0 < (flowDistances Real.sqrt F B).max_distance) (y x : Nat)
    (hy : y < F.rows) (hx : x < F.cols)
    (hu : F.get y x 0 = kMOVEMENT_UNKNOWN ∧ F.get y x 1 = kMOVEMENT_UNKNOWN) :
    (getFlowConfidence Real.sqrt F B).get y x 0 = 0 := by
  rw [getFlowConfidence_pos Real.sqrt Real.sqrt_nonneg F B hM y x hy hx,
    pixelDistance_unknown_forward Real.sqrt F B _ _ y x hu]

/-- C17 (the code at the failing input): on the 1 × 1 grid whose only pixel has the unknown
forward flow `(1e10, 1e10)`, no distance is computed, the maximal distance stays `-1`, the
fallback branch returns the map of ones, and the confidence at the pixel is 1, not 0. -/
theorem C17_unknown_flow_in_fallback :
    ((flowUnknown : Mat ℝ).get 0 0 0 = kMOVEMENT_UNKNOWN ∧
      (flowUnknown : Mat ℝ).get 0 0 1 = kMOVEMENT_UNKNOWN) ∧
    (flowDistances Real.sqrt (flowUnknown : Mat ℝ) flowUnknown).max_distance = -1 ∧
    (getFlowConfidence Real.sqrt (flowUnknown : Mat ℝ) flowUnknown).get 0 0 0 = 1 := by
  have hM : (flowDistances Real.sqrt (flowUnknown : Mat ℝ) flowUnknown).max_distance = -1 := by
    rcases flowDistances_max_attained Real.sqrt (flowUnknown : Mat ℝ) flowUnknown with
      hm | ⟨y, x, _, _, hm⟩
    · exact hm
    · rw [pixelDistance_unknown_forward Real.sqrt flowUnknown flowUnknown _ _ y x ⟨rfl, rfl⟩]
        at hm
      simp at hm
  refine ⟨⟨rfl, rfl⟩, hM, ?_⟩
  rw [getFlowConfidence_nonpos Real.sqrt flowUnknown flowUnknown (by rw [hM]; norm_num)]
  rfl

theorem pixelDistance_flow10_01_0 :
    pixelDistance Real.sqrt (flow10 : Mat ℝ) flow01 1 2 0 0 = some 2 := by
  norm_num [pixelDistance, getAbsoluteFlow_eq, flow10, flow01, Mat.get, kFLOW_UNKNOWN,
    kMOVEMENT_UNKNOWN, kPOSITION_INVALID]
  rw [show (4 : ℝ) = 2 ^ 2 by norm_num, Real.sqrt_sq (by norm_num)]

theorem pixelDistance_flow10_01_1 :
    pixelDistance Real.sqrt (flow10 : Mat ℝ) flow01 1 2 0 1 = some 1 := by
  norm_num [pixelDistance, getAbsoluteFlow_eq, flow10, flow01, Mat.get, kFLOW_UNKNOWN,
    kMOVEMENT_UNKNOWN, kPOSITION_INVALID]

theorem spec_pixelDistance_flow10_01_0 :
    spec_pixelDistance Real.sqrt (flow10 : Mat ℝ) flow01 1 2 0 0 = some 0 := by
  norm_num [spec_pixelDistance, getAbsoluteFlow_eq, flow10, flow01, Mat.get, kFLOW_UNKNOWN,
    kMOVEMENT_UNKNOWN, kPOSITION_INVALID]

theorem spec_pixelDistance_flow10_01_1 :
    spec_pixelDistance Real.sqrt (flow10 : Mat ℝ) flow01 1 2 0 1 = some 1 := by
  norm_num [spec_pixelDistance, getAbsoluteFlow_eq, flow10, flow01, Mat.get, kFLOW_UNKNOWN,
    kMOVEMENT_UNKNOWN, kPOSITION_INVALID]

/-- C18 (the code at the failing input): with the forward flow `(1,0) (0,0)` and the
backward flow `(0,0) (1,0)` on the 1 × 2 grid, both pixels have known flows and the target
`(0,1)`. The code adds the two flows: its distances are `2` and `1`, and the confidence at
pixel `(0,0)` is 0. The formula of the claim subtracts them: the distances are `0` and `1`,
and the confidence at pixel `(0,0)` is `1 - 0/1 = 1`. -/
theorem C18_distance_adds_the_flows :
    (getFlowConfidence Real.sqrt (flow10 : Mat ℝ) flow01).get 0 0 0 = 0 ∧
      spec_flowConfidence Real.sqrt (flow10 : Mat ℝ) flow01 0 0 = some 1 := by
  constructor
  · have hM : (flowDistances Real.sqrt (flow10 : Mat ℝ) flow01).max_distance = 2 := by
      refine flowDistances_max_eq Real.sqrt Real.sqrt_nonneg flow10 flow01 0 0 (by decide)
        (by decide) 2 pixelDistance_flow10_01_0 ?_
      intro y x d hy hx hd
      have hy0 : y = 0 := by
        have : y < 1 := hy
        omega
      have hx2 : x < 2 := hx
      subst hy0
      rcases Nat.lt_or_ge x 1 with h | h
      · have hx0 : x = 0 := by omega
        subst hx0
        exact (Option.some.inj (pixelDistance_flow10_01_0.symm.trans hd)).ge
      · have hx1 : x = 1 := by omega
        subst hx1
        have := Option.some.inj (pixelDistance_flow10_01_1.symm.trans hd)
        linarith
    have h := getFlowConfidence_pos Real.sqrt Real.sqrt_nonneg (flow10 : Mat ℝ) flow01
      (by rw [hM]; norm_num) 0 0 (by decide) (by decide)
    have h1 : pixelDistance Real.sqrt (flow10 : Mat ℝ) flow01 (flow10 : Mat ℝ).rows
        (flow10 : Mat ℝ).cols 0 0 = some 2 := pixelDistance_flow10_01_0
    rw [h, h1, hM]
    norm_num
  · have h0 : spec_pixelDistance Real.sqrt (flow10 : Mat ℝ) flow01 (flow10 : Mat ℝ).rows
        (flow10 : Mat ℝ).cols 0 0 = some 0 := spec_pixelDistance_flow10_01_0
    have h1 : spec_pixelDistance Real.sqrt (flow10 : Mat ℝ) flow01 (flow10 : Mat ℝ).rows
        (flow10 : Mat ℝ).cols 0 1 = some 1 := spec_pixelDistance_flow10_01_1
    have hr : (flow10 : Mat ℝ).rows = 1 := rfl
    have hc : (flow10 : Mat ℝ).cols = 2 := rfl
    have hmax : spec_maxDistance Real.sqrt (flow10 : Mat ℝ) flow01 = 1 := by
      unfold spec_maxDistance forYX
      rw [hr, hc] at h0 h1 ⊢
      simp [List.range_succ, forLoop_append, h0, h1]
    unfold spec_flowConfidence
    rw [h0, hmax]
    simp

end ConfidenceClaims

/-! ## The temporal filter -/

section TemporalLoops

variable {α : Type}

theorem Mat.ext_data (a b : Mat α) (hr : a.rows = b.rows) (hc : a.cols = b.cols)
    (hch : a.channels = b.channels) (hd : ∀ y x c, a.get y x c = b.get y x c) : a = b := by
  cases a
  cases b
  simp only [Mat.mk.injEq]
  exact ⟨hr, hc, hch, funext fun y => funext fun x => funext fun c => hd y x c⟩

/-- A property that holds before a loop nest over the pixels and the channels and is kept
by every round holds after it. -/
theorem forYXC_inv {σ : Type} (P : σ → Prop) (h w chs : Nat) (body : Nat → Nat → Nat → σ → σ)
    (hstep : ∀ y x c, y < h → x < w → c < chs → ∀ s, P s → P (body y x c s)) (s : σ)
    (h0 : P s) : P (forYXC h w chs body s) := by
  unfold forYXC
  exact forYX_inv P h w _ (fun y x hy hx s hs => forLoop_inv P _ _
    (fun c hc s hs => hstep y x c hy hx (List.mem_range.mp hc) s hs) s hs) s h0

/-- A loop nest that assigns `f y x c` to the entry `(y, x)[c]`. -/
theorem forYXC_set (h w chs : Nat) (f : Nat → Nat → Nat → α) (m0 : Mat α) :
    forYXC h w chs (fun y x c m => m.set y x c (f y x c)) m0 =
      ⟨m0.rows, m0.cols, m0.channels,
        fun y x c => if y < h ∧ x < w ∧ c < chs then f y x c else m0.data y x c⟩ := by
  have hdim := forYXC_inv
    (fun m : Mat α => m.rows = m0.rows ∧ m.cols = m0.cols ∧ m.channels = m0.channels)
    h w chs (fun y x c m => m.set y x c (f y x c))
    (fun _ _ _ _ _ _ _ hm => hm) m0 ⟨rfl, rfl, rfl⟩
  refine Mat.ext_data _ _ hdim.1 hdim.2.1 hdim.2.2 (fun y x c => ?_)
  have key := forYXC_update h w chs (fun y x c (m : Mat α) => m.set y x c (f y x c))
    (fun m k => m.get k.1 k.2.1 k.2.2) (fun k _ => f k.1 k.2.1 k.2.2)
    (fun y x c m => by simp)
    (fun y x c m k hk => by
      have hk1 : ¬ (k.1 = y ∧ k.2.1 = x ∧ k.2.2 = c) :=
        fun hh => hk (Prod.ext hh.1 (Prod.ext hh.2.1 hh.2.2))
      simp only [Mat.get_set, if_neg hk1])
    m0 y x c
  by_cases hin : y < h ∧ x < w ∧ c < chs
  · rw [key.1 hin]
    show _ = if y < h ∧ x < w ∧ c < chs then f y x c else m0.data y x c
    rw [if_pos hin]
  · rw [key.2 hin]
    show _ = if y < h ∧ x < w ∧ c < chs then f y x c else m0.data y x c
    rw [if_neg hin]
    rfl

end TemporalLoops

section TemporalFacts

variable {α : Type} [LinearOrderedField α]

/-- The entries of the backward map: `(x - dx, y - dy)` on the grid, zero elsewhere. -/
theorem backwardMap_get (prevFlow : Mat α) (h w y x c : Nat) :
    (backwardMap prevFlow h w).get y x c =
      if y < h ∧ x < w then
        (if c = 0 then (x : α) - prevFlow.get y x 0
          else if c = 1 then (y : α) - prevFlow.get y x 1 else 0)
      else 0 := by
  have key := forYX_update h w (fun y x m => backwardMapStep prevFlow y x m)
    (fun (m : Mat α) (k : Nat × Nat) => fun c => m.get k.1 k.2 c)
    (fun k v => fun c => if c = 0 then (k.2 : α) - prevFlow.get k.1 k.2 0
      else if c = 1 then (k.1 : α) - prevFlow.get k.1 k.2 1 else v c)
    (fun y x m => by
      funext c
      simp only [backwardMapStep, Mat.get_set]
      by_cases h0 : c = 0
      · subst h0; simp
      · by_cases h1 : c = 1
        · subst h1; simp
        · simp [h0, h1])
    (fun y x m k hk => by
      funext c
      have hk1 : ∀ c1, ¬ (k.1 = y ∧ k.2 = x ∧ c = c1) :=
        fun c1 hh => hk (Prod.ext hh.1 hh.2.1)
      simp only [backwardMapStep, Mat.get_set, hk1, if_false])
    (Mat.zeros h w 2) y x
  by_cases hin : y < h ∧ x < w
  · have := congrFun (key.1 hin) c
    simp only [Mat.get_zeros] at this
    rw [if_pos hin]
    exact this
  · have := congrFun (key.2 hin) c
    simp only [Mat.get_zeros] at this
    rw [if_neg hin]
    exact this

theorem backwardMap_dims (prevFlow : Mat α) (h w : Nat) :
    (backwardMap prevFlow h w).rows = h ∧ (backwardMap prevFlow h w).cols = w := by
  unfold backwardMap
  exact forYX_inv (fun m : Mat α => m.rows = h ∧ m.cols = w) h w
    (fun y x prev_map => backwardMapStep prevFlow y x prev_map)
    (fun _ _ _ _ _ hm => hm) (Mat.zeros h w 2) ⟨rfl, rfl⟩

/-- The two planes of the backward map are the maps of the specification. -/
theorem backwardMap_channels (prevFlow : Mat α) (h w : Nat) :
    (backwardMap prevFlow h w).channel 0 = spec_mapX prevFlow h w ∧
      (backwardMap prevFlow h w).channel 1 = spec_mapY prevFlow h w := by
  have hd := backwardMap_dims prevFlow h w
  constructor
  · refine Mat.ext_data _ _ hd.1 hd.2 rfl (fun y x c => ?_)
    show (backwardMap prevFlow h w).get y x 0 = _
    rw [backwardMap_get]
    simp [spec_mapX, Mat.get]
  · refine Mat.ext_data _ _ hd.1 hd.2 rfl (fun y x c => ?_)
    show (backwardMap prevFlow h w).get y x 1 = _
    rw [backwardMap_get]
    simp [spec_mapY, Mat.get]

/-- The last loop nest of `filterT`: the new normaliser and the filtered field on the
grid. -/
theorem temporalCombine_get (perm warped l_t : Mat α) (lambda_T : α) (h w chs : Nat)
    (N0 J0 : Mat α) (y x c : Nat) (hin : y < h ∧ x < w ∧ c < chs) :
    ((forYXC h w chs (fun y x c p => temporalCombineStep perm warped l_t lambda_T y x c p)
        (N0, J0)).1.get y x c = perm.get y x 0 * warped.get y x c) ∧
    ((forYXC h w chs (fun y x c p => temporalCombineStep perm warped l_t lambda_T y x c p)
        (N0, J0)).2.get y x c =
      (l_t.get y x c + (1 - lambda_T) * J0.get y x c)
        / (perm.get y x 0 * warped.get y x c + 1)) := by
  have key := (forYXC_update h w chs
    (fun y x c p => temporalCombineStep perm warped l_t lambda_T y x c p)
    (fun (p : Mat α × Mat α) (k : Nat × Nat × Nat) =>
      (p.1.get k.1 k.2.1 k.2.2, p.2.get k.1 k.2.1 k.2.2))
    (fun k v => (perm.get k.1 k.2.1 0 * warped.get k.1 k.2.1 k.2.2,
      (l_t.get k.1 k.2.1 k.2.2 + (1 - lambda_T) * v.2)
        / (perm.get k.1 k.2.1 0 * warped.get k.1 k.2.1 k.2.2 + 1)))
    (fun y x c p => by simp [temporalCombineStep])
    (fun y x c p k hk => by
      have hk1 : ¬ (k.1 = y ∧ k.2.1 = x ∧ k.2.2 = c) :=
        fun hh => hk (Prod.ext hh.1 (Prod.ext hh.2.1 hh.2.2))
      simp only [temporalCombineStep, Mat.get_set, if_neg hk1])
    (N0, J0) y x c).1 hin
  exact ⟨congrArg Prod.fst key, congrArg Prod.snd key⟩

/-- One round of the loop of `filterT`: it appends the new accumulator and the new
normaliser to `result` and replaces the field, with the values of the specification on the
grid. -/
theorem temporalIteration_spec (remap : Mat α → Mat α → Mat α → Mat α)
    (perm J_prev_XY flow_prev_XYT l_t_prev l_t_normal_prev : Mat α) (lambda_T : α)
    (h w chs : Nat) (s : TState α) :
    ∃ A N Jn : Mat α,
      temporalIteration remap perm J_prev_XY flow_prev_XYT l_t_prev l_t_normal_prev lambda_T
        h w chs s = { result := s.result ++ [A, N], J_XYT := Jn } ∧
      ∀ y x c, y < h → x < w → c < chs →
        A.get y x c = perm.get y x 0 *
          (remap (spec_sum l_t_prev J_prev_XY h w chs) (spec_mapX flow_prev_XYT h w)
            (spec_mapY flow_prev_XYT h w)).get y x c ∧
        N.get y x c = perm.get y x 0 *
          (remap (spec_plusOne l_t_normal_prev h w chs) (spec_mapX flow_prev_XYT h w)
            (spec_mapY flow_prev_XYT h w)).get y x c ∧
        Jn.get y x c = (A.get y x c + (1 - lambda_T) * s.J_XYT.get y x c)
          / (N.get y x c + 1) := by
  refine ⟨_, _, _, rfl, ?_⟩
  intro y x c hy hx hc
  have hin : y < h ∧ x < w ∧ c < chs := ⟨hy, hx, hc⟩
  have hmaps := backwardMap_channels flow_prev_XYT h w
  have hsum : forYXC h w chs
      (fun y x c (m : Mat α) => m.set y x c (l_t_prev.get y x c + J_prev_XY.get y x c))
      (Mat.zeros h w chs) = spec_sum l_t_prev J_prev_XY h w chs := by
    rw [forYXC_set]; rfl
  have hone : forYXC h w chs
      (fun y x c (m : Mat α) => m.set y x c (l_t_normal_prev.get y x c + 1))
      (Mat.zeros h w chs) = spec_plusOne l_t_normal_prev h w chs := by
    rw [forYXC_set]; rfl
  rw [hsum, hone, hmaps.1, hmaps.2]
  have hcomb := temporalCombine_get perm
    (remap (spec_plusOne l_t_normal_prev h w chs) (spec_mapX flow_prev_XYT h w)
      (spec_mapY flow_prev_XYT h w))
    (forYXC h w chs (fun y x c (m : Mat α) => m.set y x c (perm.get y x 0 *
      (remap (spec_sum l_t_prev J_prev_XY h w chs) (spec_mapX flow_prev_XYT h w)
        (spec_mapY flow_prev_XYT h w)).get y x c)) (Mat.zeros h w chs))
    lambda_T h w chs (Mat.zeros h w chs) s.J_XYT y x c hin
  refine ⟨?_, hcomb.1, ?_⟩
  · rw [forYXC_set]
    show (if y < h ∧ x < w ∧ c < chs then _ else _) = _
    rw [if_pos hin]
  · rw [hcomb.2, hcomb.1]

/-- C12: for every input and every resampling primitive `remap`, `filterT` returns exactly
three fields, in the order accumulator, accumulatorNormal, filteredField, where at every
pixel of the grid and every channel the accumulator is `permT * warp(prevAccumulator +
prevField)`, the accumulatorNormal is `permT * warp(prevAccumulatorNormal + 1)` and the
filtered field is `(accumulator + (1 - lambdaT) * field) / (accumulatorNormal + 1)` with
`lambdaT = 0`; `permT` is the temporal permeability and the warp map is the backward map
`(x - prevFlow.dx, y - prevFlow.dy)`. -/
theorem C12_filterT (sqrtF : α → α) (powF : α → α → α)
    (remap : Mat α → Mat α → Mat α → Mat α)
    (src src_prev J_XY J_prev_XY flow_XY flow_prev_XYT l_t_prev l_t_normal_prev : Mat α) :
    ∃ accumulator accumulatorNormal filteredField : Mat α,
      filterT sqrtF powF remap src src_prev J_XY J_prev_XY flow_XY flow_prev_XYT l_t_prev
        l_t_normal_prev = [accumulator, accumulatorNormal, filteredField] ∧
      ∀ y x c, y < src.rows → x < src.cols → c < J_XY.channels →
        accumulator.get y x c =
          (computeTemporalPermeability sqrtF powF remap src src_prev flow_XY flow_prev_XYT
            (3 / 10) 1 2 2).get y x 0 *
          (remap (spec_sum l_t_prev J_prev_XY src.rows src.cols J_XY.channels)
            (spec_mapX flow_prev_XYT src.rows src.cols)
            (spec_mapY flow_prev_XYT src.rows src.cols)).get y x c ∧
        accumulatorNormal.get y x c =
          (computeTemporalPermeability sqrtF powF remap src src_prev flow_XY flow_prev_XYT
            (3 / 10) 1 2 2).get y x 0 *
          (remap (spec_plusOne l_t_normal_prev src.rows src.cols J_XY.channels)
            (spec_mapX flow_prev_XYT src.rows src.cols)
            (spec_mapY flow_prev_XYT src.rows src.cols)).get y x c ∧
        filteredField.get y x c =
          (accumulator.get y x c + (1 - 0) * J_XY.get y x c)
            / (accumulatorNormal.get y x c + 1) := by
  obtain ⟨A, N, Jn, heq, hval⟩ := temporalIteration_spec remap
    (computeTemporalPermeability sqrtF powF remap src src_prev flow_XY flow_prev_XYT
      (3 / 10) 1 2 2) J_prev_XY flow_prev_XYT l_t_prev l_t_normal_prev 0
    src.rows src.cols J_XY.channels { result := [], J_XYT := J_XY }
  refine ⟨A, N, Jn, ?_, hval⟩
  unfold filterT
  simp only [List.range_succ, List.range_zero, List.nil_append, forLoop_cons, forLoop_nil, heq,
    List.append_assoc, List.cons_append]

end TemporalFacts

/-! ## The temporal permeability -/

section TemporalPermeabilityFacts

theorem photometricPermeability_range (remapped I : Mat ℝ) (delta_photo alpha_photo : ℝ)
    (y x c : Nat) :
    0 < (photometricPermeability Real.sqrt Real.rpow I remapped delta_photo alpha_photo).get
        y x c ∧
      (photometricPermeability Real.sqrt Real.rpow I remapped delta_photo alpha_photo).get
        y x c ≤ 1 := by
  have h : ∀ b : ℝ, 0 < (1 + Real.rpow |b| alpha_photo)⁻¹ ∧
      (1 + Real.rpow |b| alpha_photo)⁻¹ ≤ 1 := by
    intro b
    have h0 : 0 ≤ Real.rpow |b| alpha_photo := Real.rpow_nonneg (abs_nonneg b) alpha_photo
    exact ⟨inv_pos.mpr (by linarith), inv_le_one_of_one_le₀ (by linarith)⟩
  exact h _

theorem gradientPermeability_range (flow warped : Mat ℝ) (h w : Nat)
    (delta_grad alpha_grad : ℝ) (y x c : Nat) :
    0 < (gradientPermeability Real.sqrt Real.rpow flow warped h w delta_grad alpha_grad).get
        y x c ∧
      (gradientPermeability Real.sqrt Real.rpow flow warped h w delta_grad alpha_grad).get
        y x c ≤ 1 := by
  have h : ∀ b : ℝ, 0 < (1 + Real.rpow |b| alpha_grad)⁻¹ ∧
      (1 + Real.rpow |b| alpha_grad)⁻¹ ≤ 1 := by
    intro b
    have h0 : 0 ≤ Real.rpow |b| alpha_grad := Real.rpow_nonneg (abs_nonneg b) alpha_grad
    exact ⟨inv_pos.mpr (by linarith), inv_le_one_of_one_le₀ (by linarith)⟩
  exact h _

/-- The nearest-pixel resampling returns its input under the identity coordinate map. -/
theorem remapNearest_identity {α : Type} [LinearOrderedField α] [FloorRing α] (h w : Nat)
    (src mx my : Mat α)
    (hid : ∀ y x, y < h → x < w → mx.get y x 0 = (x : α) ∧ my.get y x 0 = (y : α))
    (y x c : Nat) (hy : y < h) (hx : x < w) :
    (remapNearest src mx my).get y x c = src.get y x c := by
  have hx1 : cvRound ((x : α)) = (x : Int) := by
    have : cvRound (((x : Int)) : α) = (x : Int) := cvRound_intCast (x : Int)
    simpa using this
  have hy1 : cvRound ((y : α)) = (y : Int) := by
    have : cvRound (((y : Int)) : α) = (y : Int) := cvRound_intCast (y : Int)
    simpa using this
  show src.get (cvRound (my.get y x 0)).toNat (cvRound (mx.get y x 0)).toNat c = _
  rw [(hid y x hy hx).1, (hid y x hy hx).2, hx1, hy1]
  simp

/-- C14: for every previous flow that is zero at every pixel, the backward warp map built by
`computeTemporalPermeability` gives every pixel `(x, y)` the sample position `(x, y)`; hence,
for every resampling primitive that returns its input under the identity coordinate map, the
warped previous image equals the previous image, and when the previous image equals the
image the photometric permeability is 1 at every pixel (`deltaPhoto`, `alphaPhoto > 0`). -/
theorem C14_identity_warp (remap : Mat ℝ → Mat ℝ → Mat ℝ → Mat ℝ)
    (I I_prev flow_prev_XYT : Mat ℝ) (delta_photo alpha_photo : ℝ)
    (_hd : 0 < delta_photo) (ha : 0 < alpha_photo)
    (hzero : ∀ y x, y < I.rows → x < I.cols →
      flow_prev_XYT.get y x 0 = 0 ∧ flow_prev_XYT.get y x 1 = 0)
    (hremap : ∀ src mx my : Mat ℝ,
      (∀ y x, y < I.rows → x < I.cols → mx.get y x 0 = (x : ℝ) ∧ my.get y x 0 = (y : ℝ)) →
      ∀ y x c, y < I.rows → x < I.cols → (remap src mx my).get y x c = src.get y x c) :
    (∀ y x, y < I.rows → x < I.cols →
      ((backwardMap flow_prev_XYT I.rows I.cols).channel 0).get y x 0 = (x : ℝ) ∧
      ((backwardMap flow_prev_XYT I.rows I.cols).channel 1).get y x 0 = (y : ℝ)) ∧
    (∀ y x c, y < I.rows → x < I.cols →
      (remap I_prev ((backwardMap flow_prev_XYT I.rows I.cols).channel 0)
        ((backwardMap flow_prev_XYT I.rows I.cols).channel 1)).get y x c = I_prev.get y x c) ∧
    ((∀ y x c, y < I.rows → x < I.cols → c < I.channels → I_prev.get y x c = I.get y x c) →
      ∀ y x, y < I.rows → x < I.cols →
        (photometricPermeability Real.sqrt Real.rpow I
          (remap I_prev ((backwardMap flow_prev_XYT I.rows I.cols).channel 0)
            ((backwardMap flow_prev_XYT I.rows I.cols).channel 1))
          delta_photo alpha_photo).get y x 0 = 1) := by
  have hmap : ∀ y x, y < I.rows → x < I.cols →
      ((backwardMap flow_prev_XYT I.rows I.cols).channel 0).get y x 0 = (x : ℝ) ∧
      ((backwardMap flow_prev_XYT I.rows I.cols).channel 1).get y x 0 = (y : ℝ) := by
    intro y x hy hx
    constructor
    · show (backwardMap flow_prev_XYT I.rows I.cols).get y x 0 = _
      rw [backwardMap_get, if_pos ⟨hy, hx⟩, (hzero y x hy hx).1]
      simp
    · show (backwardMap flow_prev_XYT I.rows I.cols).get y x 1 = _
      rw [backwardMap_get, if_pos ⟨hy, hx⟩, (hzero y x hy hx).2]
      simp
  have hwarp := hremap I_prev _ _ hmap
  refine ⟨hmap, hwarp, fun hsame y x hy hx => ?_⟩
  have hsum : forLoop (List.range I.channels)
      (fun c acc => acc + ((I.sub (remap I_prev
        ((backwardMap flow_prev_XYT I.rows I.cols).channel 0)
        ((backwardMap flow_prev_XYT I.rows I.cols).channel 1))).get y x c) ^ 2) (0 : ℝ) = 0 := by
    refine forLoop_inv (fun acc : ℝ => acc = 0) _ _ ?_ _ rfl
    intro c hc acc hacc
    have hc1 : c < I.channels := List.mem_range.mp hc
    have hdiff : (I.sub (remap I_prev
        ((backwardMap flow_prev_XYT I.rows I.cols).channel 0)
        ((backwardMap flow_prev_XYT I.rows I.cols).channel 1))).get y x c = 0 := by
      show I.get y x c - (remap I_prev _ _).get y x c = 0
      rw [hwarp y x c hy hx, hsame y x c hy hx hc1]
      ring
    rw [hacc, hdiff]
    norm_num
  show (1 + Real.rpow |Real.sqrt (forLoop (List.range I.channels)
      (fun c acc => acc + ((I.sub (remap I_prev
        ((backwardMap flow_prev_XYT I.rows I.cols).channel 0)
        ((backwardMap flow_prev_XYT I.rows I.cols).channel 1))).get y x c) ^ 2) (0 : ℝ))
        / (Real.sqrt 3 * delta_photo)| alpha_photo)⁻¹ = 1
  rw [hsum]
  simp [Real.zero_rpow ha.ne.symm]

/-- Witness of C14: the image `0 1` as image and previous image, the zero flow on the 1 × 2
grid, nearest-pixel resampling, `deltaPhoto = 3/10`, `alphaPhoto = 2`. -/
theorem C14_identity_warp_witness :
    (0 : ℝ) < 3 / 10 ∧ (0 : ℝ) < 2 ∧
    (∀ y x, y < (img01 : Mat ℝ).rows → x < (img01 : Mat ℝ).cols →
      (flowZero : Mat ℝ).get y x 0 = 0 ∧ (flowZero : Mat ℝ).get y x 1 = 0) ∧
    (∀ src mx my : Mat ℝ,
      (∀ y x, y < (img01 : Mat ℝ).rows → x < (img01 : Mat ℝ).cols →
        mx.get y x 0 = (x : ℝ) ∧ my.get y x 0 = (y : ℝ)) →
      ∀ y x c, y < (img01 : Mat ℝ).rows → x < (img01 : Mat ℝ).cols →
        (remapNearest src mx my).get y x c = src.get y x c) ∧
    ((∀ y x, y < (img01 : Mat ℝ).rows → x < (img01 : Mat ℝ).cols →
      ((backwardMap (flowZero : Mat ℝ) (img01 : Mat ℝ).rows (img01 : Mat ℝ).cols).channel
        0).get y x 0 = (x : ℝ) ∧
      ((backwardMap (flowZero : Mat ℝ) (img01 : Mat ℝ).rows (img01 : Mat ℝ).cols).channel
        1).get y x 0 = (y : ℝ)) ∧
    (∀ y x c, y < (img01 : Mat ℝ).rows → x < (img01 : Mat ℝ).cols →
      (remapNearest (img01 : Mat ℝ)
        ((backwardMap (flowZero : Mat ℝ) (img01 : Mat ℝ).rows (img01 : Mat ℝ).cols).channel 0)
        ((backwardMap (flowZero : Mat ℝ) (img01 : Mat ℝ).rows (img01 : Mat ℝ).cols).channel
          1)).get y x c = (img01 : Mat ℝ).get y x c) ∧
    ((∀ y x c, y < (img01 : Mat ℝ).rows → x < (img01 : Mat ℝ).cols →
        c < (img01 : Mat ℝ).channels → (img01 : Mat ℝ).get y x c = (img01 : Mat ℝ).get y x c) →
      ∀ y x, y < (img01 : Mat ℝ).rows → x < (img01 : Mat ℝ).cols →
        (photometricPermeability Real.sqrt Real.rpow (img01 : Mat ℝ)
          (remapNearest (img01 : Mat ℝ)
            ((backwardMap (flowZero : Mat ℝ) (img01 : Mat ℝ).rows
              (img01 : Mat ℝ).cols).channel 0)
            ((backwardMap (flowZero : Mat ℝ) (img01 : Mat ℝ).rows
              (img01 : Mat ℝ).cols).channel 1))
          (3 / 10) 2).get y x 0 = 1)) :=
  ⟨by norm_num, by norm_num, fun _ _ _ _ => ⟨rfl, rfl⟩,
    fun src mx my hid y x c hy hx => remapNearest_identity _ _ src mx my hid y x c hy hx,
    C14_identity_warp remapNearest img01 img01 flowZero (3 / 10) 2 (by norm_num) (by norm_num)
      (fun _ _ _ _ => ⟨rfl, rfl⟩)
      (fun src mx my hid y x c hy hx => remapNearest_identity _ _ src mx my hid y x c hy hx)⟩

end TemporalPermeabilityFacts

/-! ## The field after a pass as a function of the field before it -/

section CongruenceFacts

variable {α : Type} [LinearOrderedField α]

theorem leftStep_sameData (p1 p2 : Mat α) (y x c : Nat) (s t : HState α)
    (hp : p1.get y (x - 1) 0 = p2.get y (x - 1) 0) (h : s.sameData t) :
    (leftStep p1 y x c s).sameData (leftStep p2 y x c t) := by
  obtain ⟨h1, h2, h3, h4, h5⟩ := h
  simp only [leftStep, HState.sameData, h1, h2, h3, h4, h5, hp, and_self]

theorem combineH_sameData (lam : Int) (y x c : Nat) (s t : HState α) (h : s.sameData t) :
    (combineH lam y x c s).sameData (combineH lam y x c t) := by
  obtain ⟨h1, h2, h3, h4, h5⟩ := h
  simp only [combineH, HState.sameData, h1, h2, h3, h4, h5, and_self]

theorem rightAccumulate_sameData (p1 p2 : Mat α) (y x c : Nat) (s t : HState α)
    (hp : p1.get y x 0 = p2.get y x 0) (h : s.sameData t) :
    (rightAccumulate p1 y x c s).sameData (rightAccumulate p2 y x c t) := by
  obtain ⟨h1, h2, h3, h4, h5⟩ := h
  simp only [rightAccumulate, HState.sameData, h1, h2, h3, h4, h5, hp, and_self]

theorem rightStep_sameData (p1 p2 : Mat α) (lam : Int) (w y x c : Nat) (s t : HState α)
    (hp : p1.get y x 0 = p2.get y x 0) (h : s.sameData t) :
    (rightStep p1 lam w y x c s).sameData (rightStep p2 lam w y x c t) := by
  unfold rightStep
  apply combineH_sameData
  have h1 := rightAccumulate_sameData p1 p2 y x c s t hp h
  by_cases hx : x + 2 = w
  · simp only [if_pos hx]
    exact combineH_sameData lam y (x + 1) c _ _ h1
  · simp only [if_neg hx]
    exact h1

/-- The field after the pass over one row is a function of the field before it and of the
entries of the horizontal permeability map in the columns before the last. -/
theorem horizontalRow_sameJ (p1 p2 : Mat α) (lam : Int) (w chs y : Nat) (r1 r2 : Run α)
    (hp : ∀ x, x + 1 < w → p1.get y x 0 = p2.get y x 0) (h : r1.J_XY = r2.J_XY) :
    (horizontalRow p1 lam w chs y r1).J_XY = (horizontalRow p2 lam w chs y r2).J_XY := by
  unfold horizontalRow
  have h0 : HState.sameData
      (⟨r1, Mat.zeros 1 w chs, Mat.zeros 1 w chs, Mat.zeros 1 w chs, Mat.zeros 1 w chs⟩ :
        HState α)
      ⟨r2, Mat.zeros 1 w chs, Mat.zeros 1 w chs, Mat.zeros 1 w chs, Mat.zeros 1 w chs⟩ :=
    ⟨h, rfl, rfl, rfl, rfl⟩
  refine (forLoop_rel HState.sameData (downFrom w) _ _ ?_ _ _
    (forLoop_rel HState.sameData (upFromOne w) _ _ ?_ _ _ h0)).1
  · intro x hx s t hst
    have hx2 := mem_downFrom.mp hx
    exact forLoop_rel HState.sameData _ _ _
      (fun c _ s t hst => rightStep_sameData p1 p2 lam w y x c s t (hp x (by omega)) hst)
      s t hst
  · intro x hx s t hst
    have hx2 := mem_upFromOne.mp hx
    exact forLoop_rel HState.sameData _ _ _
      (fun c _ s t hst => leftStep_sameData p1 p2 y x c s t (hp (x - 1) (by omega)) hst)
      s t hst

theorem downStep_sameData (p1 p2 : Mat α) (x y c : Nat) (s t : VState α)
    (hp : p1.get (y - 1) x 0 = p2.get (y - 1) x 0) (h : s.sameData t) :
    (downStep p1 x y c s).sameData (downStep p2 x y c t) := by
  obtain ⟨h1, h2, h3, h4, h5⟩ := h
  simp only [downStep, VState.sameData, h1, h2, h3, h4, h5, hp, and_self]

theorem combineV_sameData (lam : Int) (x y c : Nat) (s t : VState α) (h : s.sameData t) :
    (combineV lam x y c s).sameData (combineV lam x y c t) := by
  obtain ⟨h1, h2, h3, h4, h5⟩ := h
  simp only [combineV, VState.sameData, h1, h2, h3, h4, h5, and_self]

theorem upAccumulate_sameData (p1 p2 : Mat α) (x y c : Nat) (s t : VState α)
    (hp : p1.get y x 0 = p2.get y x 0) (h : s.sameData t) :
    (upAccumulate p1 x y c s).sameData (upAccumulate p2 x y c t) := by
  obtain ⟨h1, h2, h3, h4, h5⟩ := h
  simp only [upAccumulate, VState.sameData, h1, h2, h3, h4, h5, hp, and_self]

theorem upStep_sameData (p1 p2 : Mat α) (lam : Int) (h x y c : Nat) (s t : VState α)
    (hp : p1.get y x 0 = p2.get y x 0) (hst : s.sameData t) :
    (upStep p1 lam h x y c s).sameData (upStep p2 lam h x y c t) := by
  unfold upStep
  apply combineV_sameData
  have h1 := upAccumulate_sameData p1 p2 x y c s t hp hst
  by_cases hy : y + 2 = h
  · simp only [if_pos hy]
    exact combineV_sameData lam x (y + 1) c _ _ h1
  · simp only [if_neg hy]
    exact h1

/-- The field after the pass over one column is a function of the field before it and of the
entries of the vertical permeability map in the rows before the last. -/
theorem verticalCol_sameJ (p1 p2 : Mat α) (lam : Int) (h chs x : Nat) (r1 r2 : Run α)
    (hp : ∀ y, y + 1 < h → p1.get y x 0 = p2.get y x 0) (hr : r1.J_XY = r2.J_XY) :
    (verticalCol p1 lam h chs x r1).J_XY = (verticalCol p2 lam h chs x r2).J_XY := by
  unfold verticalCol
  have h0 : VState.sameData
      (⟨r1, Mat.zeros h 1 chs, Mat.zeros h 1 chs, Mat.zeros h 1 chs, Mat.zeros h 1 chs⟩ :
        VState α)
      ⟨r2, Mat.zeros h 1 chs, Mat.zeros h 1 chs, Mat.zeros h 1 chs, Mat.zeros h 1 chs⟩ :=
    ⟨hr, rfl, rfl, rfl, rfl⟩
  refine (forLoop_rel VState.sameData (downFrom h) _ _ ?_ _ _
    (forLoop_rel VState.sameData (upFromOne h) _ _ ?_ _ _ h0)).1
  · intro y hy s t hst
    have hy2 := mem_downFrom.mp hy
    exact forLoop_rel VState.sameData _ _ _
      (fun c _ s t hst => upStep_sameData p1 p2 lam h x y c s t (hp y (by omega)) hst)
      s t hst
  · intro y hy s t hst
    have hy2 := mem_upFromOne.mp hy
    exact forLoop_rel VState.sameData _ _ _
      (fun c _ s t hst => downStep_sameData p1 p2 x y c s t (hp (y - 1) (by omega)) hst)
      s t hst

/-- The field after an iteration is a function of the field before it, of the entries of the
horizontal permeability map in the columns before the last and of the entries of the vertical
permeability map in the rows before the last. -/
theorem iteration_sameJ (ph1 ph2 pv1 pv2 : Mat α) (lam : Int) (h w chs : Nat) (r1 r2 : Run α)
    (hph : ∀ y x, y < h → x + 1 < w → ph1.get y x 0 = ph2.get y x 0)
    (hpv : ∀ y x, y + 1 < h → x < w → pv1.get y x 0 = pv2.get y x 0)
    (hr : r1.J_XY = r2.J_XY) :
    (iteration ph1 pv1 lam h w chs r1).J_XY = (iteration ph2 pv2 lam h w chs r2).J_XY := by
  unfold iteration verticalPass horizontalPass
  apply forLoop_rel (fun r1 r2 : Run α => r1.J_XY = r2.J_XY) (List.range w) _ _
    (fun x hx r1 r2 hr => verticalCol_sameJ pv1 pv2 lam h chs x r1 r2
      (fun y hy => hpv y x hy (List.mem_range.mp hx)) hr)
  exact forLoop_rel (fun r1 r2 : Run α => r1.J_XY = r2.J_XY) (List.range h) _ _
    (fun y hy r1 r2 hr => horizontalRow_sameJ ph1 ph2 lam w chs y r1 r2
      (fun x hx => hph y x (List.mem_range.mp hy) hx) hr) r1 r2 hr

/-- The loop over the iterations gives the same field for permeability maps that agree
before the last column, respectively before the last row. -/
theorem filterXY_passes_sameJ (ph1 ph2 pv1 pv2 : Mat α) (lam : Int) (iterations : Int)
    (h w : Nat) (J : Mat α)
    (hph : ∀ y x, y < h → x + 1 < w → ph1.get y x 0 = ph2.get y x 0)
    (hpv : ∀ y x, y + 1 < h → x < w → pv1.get y x 0 = pv2.get y x 0) :
    (filterXY_passes ph1 pv1 lam iterations h w J).J_XY =
      (filterXY_passes ph2 pv2 lam iterations h w J).J_XY := by
  unfold filterXY_passes
  exact forLoop_rel (fun r1 r2 : Run α => r1.J_XY = r2.J_XY) _ _ _
    (fun _ _ r1 r2 hr => iteration_sameJ ph1 ph2 pv1 pv2 lam h w J.channels r1 r2 hph hpv hr)
    _ _ rfl

theorem filterXY_run_eq_passes [FloorRing α] (sqrtF : α → α) (powF : α → α → α)
    (I J : Mat α) (p : cpm_pf_params_t α) :
    filterXY_run sqrtF powF I J p =
      filterXY_passes
        (computeSpatialPermeability sqrtF powF I p.delta_XY_input_float p.alpha_XY_input_float)
        (computeSpatialPermeability sqrtF powF I.t p.delta_XY_input_float
          p.alpha_XY_input_float).t
        (truncToInt p.lambda_XY_input_float) p.iterations_input_int I.rows I.cols J := rfl

end CongruenceFacts

/-! ## The last column and the last row of the permeability maps -/

section LastColumn

variable {α : Type} [LinearOrderedField α]

/-- Before the last column the permeability does not depend on the border constant of the
shift. -/
theorem computeSpatialPermeability_border_get (b : α) (sqrtF : α → α) (powF : α → α → α)
    (I : Mat α) (delta_XY alpha_XY : α) (y x : Nat) (hx : x + 1 < I.cols) :
    (computeSpatialPermeability_border b sqrtF powF I delta_XY alpha_XY).get y x 0 =
      (computeSpatialPermeability sqrtF powF I delta_XY alpha_XY).get y x 0 := by
  simp [computeSpatialPermeability_border, computeSpatialPermeability, warpAffine_shift,
    warpAffine_shift_border, Mat.get, hx]

/-- C25: taking the passes of `filterXY` as a function of the permeability maps
(`filterXY_passes`, of which `filterXY` is the instance at the two computed maps): for every
field, every two horizontal maps that agree before the last column and every two vertical
maps that agree before the last row, the passes return the same field; and `filterXY`
returns the same field whatever constant `b` fills the pixels that the shift takes from
outside the image. -/
theorem C25_last_column_and_row_unused [FloorRing α] (sqrtF : α → α) (powF : α → α → α)
    (ph1 ph2 pv1 pv2 : Mat α) (lam iterations : Int) (h w : Nat) (J : Mat α)
    (hph : ∀ y x, y < h → x + 1 < w → ph1.get y x 0 = ph2.get y x 0)
    (hpv : ∀ y x, y + 1 < h → x < w → pv1.get y x 0 = pv2.get y x 0) :
    (filterXY_passes ph1 pv1 lam iterations h w J).J_XY =
        (filterXY_passes ph2 pv2 lam iterations h w J).J_XY ∧
      (∀ (I : Mat α) (p : cpm_pf_params_t α), filterXY sqrtF powF I J p =
        (filterXY_passes
          (computeSpatialPermeability sqrtF powF I p.delta_XY_input_float
            p.alpha_XY_input_float)
          (computeSpatialPermeability sqrtF powF I.t p.delta_XY_input_float
            p.alpha_XY_input_float).t
          (truncToInt p.lambda_XY_input_float) p.iterations_input_int I.rows I.cols J).J_XY) ∧
      ∀ (b : α) (I : Mat α) (p : cpm_pf_params_t α),
        filterXY_border b sqrtF powF I J p = filterXY sqrtF powF I J p := by
  refine ⟨filterXY_passes_sameJ ph1 ph2 pv1 pv2 lam iterations h w J hph hpv,
    fun I p => rfl, fun b I p => ?_⟩
  unfold filterXY filterXY_border
  rw [filterXY_run_eq_passes]
  apply filterXY_passes_sameJ
  · intro y x _ hx
    exact computeSpatialPermeability_border_get b sqrtF powF I _ _ y x hx
  · intro y x hy _
    rw [Mat.get_t, Mat.get_t]
    exact computeSpatialPermeability_border_get b sqrtF powF I.t _ _ x y hy

/-- C25 at a 1 × 3 row: the maps `permOnes` and `permLast5` differ in the last column only,
and two iterations give the same field with either. -/
theorem C25_last_column_and_row_unused_witness :
    permOnes.get 0 2 0 ≠ permLast5.get 0 2 0 ∧
      (filterXY_passes permOnes permOnes 0 2 1 3 row057).J_XY =
        (filterXY_passes permLast5 permLast5 0 2 1 3 row057).J_XY :=
  ⟨by decide!,
    (C25_last_column_and_row_unused (fun a => a) (fun a _ => a) permOnes permLast5 permOnes
      permLast5 0 2 1 3 row057
      (fun y x _ hx => by
        have h2 : x ≠ 2 := by omega
        simp [permOnes, permLast5, Mat.get, h2])
      (fun y x hy _ => by omega)).1⟩

end LastColumn


/-! ## Element accesses -/

section AccessBasics

variable {α : Type}

/-- An access with row `r` and column `c` inside the `h × w` grid is in bounds when the
field is at least `h × w`, the maps are `h × w`, a work row is accessed in row `0` and a work
column in column `0`. -/
theorem Access.ok_of (J ph pv : Mat α) (h w : Nat)
    (hJ : h ≤ J.rows ∧ w ≤ J.cols) (hph : ph.rows = h ∧ ph.cols = w)
    (hpv : pv.rows = h ∧ pv.cols = w) (b : Buf) (r c : Int)
    (hr : 0 ≤ r ∧ r < h) (hc : 0 ≤ c ∧ c < w)
    (hrow : (b = Buf.lp ∨ b = Buf.lp_normal ∨ b = Buf.rp ∨ b = Buf.rp_normal) → r = 0)
    (hcol : (b = Buf.dp ∨ b = Buf.dp_normal ∨ b = Buf.up ∨ b = Buf.up_normal) → c = 0) :
    Access.ok J ph pv h w ⟨b, r, c⟩ := by
  obtain ⟨hJ1, hJ2⟩ := hJ
  obtain ⟨hph1, hph2⟩ := hph
  obtain ⟨hpv1, hpv2⟩ := hpv
  cases b <;>
    simp only [Access.ok, Access.inBuffer, Access.inGrid, bufferDims, hph1, hph2,
      hpv1, hpv2, Nat.cast_one] <;>
    simp at hrow hcol <;> omega

end AccessBasics

section AccessFacts

variable {α : Type} [LinearOrderedField α]

theorem leftStep_trace (P : Access → Prop) (perm : Mat α) (y x c : Nat) (s : HState α)
    (hs : ∀ a, a ∈ s.trace → P a)
    (h1 : P ⟨Buf.perm_horizontal, y, (x : Int) - 1⟩) (h2 : P ⟨Buf.lp, 0, (x : Int) - 1⟩)
    (h3 : P ⟨Buf.J_XY, y, (x : Int) - 1⟩) (h4 : P ⟨Buf.lp, 0, x⟩)
    (h5 : P ⟨Buf.lp_normal, 0, (x : Int) - 1⟩) (h6 : P ⟨Buf.lp_normal, 0, x⟩) :
    ∀ a, a ∈ (leftStep perm y x c s).trace → P a := by
  intro a ha
  simp only [leftStep, List.mem_append, List.mem_cons, List.mem_singleton, List.not_mem_nil,
    or_false, or_assoc] at ha
  rcases ha with h | rfl | rfl | rfl | rfl | rfl | rfl | rfl
  · exact hs a h
  all_goals assumption

theorem rightAccumulate_trace (P : Access → Prop) (perm : Mat α) (y x c : Nat) (s : HState α)
    (hs : ∀ a, a ∈ s.trace → P a)
    (h1 : P ⟨Buf.perm_horizontal, y, x⟩) (h2 : P ⟨Buf.rp, 0, (x : Int) + 1⟩)
    (h3 : P ⟨Buf.J_XY, y, (x : Int) + 1⟩) (h4 : P ⟨Buf.rp, 0, x⟩)
    (h5 : P ⟨Buf.rp_normal, 0, (x : Int) + 1⟩) (h6 : P ⟨Buf.rp_normal, 0, x⟩) :
    ∀ a, a ∈ (rightAccumulate perm y x c s).trace → P a := by
  intro a ha
  simp only [rightAccumulate, List.mem_append, List.mem_cons, List.mem_singleton,
    List.not_mem_nil, or_false, or_assoc] at ha
  rcases ha with h | rfl | rfl | rfl | rfl | rfl | rfl | rfl
  · exact hs a h
  all_goals assumption

theorem combineH_trace (P : Access → Prop) (lam : Int) (y x c : Nat) (s : HState α)
    (hs : ∀ a, a ∈ s.trace → P a)
    (h1 : P ⟨Buf.lp, 0, x⟩) (h2 : P ⟨Buf.J_XY, y, x⟩) (h3 : P ⟨Buf.rp, 0, x⟩)
    (h4 : P ⟨Buf.lp_normal, 0, x⟩) (h5 : P ⟨Buf.rp_normal, 0, x⟩) :
    ∀ a, a ∈ (combineH lam y x c s).trace → P a := by
  intro a ha
  simp only [combineH, List.mem_append, List.mem_cons, List.mem_singleton, List.not_mem_nil,
    or_false, or_assoc] at ha
  rcases ha with h | rfl | rfl | rfl | rfl | rfl | rfl
  · exact hs a h
  all_goals assumption

theorem downStep_trace (P : Access → Prop) (perm : Mat α) (x y c : Nat) (s : VState α)
    (hs : ∀ a, a ∈ s.trace → P a)
    (h1 : P ⟨Buf.perm_vertical, (y : Int) - 1, x⟩) (h2 : P ⟨Buf.dp, (y : Int) - 1, 0⟩)
    (h3 : P ⟨Buf.J_XY, (y : Int) - 1, x⟩) (h4 : P ⟨Buf.dp, y, 0⟩)
    (h5 : P ⟨Buf.dp_normal, (y : Int) - 1, 0⟩) (h6 : P ⟨Buf.dp_normal, y, 0⟩) :
    ∀ a, a ∈ (downStep perm x y c s).trace → P a := by
  intro a ha
  simp only [downStep, List.mem_append, List.mem_cons, List.mem_singleton, List.not_mem_nil,
    or_false, or_assoc] at ha
  rcases ha with h | rfl | rfl | rfl | rfl | rfl | rfl | rfl
  · exact hs a h
  all_goals assumption

theorem upAccumulate_trace (P : Access → Prop) (perm : Mat α) (x y c : Nat) (s : VState α)
    (hs : ∀ a, a ∈ s.trace → P a)
    (h1 : P ⟨Buf.perm_vertical, y, x⟩) (h2 : P ⟨Buf.up, (y : Int) + 1, 0⟩)
    (h3 : P ⟨Buf.J_XY, (y : Int) + 1, x⟩) (h4 : P ⟨Buf.up, y, 0⟩)
    (h5 : P ⟨Buf.up_normal, (y : Int) + 1, 0⟩) (h6 : P ⟨Buf.up_normal, y, 0⟩) :
    ∀ a, a ∈ (upAccumulate perm x y c s).trace → P a := by
  intro a ha
  simp only [upAccumulate, List.mem_append, List.mem_cons, List.mem_singleton,
    List.not_mem_nil, or_false, or_assoc] at ha
  rcases ha with h | rfl | rfl | rfl | rfl | rfl | rfl | rfl
  · exact hs a h
  all_goals assumption

theorem combineV_trace (P : Access → Prop) (lam : Int) (x y c : Nat) (s : VState α)
    (hs : ∀ a, a ∈ s.trace → P a)
    (h1 : P ⟨Buf.dp, y, 0⟩) (h2 : P ⟨Buf.J_XY, y, x⟩) (h3 : P ⟨Buf.up, y, 0⟩)
    (h4 : P ⟨Buf.dp_normal, y, 0⟩) (h5 : P ⟨Buf.up_normal, y, 0⟩) :
    ∀ a, a ∈ (combineV lam x y c s).trace → P a := by
  intro a ha
  simp only [combineV, List.mem_append, List.mem_cons, List.mem_singleton, List.not_mem_nil,
    or_false, or_assoc] at ha
  rcases ha with h | rfl | rfl | rfl | rfl | rfl | rfl
  · exact hs a h
  all_goals assumption


theorem horizontalRow_trace (J0 ph pv : Mat α) (h w : Nat)
    (hJ : h ≤ J0.rows ∧ w ≤ J0.cols) (hph : ph.rows = h ∧ ph.cols = w)
    (hpv : pv.rows = h ∧ pv.cols = w) (perm : Mat α) (lam : Int) (chs y : Nat) (hy : y < h)
    (r : Run α) (hr : ∀ a, a ∈ r.trace → Access.ok J0 ph pv h w a) :
    ∀ a, a ∈ (horizontalRow perm lam w chs y r).trace → Access.ok J0 ph pv h w a := by
  have ok := Access.ok_of J0 ph pv h w hJ hph hpv
  unfold horizontalRow
  apply forLoop_inv (fun s : HState α => ∀ a, a ∈ s.trace → Access.ok J0 ph pv h w a)
  · intro x hx s hs
    have hx2 := mem_downFrom.mp hx
    apply forLoop_inv (fun s : HState α => ∀ a, a ∈ s.trace → Access.ok J0 ph pv h w a) _ _
      _ s hs
    intro c _ s hs
    unfold rightStep
    have h1 := rightAccumulate_trace (Access.ok J0 ph pv h w) perm y x c s hs
      (ok _ _ _ (by omega) (by omega) (by simp) (by simp))
      (ok _ _ _ (by omega) (by omega) (by simp) (by simp))
      (ok _ _ _ (by omega) (by omega) (by simp) (by simp))
      (ok _ _ _ (by omega) (by omega) (by simp) (by simp))
      (ok _ _ _ (by omega) (by omega) (by simp) (by simp))
      (ok _ _ _ (by omega) (by omega) (by simp) (by simp))
    apply combineH_trace (Access.ok J0 ph pv h w) lam y x c
    · by_cases hxw : x + 2 = w
      · simp only [if_pos hxw]
        exact combineH_trace (Access.ok J0 ph pv h w) lam y (x + 1) c _ h1
          (ok _ _ _ (by omega) (by push_cast; omega) (by simp) (by simp))
          (ok _ _ _ (by omega) (by push_cast; omega) (by simp) (by simp))
          (ok _ _ _ (by omega) (by push_cast; omega) (by simp) (by simp))
          (ok _ _ _ (by omega) (by push_cast; omega) (by simp) (by simp))
          (ok _ _ _ (by omega) (by push_cast; omega) (by simp) (by simp))
      · simp only [if_neg hxw]
        exact h1
    · exact ok _ _ _ (by omega) (by omega) (by simp) (by simp)
    · exact ok _ _ _ (by omega) (by omega) (by simp) (by simp)
    · exact ok _ _ _ (by omega) (by omega) (by simp) (by simp)
    · exact ok _ _ _ (by omega) (by omega) (by simp) (by simp)
    · exact ok _ _ _ (by omega) (by omega) (by simp) (by simp)
  · apply forLoop_inv (fun s : HState α => ∀ a, a ∈ s.trace → Access.ok J0 ph pv h w a)
    · intro x hx s hs
      have hx2 := mem_upFromOne.mp hx
      apply forLoop_inv (fun s : HState α => ∀ a, a ∈ s.trace → Access.ok J0 ph pv h w a) _ _
        _ s hs
      intro c _ s hs
      exact leftStep_trace (Access.ok J0 ph pv h w) perm y x c s hs
        (ok _ _ _ (by omega) (by omega) (by simp) (by simp))
        (ok _ _ _ (by omega) (by omega) (by simp) (by simp))
        (ok _ _ _ (by omega) (by omega) (by simp) (by simp))
        (ok _ _ _ (by omega) (by omega) (by simp) (by simp))
        (ok _ _ _ (by omega) (by omega) (by simp) (by simp))
        (ok _ _ _ (by omega) (by omega) (by simp) (by simp))
    · exact hr

theorem verticalCol_trace (J0 ph pv : Mat α) (h w : Nat)
    (hJ : h ≤ J0.rows ∧ w ≤ J0.cols) (hph : ph.rows = h ∧ ph.cols = w)
    (hpv : pv.rows = h ∧ pv.cols = w) (perm : Mat α) (lam : Int) (chs x : Nat) (hx : x < w)
    (r : Run α) (hr : ∀ a, a ∈ r.trace → Access.ok J0 ph pv h w a) :
    ∀ a, a ∈ (verticalCol perm lam h chs x r).trace → Access.ok J0 ph pv h w a := by
  have ok := Access.ok_of J0 ph pv h w hJ hph hpv
  unfold verticalCol
  apply forLoop_inv (fun s : VState α => ∀ a, a ∈ s.trace → Access.ok J0 ph pv h w a)
  · intro y hy s hs
    have hy2 := mem_downFrom.mp hy
    apply forLoop_inv (fun s : VState α => ∀ a, a ∈ s.trace → Access.ok J0 ph pv h w a) _ _
      _ s hs
    intro c _ s hs
    unfold upStep
    have h1 := upAccumulate_trace (Access.ok J0 ph pv h w) perm x y c s hs
      (ok _ _ _ (by omega) (by omega) (by simp) (by simp))
      (ok _ _ _ (by omega) (by omega) (by simp) (by simp))
      (ok _ _ _ (by omega) (by omega) (by simp) (by simp))
      (ok _ _ _ (by omega) (by omega) (by simp) (by simp))
      (ok _ _ _ (by omega) (by omega) (by simp) (by simp))
      (ok _ _ _ (by omega) (by omega) (by simp) (by simp))
    apply combineV_trace (Access.ok J0 ph pv h w) lam x y c
    · by_cases hyh : y + 2 = h
      · simp only [if_pos hyh]
        exact combineV_trace (Access.ok J0 ph pv h w) lam x (y + 1) c _ h1
          (ok _ _ _ (by push_cast; omega) (by omega) (by simp) (by simp))
          (ok _ _ _ (by push_cast; omega) (by omega) (by simp) (by simp))
          (ok _ _ _ (by push_cast; omega) (by omega) (by simp) (by simp))
          (ok _ _ _ (by push_cast; omega) (by omega) (by simp) (by simp))
          (ok _ _ _ (by push_cast; omega) (by omega) (by simp) (by simp))
      · simp only [if_neg hyh]
        exact h1
    · exact ok _ _ _ (by omega) (by omega) (by simp) (by simp)
    · exact ok _ _ _ (by omega) (by omega) (by simp) (by simp)
    · exact ok _ _ _ (by omega) (by omega) (by simp) (by simp)
    · exact ok _ _ _ (by omega) (by omega) (by simp) (by simp)
    · exact ok _ _ _ (by omega) (by omega) (by simp) (by simp)
  · apply forLoop_inv (fun s : VState α => ∀ a, a ∈ s.trace → Access.ok J0 ph pv h w a)
    · intro y hy s hs
      have hy2 := mem_upFromOne.mp hy
      apply forLoop_inv (fun s : VState α => ∀ a, a ∈ s.trace → Access.ok J0 ph pv h w a) _ _
        _ s hs
      intro c _ s hs
      exact downStep_trace (Access.ok J0 ph pv h w) perm x y c s hs
        (ok _ _ _ (by omega) (by omega) (by simp) (by simp))
        (ok _ _ _ (by omega) (by omega) (by simp) (by simp))
        (ok _ _ _ (by omega) (by omega) (by simp) (by simp))
        (ok _ _ _ (by omega) (by omega) (by simp) (by simp))
        (ok _ _ _ (by omega) (by omega) (by simp) (by simp))
        (ok _ _ _ (by omega) (by omega) (by simp) (by simp))
    · exact hr

/-- Every element access of an iteration on the `h × w` grid is in bounds. -/
theorem iteration_trace (J0 ph pv : Mat α) (h w : Nat)
    (hJ : h ≤ J0.rows ∧ w ≤ J0.cols) (hph : ph.rows = h ∧ ph.cols = w)
    (hpv : pv.rows = h ∧ pv.cols = w) (p1 p2 : Mat α) (lam : Int) (chs : Nat)
    (r : Run α) (hr : ∀ a, a ∈ r.trace → Access.ok J0 ph pv h w a) :
    ∀ a, a ∈ (iteration p1 p2 lam h w chs r).trace → Access.ok J0 ph pv h w a := by
  unfold iteration verticalPass horizontalPass
  apply forLoop_inv (fun r : Run α => ∀ a, a ∈ r.trace → Access.ok J0 ph pv h w a) _ _
    (fun x hx r hr => verticalCol_trace J0 ph pv h w hJ hph hpv p2 lam chs x
      (List.mem_range.mp hx) r hr)
  exact forLoop_inv (fun r : Run α => ∀ a, a ∈ r.trace → Access.ok J0 ph pv h w a) _ _
    (fun y hy r hr => horizontalRow_trace J0 ph pv h w hJ hph hpv p1 lam chs y
      (List.mem_range.mp hy) r hr) r hr

end AccessFacts

section AccessClaim

variable {α : Type} [LinearOrderedField α]

/-- C23: for every image and every field that has the dimensions `H × W` of the image
(`H, W ≥ 1` included), every iteration count and all parameters, every element access that
`filterXY` makes, to the field, to the horizontal or the vertical permeability map or to one
of its work rows and work columns, has its row index in `[0, H)` and its column index in
`[0, W)`, and lies inside the buffer it goes to (row `0` of a `1 × W` work row,
column `0` of an `H × 1` work column). -/
theorem C23_accesses_in_bounds [FloorRing α] (sqrtF : α → α) (powF : α → α → α)
    (I J : Mat α) (p : cpm_pf_params_t α) (hrows : J.rows = I.rows) (hcols : J.cols = I.cols) :
    ∀ a, a ∈ (filterXY_run sqrtF powF I J p).trace →
      a.inGrid I.rows I.cols ∧
        a.inBuffer J
          (computeSpatialPermeability sqrtF powF I p.delta_XY_input_float
            p.alpha_XY_input_float)
          (computeSpatialPermeability sqrtF powF I.t p.delta_XY_input_float
            p.alpha_XY_input_float).t I.rows I.cols := by
  unfold filterXY_run
  exact forLoop_inv (fun r : Run α => ∀ a, a ∈ r.trace → Access.ok J _ _ I.rows I.cols a) _ _
    (fun _ _ r hr => iteration_trace J _ _ I.rows I.cols ⟨hrows.ge, hcols.ge⟩ ⟨rfl, rfl⟩ ⟨rfl, rfl⟩
      _ _ _ _ r hr) _ (fun a ha => by simp at ha)

/-- C23 at the 1 × 2 image `img01`, filtered once as its own field: the run writes the field
at `(0, 1)`, and all its accesses are in bounds. -/
theorem C23_accesses_in_bounds_witness :
    (img01 : Mat ℚ).rows = (img01 : Mat ℚ).rows ∧ (img01 : Mat ℚ).cols = (img01 : Mat ℚ).cols ∧
      (⟨Buf.J_XY, 0, 1⟩ : Access) ∈
        (filterXY_run (fun a => a) (fun a _ => a) (img01 : Mat ℚ) img01 ⟨1, 0, 1, 2⟩).trace ∧
      ∀ a, a ∈ (filterXY_run (fun a => a) (fun a _ => a) (img01 : Mat ℚ) img01
          ⟨1, 0, 1, 2⟩).trace →
        a.inGrid 1 2 ∧
          a.inBuffer (img01 : Mat ℚ)
            (computeSpatialPermeability (fun a => a) (fun a _ => a) (img01 : Mat ℚ) 1 2)
            (computeSpatialPermeability (fun a => a) (fun a _ => a) (img01 : Mat ℚ).t 1 2).t
            1 2 :=
  ⟨rfl, rfl, by decide!,
    C23_accesses_in_bounds (fun a => a) (fun a _ => a) (img01 : Mat ℚ) img01 ⟨1, 0, 1, 2⟩
      rfl rfl⟩

end AccessClaim

/-! ## A field that is not smaller than the image -/

section DimensionFacts

variable {α : Type} [LinearOrderedField α]

/-- C11 (amended): `filterXY` checks no dimension. For every image and every field that is
at least as high and as wide as the image, also when their height or width disagree, and for
every iteration count, it does not fail: every element access lies inside the buffer it goes
to (the accesses to the field inside the field), and it returns a field that has the
dimensions and the channel count of the input field and the entries of the input field
outside the `H × W` grid of the image; with `iterations = 0` it returns the input field. -/
theorem C11_no_dimension_check [FloorRing α] (sqrtF : α → α) (powF : α → α → α)
    (I J : Mat α) (p : cpm_pf_params_t α) (hrows : I.rows ≤ J.rows) (hcols : I.cols ≤ J.cols) :
    J.sameOutside I.rows I.cols J.channels (filterXY sqrtF powF I J p) ∧
      (∀ a, a ∈ (filterXY_run sqrtF powF I J p).trace →
        a.inBuffer J
          (computeSpatialPermeability sqrtF powF I p.delta_XY_input_float
            p.alpha_XY_input_float)
          (computeSpatialPermeability sqrtF powF I.t p.delta_XY_input_float
            p.alpha_XY_input_float).t I.rows I.cols) ∧
      filterXY sqrtF powF I J ⟨0, p.lambda_XY_input_float, p.delta_XY_input_float,
        p.alpha_XY_input_float⟩ = J := by
  refine ⟨?_, ?_, ?_⟩
  · unfold filterXY filterXY_run
    exact forLoop_inv (fun r : Run α => J.sameOutside I.rows I.cols J.channels r.J_XY) _ _
      (fun _ _ r hr => iteration_sameOutside J _ _ _ _ _ _ r hr) _
      ⟨rfl, rfl, rfl, fun _ _ _ _ => rfl⟩
  · intro a ha
    have hall : ∀ a, a ∈ (filterXY_run sqrtF powF I J p).trace →
        Access.ok J
          (computeSpatialPermeability sqrtF powF I p.delta_XY_input_float
            p.alpha_XY_input_float)
          (computeSpatialPermeability sqrtF powF I.t p.delta_XY_input_float
            p.alpha_XY_input_float).t I.rows I.cols a := by
      unfold filterXY_run
      exact forLoop_inv (fun r : Run α => ∀ a, a ∈ r.trace → Access.ok J _ _ I.rows I.cols a)
        _ _ (fun _ _ r hr => iteration_trace J _ _ I.rows I.cols ⟨hrows, hcols⟩ ⟨rfl, rfl⟩
          ⟨rfl, rfl⟩ _ _ _ _ r hr) _ (fun a ha => by simp at ha)
    exact (hall a ha).2
  · simp [filterXY, filterXY_run]

/-- C11 (amended) at the 1 × 2 image `0 1` and the 1 × 3 field `0 5 7`, one iteration: the
widths disagree, the run writes the field at `(0, 1)`, every access lies inside its buffer
and the entry `(0, 2)` of the field, outside the grid of the image, is kept. -/
theorem C11_no_dimension_check_witness :
    (img01 : Mat ℚ).rows ≤ row057.rows ∧ (img01 : Mat ℚ).cols ≤ row057.cols ∧
      (img01 : Mat ℚ).cols ≠ row057.cols ∧
      (⟨Buf.J_XY, 0, 1⟩ : Access) ∈
        (filterXY_run (fun a => a) (fun a _ => a) (img01 : Mat ℚ) row057 ⟨1, 0, 1, 2⟩).trace ∧
      (row057.sameOutside 1 2 1
          (filterXY (fun a => a) (fun a _ => a) (img01 : Mat ℚ) row057 ⟨1, 0, 1, 2⟩) ∧
        (∀ a, a ∈ (filterXY_run (fun a => a) (fun a _ => a) (img01 : Mat ℚ) row057
            ⟨1, 0, 1, 2⟩).trace →
          a.inBuffer row057
            (computeSpatialPermeability (fun a => a) (fun a _ => a) (img01 : Mat ℚ) 1 2)
            (computeSpatialPermeability (fun a => a) (fun a _ => a) (img01 : Mat ℚ).t 1 2).t
            1 2) ∧
        filterXY (fun a => a) (fun a _ => a) (img01 : Mat ℚ) row057 ⟨0, 0, 1, 2⟩ = row057) :=
  ⟨by decide, by decide, by decide, by decide!,
    C11_no_dimension_check (fun a => a) (fun a _ => a) (img01 : Mat ℚ) row057 ⟨1, 0, 1, 2⟩
      (by decide) (by decide)⟩

end DimensionFacts



/-! ## Range of the confidence -/

section ConfidenceRange

/-- A property of the state that depends on the number of rounds done: if it holds of `0`
before the loop and every round takes it from `i` to `i + 1`, it holds of `n` after the
loop. -/
theorem forLoop_range_pos {σ : Type} (P : Nat → σ → Prop) (n : Nat) (body : Nat → σ → σ)
    (hstep : ∀ i, i < n → ∀ s, P i s → P (i + 1) (body i s)) (s : σ) (h0 : P 0 s) :
    P n (forLoop (List.range n) body s) := by
  induction n with
  | zero => simpa using h0
  | succ n ih =>
    rw [List.range_succ, forLoop_append]
    exact hstep n (Nat.lt_succ_self n) _
      (ih (fun i hi s hs => hstep i (Nat.lt_succ_of_lt hi) s hs))

variable {α : Type} [LinearOrderedField α]

variable [FloorRing α]

end ConfidenceRange


/-! ## The temporal filter on a still scene -/

section RunningMean

end RunningMean


/-! ## The last column of the horizontal pass -/

section LastColumnFacts

theorem forLoop_map {ι κ σ : Type} (g : ι → κ) (l : List ι) (body : κ → σ → σ) (s : σ) :
    forLoop (l.map g) body s = forLoop l (fun i s => body (g i) s) s := by
  simp [forLoop, List.foldl_map]

variable {α : Type} [LinearOrderedField α]

/-- After the left pass over row `y` the work rows `lp` and `lp_normal` hold the forward
recurrences of the specification over the row as it stood, and the field and the work rows
of the right pass are untouched. -/
theorem leftPass_closed_form (perm : Mat α) (w chs y : Nat) (s0 : HState α)
    (hlp : ∀ x c, s0.lp.get 0 x c = 0) (hlpN : ∀ x c, s0.lp_normal.get 0 x c = 0) :
    let s := forLoop (upFromOne w)
      (fun x s => forLoop (List.range chs) (fun c s => leftStep perm y x c s) s) s0
    s.J_XY = s0.J_XY ∧ s.rp = s0.rp ∧ s.rp_normal = s0.rp_normal ∧
      ∀ x c, x + 1 ≤ w → c < chs →
        s.lp.get 0 x c =
          spec_lp (fun x => perm.get y x 0) (fun x => s0.J_XY.get y x c) x ∧
        s.lp_normal.get 0 x c = spec_lpN (fun x => perm.get y x 0) x := by
  intro s
  have key := forLoop_range_pos
    (fun i (s : HState α) => s.J_XY = s0.J_XY ∧ s.rp = s0.rp ∧ s.rp_normal = s0.rp_normal ∧
      ∀ x c, x ≤ i → c < chs →
        s.lp.get 0 x c =
          spec_lp (fun x => perm.get y x 0) (fun x => s0.J_XY.get y x c) x ∧
        s.lp_normal.get 0 x c = spec_lpN (fun x => perm.get y x 0) x)
    (w - 1)
    (fun i s => forLoop (List.range chs) (fun c s => leftStep perm y (i + 1) c s) s)
    ?_ s0 ⟨rfl, rfl, rfl, fun x c hx _ => by
      have hx0 : x = 0 := by omega
      subst hx0
      exact ⟨hlp 0 c, hlpN 0 c⟩⟩
  · have hs : s = forLoop (List.range (w - 1))
        (fun i s => forLoop (List.range chs) (fun c s => leftStep perm y (i + 1) c s) s) s0 := by
      show forLoop (upFromOne w) _ s0 = _
      unfold upFromOne
      rw [forLoop_map]
    rw [hs]
    exact ⟨key.1, key.2.1, key.2.2.1, fun x c hx hc => key.2.2.2 x c (by omega) hc⟩
  · intro i _ s hs
    have inner := forLoop_range_pos
      (fun k (s : HState α) => s.J_XY = s0.J_XY ∧ s.rp = s0.rp ∧
        s.rp_normal = s0.rp_normal ∧
        (∀ x c, x ≤ i → c < chs →
          s.lp.get 0 x c =
            spec_lp (fun x => perm.get y x 0) (fun x => s0.J_XY.get y x c) x ∧
          s.lp_normal.get 0 x c = spec_lpN (fun x => perm.get y x 0) x) ∧
        ∀ c, c < k →
          s.lp.get 0 (i + 1) c =
            spec_lp (fun x => perm.get y x 0) (fun x => s0.J_XY.get y x c) (i + 1) ∧
          s.lp_normal.get 0 (i + 1) c = spec_lpN (fun x => perm.get y x 0) (i + 1))
      chs (fun c s => leftStep perm y (i + 1) c s) ?_ s
      ⟨hs.1, hs.2.1, hs.2.2.1, hs.2.2.2, fun c hc => absurd hc (Nat.not_lt_zero c)⟩
    · refine ⟨inner.1, inner.2.1, inner.2.2.1, fun x c hx hc => ?_⟩
      by_cases hxi : x ≤ i
      · exact inner.2.2.2.1 x c hxi hc
      · have hx1 : x = i + 1 := by omega
        subst hx1
        exact inner.2.2.2.2 c hc
    · intro k hk s hs
      obtain ⟨h1, h2, h3, h4, h5⟩ := hs
      have hlpk := h4 i k (le_refl i) hk
      refine ⟨h1, h2, h3, fun x c hx hc => ?_, fun c hc => ?_⟩
      · have hne : ¬ (x = i + 1 ∧ c = k) := by omega
        have := h4 x c hx hc
        simpa [leftStep, Mat.get_set, hne] using this
      · by_cases hck : c = k
        · subst hck
          simp [leftStep, Mat.get_set, spec_lp, spec_lpN, hlpk.1, hlpk.2, h1]
        · have := h5 c (by omega)
          simpa [leftStep, Mat.get_set, hck] using this

/-- A round of the right pass at a column `x` before `w-2` keeps the last column `w-1` of the
field. -/
theorem rightStep_keeps_last (perm : Mat α) (lam : Int) (X y x c c1 : Nat) (hx : x < X)
    (s : HState α) :
    (rightStep perm lam (X + 2) y x c s).J_XY.get y (X + 1) c1 = s.J_XY.get y (X + 1) c1 := by
  have h1 : ¬ (x + 2 = X + 2) := by omega
  have h2 : ¬ (X + 1 = x ∧ c1 = c) := by omega
  simp [rightStep, rightAccumulate, combineH, Mat.get_set, h1, h2]

/-- The value that the horizontal pass over row `y` writes at the last column of a row of
width `X + 2`: `(lp + (1 - lambda_XY) * f + 0) / (lpN + 1 + 0)` with the integer `lambda_XY`
of the code and the forward recurrences over the row as it stood. -/
theorem horizontalRow_last_column_aux (perm : Mat α) (lam : Int) (X chs y : Nat) (r : Run α)
    (c : Nat) (hc : c < chs) :
    (horizontalRow perm lam (X + 2) chs y r).J_XY.get y (X + 1) c =
      (spec_lp (fun x => perm.get y x 0) (fun x => r.J_XY.get y x c) (X + 1)
          + ((1 - lam : Int) : α) * r.J_XY.get y (X + 1) c)
        / (spec_lpN (fun x => perm.get y x 0) (X + 1) + 1) := by
  unfold horizontalRow
  obtain ⟨hJ, hrp, hrpN, hcl⟩ := leftPass_closed_form perm (X + 2) chs y
    (⟨r, Mat.zeros 1 (X + 2) chs, Mat.zeros 1 (X + 2) chs, Mat.zeros 1 (X + 2) chs,
      Mat.zeros 1 (X + 2) chs⟩ : HState α) (fun _ _ => rfl) (fun _ _ => rfl)
  have hd : downFrom (X + 2) = X :: (List.range X).reverse := by
    simp [downFrom, List.range_succ]
  dsimp only at hJ hrp hrpN hcl ⊢
  rw [hd, forLoop_cons]
  generalize forLoop (upFromOne (X + 2))
    (fun x s => forLoop (List.range chs) (fun c s => leftStep perm y x c s) s)
    (⟨r, Mat.zeros 1 (X + 2) chs, Mat.zeros 1 (X + 2) chs, Mat.zeros 1 (X + 2) chs,
      Mat.zeros 1 (X + 2) chs⟩ : HState α) = L at hJ hrp hrpN hcl ⊢
  have first := forLoop_range_pos
    (fun k (s : HState α) => s.lp = L.lp ∧ s.lp_normal = L.lp_normal ∧
      (∀ c, s.rp.get 0 (X + 1) c = 0) ∧ (∀ c, s.rp_normal.get 0 (X + 1) c = 0) ∧
      (∀ c, c < k → s.J_XY.get y (X + 1) c =
        (spec_lp (fun x => perm.get y x 0) (fun x => r.J_XY.get y x c) (X + 1)
            + ((1 - lam : Int) : α) * r.J_XY.get y (X + 1) c)
          / (spec_lpN (fun x => perm.get y x 0) (X + 1) + 1)) ∧
      ∀ c, k ≤ c → s.J_XY.get y (X + 1) c = r.J_XY.get y (X + 1) c)
    chs (fun c s => rightStep perm lam (X + 2) y X c s) ?_ L
    ⟨rfl, rfl, fun c => by rw [hrp]; rfl, fun c => by rw [hrpN]; rfl,
      fun c hc => absurd hc (Nat.not_lt_zero c), fun c _ => by rw [hJ]⟩
  · have hlast := first.2.2.2.2.1 c hc
    rw [← hlast]
    refine forLoop_inv (fun s : HState α => s.J_XY.get y (X + 1) c = _) _ _ ?_ _ rfl
    intro x hx s hs
    have hx1 : x < X := by simpa using hx
    refine forLoop_inv (fun s : HState α => s.J_XY.get y (X + 1) c = _) _ _ ?_ s hs
    intro c1 _ s hs
    rw [rightStep_keeps_last perm lam X y x c1 c hx1 s]
    exact hs
  · intro k hk s hs
    obtain ⟨h1, h2, h3, h4, h5, h6⟩ := hs
    have hcl1 := hcl (X + 1) k (by omega) hk
    have hne : ¬ (X + 1 = X) := by omega
    refine ⟨?_, ?_, fun c => ?_, fun c => ?_, fun c hck => ?_, fun c hck => ?_⟩
    · simpa [rightStep, rightAccumulate, combineH] using h1
    · simpa [rightStep, rightAccumulate, combineH] using h2
    · simpa [rightStep, rightAccumulate, combineH, Mat.get_set] using h3 c
    · simpa [rightStep, rightAccumulate, combineH, Mat.get_set] using h4 c
    · by_cases hk1 : c = k
      · subst hk1
        have hJk := h6 c (le_refl c)
        simp [rightStep, rightAccumulate, combineH, Mat.get_set, h1, h2, hcl1.1, hcl1.2,
          h3 c, h4 c, hJk]
      · simpa [rightStep, rightAccumulate, combineH, Mat.get_set, hk1] using h5 c (by omega)
    · have hk1 : ¬ (c = k) := by omega
      simpa [rightStep, rightAccumulate, combineH, Mat.get_set, hk1] using h6 c (by omega)

/-- The last column of a row of width `w ≥ 2` after the horizontal pass. -/
theorem horizontalRow_last_column (perm : Mat α) (lam : Int) (w chs y : Nat) (hw : 2 ≤ w)
    (r : Run α) (c : Nat) (hc : c < chs) :
    (horizontalRow perm lam w chs y r).J_XY.get y (w - 1) c =
      (spec_lp (fun x => perm.get y x 0) (fun x => r.J_XY.get y x c) (w - 1)
          + ((1 - lam : Int) : α) * r.J_XY.get y (w - 1) c)
        / (spec_lpN (fun x => perm.get y x 0) (w - 1) + 1) := by
  obtain ⟨X, rfl⟩ : ∃ X, w = X + 2 := ⟨w - 2, by omega⟩
  exact horizontalRow_last_column_aux perm lam X chs y r c hc

/-- The horizontal pass as `filterXY` runs it, with `lambda_XY` the supplied `lambdaXY`
converted to `int`: the last column gets the value of the specification for the truncated
`lambdaXY`. -/
theorem horizontalRow_last_column_truncated [FloorRing α] (perm : Mat α) (lambdaXY : α)
    (w chs y : Nat) (hw : 2 ≤ w) (r : Run α) (c : Nat) (hc : c < chs) :
    (horizontalRow perm (truncToInt lambdaXY) w chs y r).J_XY.get y (w - 1) c =
      spec_lastColumn (fun x => perm.get y x 0) (fun x => r.J_XY.get y x c)
        ((truncToInt lambdaXY : Int) : α) w := by
  rw [horizontalRow_last_column perm _ w chs y hw r c hc]
  unfold spec_lastColumn
  push_cast
  rfl

end LastColumnFacts


/-! ## The weight of the pixel's own value -/

section LambdaFacts

theorem truncToInt_half : truncToInt (1 / 2 : ℝ) = 0 := by
  unfold truncToInt
  rw [if_pos (by norm_num)]
  exact Int.floor_eq_iff.mpr ⟨by norm_num, by norm_num⟩

/-- C21 (failing input): the 1 × 2 image `1 1` (permeability 1 between its two pixels), the
field `0 1`, one iteration, `lambdaXY = 1/2`, `deltaXY = 1`, `alphaXY = 2`. `filterXY` stores
`lambdaXY` in an `int`, which makes it `0`, and writes `(0 + (1 - 0) * 1) / (1 + 1) = 1/2` at
the last column; the formula of the specification with the supplied `lambdaXY` gives
`(0 + (1 - 1/2) * 1) / (1 + 1) = 1/4`. -/
theorem C21_lambda_truncated :
    truncToInt (1 / 2 : ℝ) = 0 ∧
      (filterXY Real.sqrt Real.rpow (img11 : Mat ℝ) img01 ⟨1, 1 / 2, 1, 2⟩).get 0 1 0 = 1 / 2 ∧
      spec_lastColumn
        (fun x => (computeSpatialPermeability Real.sqrt Real.rpow (img11 : Mat ℝ) 1 2).get 0 x 0)
        (fun x => (img01 : Mat ℝ).get 0 x 0) (1 / 2) 2 = 1 / 4 := by
  refine ⟨truncToInt_half, ?_, ?_⟩
  · simp [filterXY, filterXY_run, truncToInt_half, iteration, horizontalPass, verticalPass,
      img11, img01, verticalCol_height_one, horizontalRow, upFromOne, downFrom, List.range_succ,
      leftStep, rightStep, rightAccumulate, combineH, computeSpatialPermeability,
      warpAffine_shift, Mat.get, Mat.set, Mat.zeros]
    norm_num
    rw [truncToInt_half]
    norm_num
  · simp [spec_lastColumn, spec_lp, spec_lpN, computeSpatialPermeability, warpAffine_shift,
      Mat.get, img11, img01, List.range_succ]
    norm_num

end LambdaFacts


/-! ## The permeability in the range of `float` -/

section Float32Facts

variable {α : Type} [LinearOrderedField α]

/-- A `float` value that is `+inf` or holds the exact value `v`. -/
theorem F32.ofExact_cases (v : α) : F32.ofExact v = F32.inf ∨ F32.ofExact v = F32.finite v := by
  unfold F32.ofExact
  split_ifs
  · exact Or.inl rfl
  · exact Or.inr rfl

/-- The sum of the squares over the channels is `+inf` or the exact sum. -/
theorem F32.sum_sq_cases (d : Nat → α) (n : Nat) :
    forLoop (List.range n) (fun c acc => F32.add acc (F32.sq (d c))) (F32.finite 0) = F32.inf ∨
    forLoop (List.range n) (fun c acc => F32.add acc (F32.sq (d c))) (F32.finite 0) =
      F32.finite (forLoop (List.range n) (fun c acc => acc + (d c) ^ 2) 0) := by
  induction n with
  | zero => exact Or.inr rfl
  | succ n ih =>
    rw [List.range_succ, forLoop_append, forLoop_append]
    simp only [forLoop_cons, forLoop_nil]
    rcases ih with h | h
    · rw [h]
      exact Or.inl rfl
    · rw [h]
      rcases F32.ofExact_cases ((d n) ^ 2) with h2 | h2
      · left
        simp only [F32.sq, h2, F32.add]
      · simp only [F32.sq, h2, F32.add]
        exact F32.ofExact_cases _

/-- The chain of operations of lines 151-162 in the range of `float`, for `alpha > 0`: the
result is `0`, after an overflow, or the exact value. -/
theorem F32.permeability_cases (sqrtF : α → α) (powF : α → α → α) (d : Nat → α) (n : Nat)
    (s alpha : α) (ha : 0 < alpha) :
    F32.recip (F32.onePlus (F32.pow powF alpha (F32.absDiv s (F32.sqrt sqrtF
      (forLoop (List.range n) (fun c acc => F32.add acc (F32.sq (d c))) (F32.finite 0)))))) = 0 ∨
    F32.recip (F32.onePlus (F32.pow powF alpha (F32.absDiv s (F32.sqrt sqrtF
      (forLoop (List.range n) (fun c acc => F32.add acc (F32.sq (d c))) (F32.finite 0)))))) =
      (1 + powF |sqrtF (forLoop (List.range n) (fun c acc => acc + (d c) ^ 2) 0) / s| alpha)⁻¹ := by
  rcases F32.sum_sq_cases d n with h | h
  · left
    simp [h, F32.sqrt, F32.absDiv, F32.pow, ha, F32.onePlus, F32.recip]
  · rw [h]
    simp only [F32.sqrt]
    rcases F32.ofExact_cases (sqrtF (forLoop (List.range n) (fun c acc => acc + (d c) ^ 2) 0))
      with h1 | h1
    · left
      simp [h1, F32.absDiv, F32.pow, ha, F32.onePlus, F32.recip]
    · rw [h1]
      simp only [F32.absDiv]
      rcases F32.ofExact_cases
        |sqrtF (forLoop (List.range n) (fun c acc => acc + (d c) ^ 2) 0) / s| with h2 | h2
      · left
        simp [h2, F32.pow, ha, F32.onePlus, F32.recip]
      · rw [h2]
        simp only [F32.pow]
        rcases F32.ofExact_cases
          (powF |sqrtF (forLoop (List.range n) (fun c acc => acc + (d c) ^ 2) 0) / s| alpha)
          with h3 | h3
        · left
          simp [h3, F32.onePlus, F32.recip]
        · rw [h3]
          simp only [F32.onePlus]
          rcases F32.ofExact_cases
            (1 + powF |sqrtF (forLoop (List.range n) (fun c acc => acc + (d c) ^ 2) 0) / s|
              alpha) with h4 | h4
          · left
            simp [h4, F32.recip]
          · right
            simp [h4, F32.recip]

/-- An entry of the permeability map in the range of `float` is `0`, after an overflow, or
the entry of the exact map. -/
theorem computeSpatialPermeability_float32_get (sqrtF : α → α) (powF : α → α → α) (I : Mat α)
    (delta_XY alpha_XY : α) (ha : 0 < alpha_XY) (y x c : Nat) :
    (computeSpatialPermeability_float32 sqrtF powF I delta_XY alpha_XY).get y x c = 0 ∨
    (computeSpatialPermeability_float32 sqrtF powF I delta_XY alpha_XY).get y x c =
      (computeSpatialPermeability sqrtF powF I delta_XY alpha_XY).get y x c :=
  F32.permeability_cases sqrtF powF
    (fun c => I.get y x c - (warpAffine_shift I).get y x c) I.channels
    (sqrtF 3 * delta_XY) alpha_XY ha

/-- In the range of `float` every entry lies in `[0, 1]`. -/
theorem computeSpatialPermeability_float32_range (I : Mat ℝ) (delta_XY alpha_XY : ℝ)
    (ha : 0 < alpha_XY) (y x c : Nat) :
    0 ≤ (computeSpatialPermeability_float32 Real.sqrt Real.rpow I delta_XY alpha_XY).get y x c ∧
      (computeSpatialPermeability_float32 Real.sqrt Real.rpow I delta_XY alpha_XY).get y x c
        ≤ 1 := by
  have hex := computeSpatialPermeability_range Real.sqrt Real.rpow
    (fun _ e hb => Real.rpow_nonneg hb e) I delta_XY alpha_XY y x c
  rcases computeSpatialPermeability_float32_get Real.sqrt Real.rpow I delta_XY alpha_XY ha y x c
    with h | h
  · rw [h]
    exact ⟨le_refl _, zero_le_one⟩
  · rw [h]
    exact ⟨hex.1.le, hex.2⟩

/-- C5 (counterexample): the 1 × 2 single-channel image with the pixels `0` and `10^20`,
`deltaXY = 1`, `alphaXY = 2`. At both pixels the square of the difference, `10^40`, is out
of the range of `float` (at the last pixel the difference is taken with the border value
`0`), so the sum of squares is `+inf` and the permeability is `pow(1 + inf, -1) = 0`: not
greater than 0. -/
theorem C5_counterexample :
    (computeSpatialPermeability_float32 Real.sqrt Real.rpow (imgHuge : Mat ℝ) 1 2).get 0 0 0
        = 0 ∧
      (computeSpatialPermeability_float32 Real.sqrt Real.rpow (imgHuge : Mat ℝ) 1 2).get 0 1 0
        = 0 ∧
      ¬ (0 < (computeSpatialPermeability_float32 Real.sqrt Real.rpow
        (imgHuge : Mat ℝ) 1 2).get 0 0 0) := by
  have hov1 : F32.sq (-(10 : ℝ) ^ 20) = F32.inf := by
    unfold F32.sq F32.ofExact FLT_OVERFLOW
    rw [if_pos (by norm_num)]
  have hov2 : F32.sq ((10 : ℝ) ^ 20) = F32.inf := by
    unfold F32.sq F32.ofExact FLT_OVERFLOW
    rw [if_pos (by norm_num)]
  have h0 : (computeSpatialPermeability_float32 Real.sqrt Real.rpow (imgHuge : Mat ℝ) 1 2).get
      0 0 0 = 0 := by
    simp [computeSpatialPermeability_float32, imgHuge, warpAffine_shift, Mat.get,
      List.range_succ, hov1, F32.add, F32.sqrt, F32.absDiv, F32.pow, F32.onePlus, F32.recip]
  have h1 : (computeSpatialPermeability_float32 Real.sqrt Real.rpow (imgHuge : Mat ℝ) 1 2).get
      0 1 0 = 0 := by
    simp [computeSpatialPermeability_float32, imgHuge, warpAffine_shift, Mat.get,
      List.range_succ, hov2, F32.add, F32.sqrt, F32.absDiv, F32.pow, F32.onePlus, F32.recip]
  exact ⟨h0, h1, by rw [h0]; exact lt_irrefl 0⟩

/-- C5 (amended): for every image and every `deltaXY > 0`, `alphaXY > 0`, every entry of the
horizontal permeability map and of the vertical map (obtained through the two transposes),
computed in the range of `float`, is at least 0 and at most 1. -/
theorem C5_permeability_in_unit_interval (I : Mat ℝ) (delta_XY alpha_XY : ℝ)
    (_hd : 0 < delta_XY) (ha : 0 < alpha_XY) (y x : Nat) (_hy : y < I.rows) (_hx : x < I.cols) :
    (0 ≤ (computeSpatialPermeability_float32 Real.sqrt Real.rpow I delta_XY alpha_XY).get y x 0 ∧
      (computeSpatialPermeability_float32 Real.sqrt Real.rpow I delta_XY alpha_XY).get y x 0
        ≤ 1) ∧
    (0 ≤ (computeSpatialPermeability_float32 Real.sqrt Real.rpow I.t delta_XY alpha_XY).t.get
        y x 0 ∧
      (computeSpatialPermeability_float32 Real.sqrt Real.rpow I.t delta_XY alpha_XY).t.get
        y x 0 ≤ 1) :=
  ⟨computeSpatialPermeability_float32_range I delta_XY alpha_XY ha y x 0,
    computeSpatialPermeability_float32_range I.t delta_XY alpha_XY ha x y 0⟩

/-- C5 (amended) at the image `0 10^20`, pixel `(0, 0)`, `deltaXY = 1`, `alphaXY = 2`, where
the entry is 0. -/
theorem C5_permeability_in_unit_interval_witness :
    (0 : ℝ) < 1 ∧ (0 : ℝ) < 2 ∧ 0 < (imgHuge : Mat ℝ).rows ∧ 0 < (imgHuge : Mat ℝ).cols ∧
    ((0 ≤ (computeSpatialPermeability_float32 Real.sqrt Real.rpow (imgHuge : Mat ℝ) 1 2).get
        0 0 0 ∧
      (computeSpatialPermeability_float32 Real.sqrt Real.rpow (imgHuge : Mat ℝ) 1 2).get 0 0 0
        ≤ 1) ∧
    (0 ≤ (computeSpatialPermeability_float32 Real.sqrt Real.rpow (imgHuge : Mat ℝ).t 1 2).t.get
        0 0 0 ∧
      (computeSpatialPermeability_float32 Real.sqrt Real.rpow (imgHuge : Mat ℝ).t 1 2).t.get
        0 0 0 ≤ 1)) :=
  ⟨by norm_num, by norm_num, by decide, by decide,
    C5_permeability_in_unit_interval imgHuge 1 2 (by norm_num) (by norm_num) 0 0
      (by decide) (by decide)⟩

end Float32Facts

section Float32TemporalFacts

/-- In the range of `float` every entry of the photometric permeability lies in `[0, 1]`. -/
theorem photometricPermeability_float32_range (I remapped : Mat ℝ)
    (delta_photo alpha_photo : ℝ) (ha : 0 < alpha_photo) (y x c : Nat) :
    0 ≤ (photometricPermeability_float32 Real.sqrt Real.rpow I remapped delta_photo
        alpha_photo).get y x c ∧
      (photometricPermeability_float32 Real.sqrt Real.rpow I remapped delta_photo
        alpha_photo).get y x c ≤ 1 := by
  have hex := photometricPermeability_range remapped I delta_photo alpha_photo y x c
  have hc : (photometricPermeability_float32 Real.sqrt Real.rpow I remapped delta_photo
        alpha_photo).get y x c = 0 ∨
      (photometricPermeability_float32 Real.sqrt Real.rpow I remapped delta_photo
        alpha_photo).get y x c =
      (photometricPermeability Real.sqrt Real.rpow I remapped delta_photo alpha_photo).get
        y x c :=
    F32.permeability_cases Real.sqrt Real.rpow (fun c => (I.sub remapped).get y x c)
      I.channels (Real.sqrt 3 * delta_photo) alpha_photo ha
  rcases hc with h | h
  · rw [h]
    exact ⟨le_refl _, zero_le_one⟩
  · rw [h]
    exact ⟨hex.1.le, hex.2⟩

/-- In the range of `float` every entry of the gradient permeability lies in `[0, 1]`. -/
theorem gradientPermeability_float32_range (flow warped : Mat ℝ) (h w : Nat)
    (delta_grad alpha_grad : ℝ) (ha : 0 < alpha_grad) (y x c : Nat) :
    0 ≤ (gradientPermeability_float32 Real.sqrt Real.rpow flow warped h w delta_grad
        alpha_grad).get y x c ∧
      (gradientPermeability_float32 Real.sqrt Real.rpow flow warped h w delta_grad
        alpha_grad).get y x c ≤ 1 := by
  have hex := gradientPermeability_range flow warped h w delta_grad alpha_grad y x c
  have hc : (gradientPermeability_float32 Real.sqrt Real.rpow flow warped h w delta_grad
        alpha_grad).get y x c = 0 ∨
      (gradientPermeability_float32 Real.sqrt Real.rpow flow warped h w delta_grad
        alpha_grad).get y x c =
      (gradientPermeability Real.sqrt Real.rpow flow warped h w delta_grad alpha_grad).get
        y x c :=
    F32.permeability_cases Real.sqrt Real.rpow (fun c => (flow.sub warped).get y x c)
      flow.channels (Real.sqrt 2 * delta_grad) alpha_grad ha
  rcases hc with h | h
  · rw [h]
    exact ⟨le_refl _, zero_le_one⟩
  · rw [h]
    exact ⟨hex.1.le, hex.2⟩

/-- The temporal permeability in the range of `float` is the elementwise product of the
photometric and the gradient permeability, computed from the fields warped along the
backward map. -/
theorem computeTemporalPermeability_float32_get {α : Type} [LinearOrderedField α]
    (sqrtF : α → α) (powF : α → α → α) (remap : Mat α → Mat α → Mat α → Mat α)
    (I I_prev flow_XY flow_prev_XYT : Mat α)
    (delta_photo delta_grad alpha_photo alpha_grad : α) (y x c : Nat) :
    (computeTemporalPermeability_float32 sqrtF powF remap I I_prev flow_XY flow_prev_XYT
      delta_photo delta_grad alpha_photo alpha_grad).get y x c =
    (photometricPermeability_float32 sqrtF powF I
      (remap I_prev (spec_mapX flow_prev_XYT I.rows I.cols)
        (spec_mapY flow_prev_XYT I.rows I.cols)) delta_photo alpha_photo).get y x c *
    (gradientPermeability_float32 sqrtF powF flow_XY
      (remap flow_prev_XYT (spec_mapX flow_prev_XYT I.rows I.cols)
        (spec_mapY flow_prev_XYT I.rows I.cols)) I.rows I.cols delta_grad alpha_grad).get
      y x c := by
  unfold computeTemporalPermeability_float32
  simp only [(backwardMap_channels flow_prev_XYT I.rows I.cols).1,
    (backwardMap_channels flow_prev_XYT I.rows I.cols).2]
  rfl

/-- C13 (counterexample): the image `0 10^20` with the previous image `0 0`, zero flows on
the 1 × 2 grid, nearest-pixel resampling and the parameters of `filterT`
(`deltaPhoto = 3/10`, `deltaGrad = 1`, `alphaPhoto = alphaGrad = 2`). At pixel `(0, 1)` the
square of the difference of the images, `10^40`, is out of the range of `float`: the
photometric permeability is `pow(1 + inf, -1) = 0` and so is the temporal permeability,
neither of them in `(0, 1]`. -/
theorem C13_counterexample :
    (photometricPermeability_float32 Real.sqrt Real.rpow (imgHuge : Mat ℝ)
      (remapNearest (img00 : Mat ℝ)
        (spec_mapX (flowZero : Mat ℝ) (imgHuge : Mat ℝ).rows (imgHuge : Mat ℝ).cols)
        (spec_mapY (flowZero : Mat ℝ) (imgHuge : Mat ℝ).rows (imgHuge : Mat ℝ).cols))
      (3 / 10) 2).get 0 1 0 = 0 ∧
    (computeTemporalPermeability_float32 Real.sqrt Real.rpow remapNearest (imgHuge : Mat ℝ)
      img00 flowZero flowZero (3 / 10) 1 2 2).get 0 1 0 = 0 ∧
    ¬ (0 < (computeTemporalPermeability_float32 Real.sqrt Real.rpow remapNearest
      (imgHuge : Mat ℝ) img00 flowZero flowZero (3 / 10) 1 2 2).get 0 1 0) := by
  have hphoto : (photometricPermeability_float32 Real.sqrt Real.rpow (imgHuge : Mat ℝ)
      (remapNearest (img00 : Mat ℝ)
        (spec_mapX (flowZero : Mat ℝ) (imgHuge : Mat ℝ).rows (imgHuge : Mat ℝ).cols)
        (spec_mapY (flowZero : Mat ℝ) (imgHuge : Mat ℝ).rows (imgHuge : Mat ℝ).cols))
      (3 / 10) 2).get 0 1 0 = 0 := by
    have hov : F32.sq ((10 : ℝ) ^ 20) = F32.inf := by
      unfold F32.sq F32.ofExact FLT_OVERFLOW
      rw [if_pos (by norm_num)]
    simp [photometricPermeability_float32, imgHuge, img00, remapNearest, Mat.sub, Mat.get,
      List.range_succ, hov, F32.add, F32.sqrt, F32.absDiv, F32.pow, F32.onePlus, F32.recip]
  have htemp : (computeTemporalPermeability_float32 Real.sqrt Real.rpow remapNearest
      (imgHuge : Mat ℝ) img00 flowZero flowZero (3 / 10) 1 2 2).get 0 1 0 = 0 := by
    rw [computeTemporalPermeability_float32_get, hphoto, zero_mul]
  exact ⟨hphoto, htemp, by rw [htemp]; exact lt_irrefl 0⟩

/-- C13 (amended): for every pair of images, every pair of flows, every resampling primitive
and every `deltaPhoto`, `deltaGrad`, `alphaPhoto`, `alphaGrad > 0`, every entry of the map
returned by `computeTemporalPermeability`, computed in the range of `float`, equals the
product of the photometric and the gradient permeability at that pixel, each of which lies
in `[0, 1]`, and so does the result. -/
theorem C13_temporal_permeability_in_unit_interval (remap : Mat ℝ → Mat ℝ → Mat ℝ → Mat ℝ)
    (I I_prev flow_XY flow_prev_XYT : Mat ℝ)
    (delta_photo delta_grad alpha_photo alpha_grad : ℝ)
    (_hdp : 0 < delta_photo) (_hdg : 0 < delta_grad) (hap : 0 < alpha_photo)
    (hag : 0 < alpha_grad) (y x : Nat) (_hy : y < I.rows) (_hx : x < I.cols) :
    (computeTemporalPermeability_float32 Real.sqrt Real.rpow remap I I_prev flow_XY
      flow_prev_XYT delta_photo delta_grad alpha_photo alpha_grad).get y x 0 =
      (photometricPermeability_float32 Real.sqrt Real.rpow I
        (remap I_prev (spec_mapX flow_prev_XYT I.rows I.cols)
          (spec_mapY flow_prev_XYT I.rows I.cols)) delta_photo alpha_photo).get y x 0 *
      (gradientPermeability_float32 Real.sqrt Real.rpow flow_XY
        (remap flow_prev_XYT (spec_mapX flow_prev_XYT I.rows I.cols)
          (spec_mapY flow_prev_XYT I.rows I.cols)) I.rows I.cols delta_grad alpha_grad).get
        y x 0 ∧
    (0 ≤ (photometricPermeability_float32 Real.sqrt Real.rpow I
        (remap I_prev (spec_mapX flow_prev_XYT I.rows I.cols)
          (spec_mapY flow_prev_XYT I.rows I.cols)) delta_photo alpha_photo).get y x 0 ∧
      (photometricPermeability_float32 Real.sqrt Real.rpow I
        (remap I_prev (spec_mapX flow_prev_XYT I.rows I.cols)
          (spec_mapY flow_prev_XYT I.rows I.cols)) delta_photo alpha_photo).get y x 0 ≤ 1) ∧
    (0 ≤ (gradientPermeability_float32 Real.sqrt Real.rpow flow_XY
        (remap flow_prev_XYT (spec_mapX flow_prev_XYT I.rows I.cols)
          (spec_mapY flow_prev_XYT I.rows I.cols)) I.rows I.cols delta_grad alpha_grad).get
        y x 0 ∧
      (gradientPermeability_float32 Real.sqrt Real.rpow flow_XY
        (remap flow_prev_XYT (spec_mapX flow_prev_XYT I.rows I.cols)
          (spec_mapY flow_prev_XYT I.rows I.cols)) I.rows I.cols delta_grad alpha_grad).get
        y x 0 ≤ 1) ∧
    (0 ≤ (computeTemporalPermeability_float32 Real.sqrt Real.rpow remap I I_prev flow_XY
        flow_prev_XYT delta_photo delta_grad alpha_photo alpha_grad).get y x 0 ∧
      (computeTemporalPermeability_float32 Real.sqrt Real.rpow remap I I_prev flow_XY
        flow_prev_XYT delta_photo delta_grad alpha_photo alpha_grad).get y x 0 ≤ 1) := by
  have hp := photometricPermeability_float32_range I
    (remap I_prev (spec_mapX flow_prev_XYT I.rows I.cols)
      (spec_mapY flow_prev_XYT I.rows I.cols)) delta_photo alpha_photo hap y x 0
  have hg := gradientPermeability_float32_range flow_XY
    (remap flow_prev_XYT (spec_mapX flow_prev_XYT I.rows I.cols)
      (spec_mapY flow_prev_XYT I.rows I.cols)) I.rows I.cols delta_grad alpha_grad hag y x 0
  have he := computeTemporalPermeability_float32_get Real.sqrt Real.rpow remap I I_prev flow_XY
    flow_prev_XYT delta_photo delta_grad alpha_photo alpha_grad y x 0
  refine ⟨he, hp, hg, ?_, ?_⟩
  · rw [he]
    exact mul_nonneg hp.1 hg.1
  · rw [he]
    exact mul_le_one₀ hp.2 hg.1 hg.2

/-- C13 (amended) at the input of the counterexample, pixel `(0, 1)`: the product is `0`,
inside `[0, 1]`. -/
theorem C13_temporal_permeability_in_unit_interval_witness :
    (0 : ℝ) < 3 / 10 ∧ (0 : ℝ) < 1 ∧ (0 : ℝ) < 2 ∧
    0 < (imgHuge : Mat ℝ).rows ∧ 1 < (imgHuge : Mat ℝ).cols ∧
    (0 ≤ (computeTemporalPermeability_float32 Real.sqrt Real.rpow remapNearest
        (imgHuge : Mat ℝ) img00 flowZero flowZero (3 / 10) 1 2 2).get 0 1 0 ∧
      (computeTemporalPermeability_float32 Real.sqrt Real.rpow remapNearest
        (imgHuge : Mat ℝ) img00 flowZero flowZero (3 / 10) 1 2 2).get 0 1 0 ≤ 1) :=
  ⟨by norm_num, by norm_num, by norm_num, by decide, by decide,
    (C13_temporal_permeability_in_unit_interval remapNearest imgHuge img00 flowZero flowZero
      (3 / 10) 1 2 2 (by norm_num) (by norm_num) (by norm_num) (by norm_num) 0 1
      (by decide) (by decide)).2.2.2⟩

end Float32TemporalFacts


end PFilter
